import Mathlib

/-!
Verification of the graph-analysis engine of the ambulance shortest-route
planner: a shallow embedding in Lean 4 of `app/utils/dijkstra.js`,
`app/utils/bellmanFord.js` and the graph-theory analysis utilities of
`app/page.jsx`, together with theorems settling the specification claims.

Modelling conventions:
* JavaScript numbers on the code paths exercised here are modelled by `α`
  (the engine only ever adds and compares edge weights).
* A JavaScript runtime abort (a `TypeError` from indexing a missing
  adjacency key, or a non-terminating reconstruction loop) is modelled by
  an `Option` result being `none`.
* JavaScript objects used as string-keyed dictionaries are modelled by
  functions `String → α` updated pointwise, or by insertion-ordered
  association lists where key enumeration order is observable.
* `distances[x]` in `bellmanFord` can be a number, `Infinity`, or
  `undefined` (for a key never created); these three states are modelled
  by `Option (Option α)`: `none` is `undefined`, `some none` is
  `Infinity`, and `some (some q)` is the number `q`.  The JS comparison
  `newDistance < distances[to]` is false when `distances[to]` is
  `undefined` (NaN comparison), which the model reproduces.
-/

set_option linter.unusedSectionVars false

namespace AmbulanceRoute

variable {α : Type} [LinearOrderedAddCommGroup α]

/-- A node of the graph snapshot.  The engine consults only the `id`
field of the node objects, so the embedding records just that. -/
structure Node where
  id : String
deriving DecidableEq, Repr

/-- An edge of the graph snapshot: `{ id, from, to, weight, blocked }`.
The JS fields `from` and `to` are rendered `from'` and `to'` because
`from` is a Lean keyword. -/
structure Edge (α : Type) where
  id : String
  from' : String
  to' : String
  weight : α
  blocked : Bool
deriving DecidableEq, Repr

/-- One step of a returned route: `{ from, to, cost, edgeId }`. -/
structure Step (α : Type) where
  from' : String
  to' : String
  cost : α
  edgeId : String
deriving DecidableEq, Repr

/-- Result record of `dijkstra`: `{ path, totalCost, steps, found }`. -/
structure DijkstraResult (α : Type) where
  path : List String
  totalCost : α
  steps : List (Step α)
  found : Bool
deriving DecidableEq, Repr

/-- Pointwise update of a string-keyed dictionary. -/
def setD {α : Type} (m : String → α) (k : String) (v : α) : String → α :=
  fun x => if x = k then v else m x

/-- The unblocked edges of a snapshot (`edges.filter(e => !e.blocked)`). -/
def activeEdges (edges : List (Edge α)) : List (Edge α) :=
  edges.filter fun e => e.blocked = false

/-- Every unblocked edge references existing nodes.  When this fails, the
JS adjacency-building loops (`graph[edge.from].push(...)` and friends)
throw a `TypeError`, because `graph` only has keys for the ids in
`nodes`. -/
def edgesOk (ids : List String) (edges : List (Edge α)) : Bool :=
  edges.all fun e => e.blocked || (ids.contains e.from' && ids.contains e.to')

/-- Adjacency entry `{ node, weight, edgeId }` pushed by `dijkstra`. -/
structure AdjEntry (α : Type) where
  node : String
  weight : α
  edgeId : String
deriving DecidableEq, Repr

/-- The adjacency list `graph[v]` built by `dijkstra` from the unblocked
edges: iterating the edge list in order, each unblocked edge pushes a
forward entry onto `graph[edge.from]` and a backward entry onto
`graph[edge.to]`. -/
def adjOf (edges : List (Edge α)) (v : String) : List (AdjEntry α) :=
  match edges with
  | [] => []
  | e :: es =>
    (if e.blocked then []
     else
       (if e.from' = v then [⟨e.to', e.weight, e.id⟩] else []) ++
       (if e.to' = v then [⟨e.from', e.weight, e.id⟩] else []))
    ++ adjOf es v

/-- An entry of the priority-queue array: `{ node, distance }`. -/
structure PQEntry (α : Type) where
  node : String
  distance : α
deriving DecidableEq, Repr

/-- The comparator `(a, b) => a.distance - b.distance` used to sort the
priority-queue array ascending by distance. -/
def pqLE (a b : PQEntry α) : Prop := a.distance ≤ b.distance

instance : DecidableRel (pqLE (α := α)) := fun a b => inferInstanceAs (Decidable (a.distance ≤ b.distance))

instance : IsTotal (PQEntry α) pqLE := ⟨fun a b => le_total a.distance b.distance⟩

instance : IsTrans (PQEntry α) pqLE := ⟨fun _ _ _ h h' => le_trans h h'⟩

/-- `newDistance < distances[neighbor]` where `none` models `Infinity`. -/
def ltInf (a : α) (b : Option α) : Bool :=
  match b with
  | none => true
  | some q => a < q

/-- The neighbor-relaxation loop body of `dijkstra`
(`graph[currentNode].forEach(...)`): skips visited neighbors, and when
`distances[currentNode] + weight` improves on `distances[neighbor]`
updates the distance, records the predecessor and pushes a fresh
priority-queue entry. -/
def relaxAll (vis : List String) (u : String) :
    List (AdjEntry α) → (String → Option α) → (String → Option String) → List (PQEntry α) →
    (String → Option α) × (String → Option String) × List (PQEntry α)
  | [], dist, prev, pq => (dist, prev, pq)
  | a :: rest, dist, prev, pq =>
    if a.node ∈ vis then relaxAll vis u rest dist prev pq
    else
      match dist u with
      | none => relaxAll vis u rest dist prev pq
      | some du =>
        let nd := du + a.weight
        if ltInf nd (dist a.node) then
          relaxAll vis u rest (setD dist a.node (some nd)) (setD prev a.node (some u))
            (pq ++ [⟨a.node, nd⟩])
        else relaxAll vis u rest dist prev pq

/-- The main `while (pq.length > 0)` loop of `dijkstra`.  Each iteration
sorts the queue ascending by distance (the JS sort is stable, so the
stable `List.insertionSort` computes the same array), shifts the head,
skips already-visited nodes, breaks on the destination, and otherwise
relaxes the neighbors.  The loop always terminates in JS; the fuel is an
artifact of the embedding and `none` marks the (unreachable) exhaustion
case. -/
def dijkstraLoop (adj : String → List (AdjEntry α)) (endId : String) :
    Nat → List (PQEntry α) → (String → Option α) → (String → Option String) → List String →
    Option ((String → Option α) × (String → Option String) × List String)
  | 0, pq, dist, prev, vis => if pq = [] then some (dist, prev, vis) else none
  | fuel+1, pq, dist, prev, vis =>
    match List.insertionSort pqLE pq with
    | [] => some (dist, prev, vis)
    | cur :: pq' =>
      if cur.node ∈ vis then dijkstraLoop adj endId fuel pq' dist prev vis
      else
        if cur.node = endId then some (dist, prev, vis ++ [cur.node])
        else if (match dist cur.node with
                 | some d => decide (d < cur.distance)
                 | none => false) then
          dijkstraLoop adj endId fuel pq' dist prev (vis ++ [cur.node])
        else
          match relaxAll (vis ++ [cur.node]) cur.node (adj cur.node) dist prev pq' with
          | (dist', prev', pq'') =>
            dijkstraLoop adj endId fuel pq'' dist' prev' (vis ++ [cur.node])

/-- Path reconstruction (`while (current !== null) { path.unshift(current);
current = previous[current]; }`).  The JS loop does not terminate if the
predecessor pointers contain a cycle; fuel exhaustion (`none`) models that
divergence. -/
def reconPath (prev : String → Option String) :
    Nat → String → List String → Option (List String)
  | 0, _, _ => none
  | fuel+1, cur, acc =>
    match prev cur with
    | none => some (cur :: acc)
    | some p => reconPath prev fuel p (cur :: acc)

/-- `edges.find(e => (e.from === from && e.to === to) || (e.to === from &&
e.from === to))`: the first edge in input order, blocked edges included,
joining the two endpoints. -/
def findEdge (edges : List (Edge α)) (f t : String) : Option (Edge α) :=
  edges.find? fun e => (e.from' == f && e.to' == t) || (e.to' == f && e.from' == t)

/-- The step-building loop of `dijkstra`: for each consecutive pair of the
reconstructed path, look up the first matching edge in the full edge list
and record its weight and id; a missing match is silently skipped. -/
def buildSteps (edges : List (Edge α)) : List String → List (Step α)
  | f :: t :: rest =>
    (match findEdge edges f t with
     | some e => [⟨f, t, e.weight, e.id⟩]
     | none => []) ++ buildSteps edges (t :: rest)
  | _ => []

/-- Fuel that strictly dominates the number of iterations of the
priority-queue loop (at most one initial entry plus one push per
adjacency entry of each freshly visited node). -/
def dijkstraFuel (nodes : List Node) (edges : List (Edge α)) : Nat :=
  (nodes.length + 1) * (2 * edges.length + 1) + 1

/-- Shallow embedding of `dijkstra(nodes, edges, startId, endId)` from
`app/utils/dijkstra.js`.  `none` models a thrown `TypeError` (an unblocked
edge referencing a node id absent from `nodes`) or a diverging
reconstruction loop; both are impossible on well-formed snapshots. -/
def dijkstra (nodes : List Node) (edges : List (Edge α)) (startId endId : String) :
    Option (DijkstraResult α) :=
  if startId = "" ∨ endId = "" ∨ startId = endId then
    some ⟨[], 0, [], false⟩
  else if edgesOk (nodes.map Node.id) edges = false then none
  else if startId ∉ nodes.map Node.id ∨ endId ∉ nodes.map Node.id then
    some ⟨[], 0, [], false⟩
  else
    match dijkstraLoop (adjOf edges) endId (dijkstraFuel nodes edges)
        [⟨startId, 0⟩] (fun x => if x = startId then some 0 else none) (fun _ => none) [] with
    | none => none
    | some (dist, prev, _) =>
      match dist endId with
      | none => some ⟨[], 0, [], false⟩
      | some d =>
        match reconPath prev (nodes.length + 1) endId [] with
        | none => none
        | some path => some ⟨path, d, buildSteps edges path, true⟩

/-- `hasNegativeWeights(edges)` from `app/utils/dijkstra.js`. -/
def hasNegativeWeights (edges : List (Edge α)) : Bool :=
  edges.any fun e => !e.blocked && e.weight < 0

/-! ## Embedding of `app/utils/bellmanFord.js` (first, authoritative version) -/

/-- A JS number that is either `-Infinity` or finite, as stored in the
`totalCost` field of a `bellmanFord` result. -/
inductive JsNumber (α : Type) where
  | negInfinity : JsNumber α
  | finite : α → JsNumber α
deriving DecidableEq, Repr

/-- Result record of `bellmanFord`:
`{ path, totalCost, steps, found, hasNegativeCycle, error? }`. -/
structure BellmanResult (α : Type) where
  path : List String
  totalCost : JsNumber α
  steps : List (Step α)
  found : Bool
  hasNegativeCycle : Bool
  error : Option String
deriving DecidableEq, Repr

/-- A directed copy of an unblocked edge, as pushed onto
`bidirectionalEdges`. -/
structure BiEdge (α : Type) where
  from' : String
  to' : String
  weight : α
  id : String
deriving DecidableEq, Repr

/-- `bidirectionalEdges`: for each unblocked edge, in input order, a
forward copy followed by a backward copy. -/
def bidirEdges (edges : List (Edge α)) : List (BiEdge α) :=
  match edges with
  | [] => []
  | e :: es =>
    if e.blocked then bidirEdges es
    else ⟨e.from', e.to', e.weight, e.id⟩ :: ⟨e.to', e.from', e.weight, e.id⟩ :: bidirEdges es

/-- The string key `` `${from}-${to}` `` used by the `edgeMap`. -/
def edgeKey (f t : String) : String := f ++ "-" ++ t

/-- `edgeMap.get(edgeKey)`: the map is populated left-to-right over the
unblocked edges, two keys per edge, later `set`s overwriting earlier
ones, so a lookup returns the last unblocked edge (in input order) one of
whose two keys equals the queried key. -/
def edgeMapFind (edges : List (Edge α)) (f t : String) : Option (Edge α) :=
  (activeEdges edges).reverse.find? fun e =>
    edgeKey e.from' e.to' == edgeKey f t || edgeKey e.to' e.from' == edgeKey f t

/-- The `distances` dictionary of `bellmanFord`: `none` is a key that was
never created (`undefined`), `some none` is `Infinity`, `some (some q)`
is the finite number `q`. -/
abbrev BFDist (α : Type) := String → Option (Option α)

/-- Relaxation of a single directed edge copy: fires exactly when
`distances[from]` is a finite number and `distances[from] + weight <
distances[to]` (false when `distances[to]` is `undefined`, because the JS
comparison is then a NaN comparison). -/
def bfRelaxable (dist : BFDist α) (be : BiEdge α) : Bool :=
  match dist be.from' with
  | some (some df) =>
    match dist be.to' with
    | none => false
    | some none => true
    | some (some dt) => df + be.weight < dt
  | _ => false

/-- One relaxation pass over `bidirectionalEdges`, threading the
`updated` flag. -/
def bfPass (prev : String → Option String) (updated : Bool) :
    List (BiEdge α) → BFDist α → BFDist α × (String → Option String) × Bool
  | [], dist => (dist, prev, updated)
  | be :: rest, dist =>
    if bfRelaxable dist be then
      match dist be.from' with
      | some (some df) =>
        bfPass (setD prev be.to' (some be.from')) true rest
          (setD dist be.to' (some (some (df + be.weight))))
      | _ => bfPass prev updated rest dist
    else bfPass prev updated rest dist

/-- The `|V| - 1` relaxation passes with early termination when a pass
makes no update. -/
def bfLoop (bedges : List (BiEdge α)) :
    Nat → BFDist α → (String → Option String) → BFDist α × (String → Option String)
  | 0, dist, prev => (dist, prev)
  | k+1, dist, prev =>
    match bfPass prev false bedges dist with
    | (dist', prev', updated) =>
      if updated then bfLoop bedges k dist' prev' else (dist', prev')

/-- `Set.add` on a set modelled as an insertion-ordered duplicate-free
list. -/
def addUniq (s : List String) (x : String) : List String :=
  if x ∈ s then s else s ++ [x]

/-- The first negative-cycle check: every directed edge copy that can
still be relaxed puts its target into `nodesInNegativeCycle`. -/
def initialTaint (bedges : List (BiEdge α)) (dist : BFDist α) : List String :=
  bedges.foldl (fun s be => if bfRelaxable dist be then addUniq s be.to' else s) []

/-- One taint-propagation pass (`for (const edge of bidirectionalEdges) {
if (has(from)) add(to) }`); the set grows during the pass, exactly as the
JS `Set` does. -/
def taintPass (bedges : List (BiEdge α)) (s : List String) : List String :=
  bedges.foldl (fun s be => if be.from' ∈ s then addUniq s be.to' else s) s

/-- The `nodeCount` fixed propagation passes. -/
def taintIter (bedges : List (BiEdge α)) : Nat → List String → List String
  | 0, s => s
  | k+1, s => taintIter bedges k (taintPass bedges s)

/-- Path reconstruction of `bellmanFord`, with its cycle guard.  Outer
`none` is the (unreachable) fuel exhaustion of the embedding; `some none`
is the `Cycle detected in path reconstruction` early return; `some (some
p)` is a completed walk back to a node with no predecessor. -/
def bfRecon (prev : String → Option String) :
    Nat → String → List String → List String → Option (Option (List String))
  | 0, _, _, _ => none
  | fuel+1, cur, seen, acc =>
    if cur ∈ seen then some none
    else
      match prev cur with
      | none => some (some (cur :: acc))
      | some p => bfRecon prev fuel p (cur :: seen) (cur :: acc)

/-- The step-building loop of `bellmanFord`: consecutive path pairs are
looked up in the `edgeMap` (unblocked edges only, last write wins); a
missing key only logs a warning and skips the step. -/
def bfSteps (edges : List (Edge α)) : List String → List (Step α)
  | f :: t :: rest =>
    (match edgeMapFind edges f t with
     | some e => [⟨f, t, e.weight, e.id⟩]
     | none => []) ++ bfSteps edges (t :: rest)
  | _ => []

/-- The initial `distances` dictionary of `bellmanFord`: every node id
maps to `Infinity`, then the origin is set to `0`. -/
def bfDist0 (nodes : List Node) (startId : String) : BFDist α := fun x =>
  if x = startId then some (some 0) else if x ∈ nodes.map Node.id then some none else none

/-- The `(distances, previous)` state after the up-to-`|V| - 1`
relaxation passes of `bellmanFord`. -/
def bfFinal (nodes : List Node) (edges : List (Edge α)) (startId : String) :
    BFDist α × (String → Option String) :=
  bfLoop (bidirEdges edges) (nodes.length - 1) (bfDist0 nodes startId) (fun _ => none)

/-- The fully propagated `nodesInNegativeCycle` set (`nodeCount` extra
passes over the directed edge copies, starting from the targets of the
still-relaxable copies). -/
def bfTaint (nodes : List Node) (edges : List (Edge α)) (startId : String) : List String :=
  taintIter (bidirEdges edges) nodes.length
    (initialTaint (bidirEdges edges) (bfFinal nodes edges startId).1)

/-- Shallow embedding of `bellmanFord(nodes, edges, startId, endId)` from
`app/utils/bellmanFord.js` (the first, authoritative implementation in
that file).  The function itself never throws in JS; `none` can arise
only from the reconstruction fuel of the embedding and is proved
unreachable.  (The JS code propagates the taint set only when the initial
set is nonempty; since propagation of an empty set is empty, testing
membership in the unconditional propagation `bfTaint` under the guard
`initialTaint ≠ []` is the same condition.) -/
def bellmanFord (nodes : List Node) (edges : List (Edge α)) (startId endId : String) :
    Option (BellmanResult α) :=
  if nodes = [] then
    some ⟨[], .finite 0, [], false, false, some ("Invalid input: nodes and edges are required")⟩
  else if startId = "" ∨ endId = "" then
    some ⟨[], .finite 0, [], false, false, some ("Start and end node IDs are required")⟩
  else if startId = endId then
    some ⟨[startId], .finite 0, [], true, false, none⟩
  else if startId ∉ nodes.map Node.id ∨ endId ∉ nodes.map Node.id then
    some ⟨[], .finite 0, [], false, false, some ("Start or end node not found in graph")⟩
  else if bidirEdges edges = [] then
    some ⟨[], .finite 0, [], false, false, some ("No active edges in graph")⟩
  else if initialTaint (bidirEdges edges) (bfFinal nodes edges startId).1 ≠ [] ∧
      endId ∈ bfTaint nodes edges startId then
    some ⟨[], .negInfinity, [], false, true,
      some ("Destination is affected by a negative weight cycle")⟩
  else
    match (bfFinal nodes edges startId).1 endId with
    | some (some d) =>
      match bfRecon (bfFinal nodes edges startId).2 (nodes.length + 2) endId [] [] with
      | none => none
      | some none =>
        some ⟨[], .finite 0, [], false, false,
          some ("Cycle detected in path reconstruction")⟩
      | some (some path) =>
        if path.head? ≠ some startId ∨ path.getLast? ≠ some endId then
          some ⟨[], .finite 0, [], false,
            decide (initialTaint (bidirEdges edges) (bfFinal nodes edges startId).1 ≠ []), none⟩
        else
          some ⟨path, .finite d, bfSteps edges path, true,
            decide (initialTaint (bidirEdges edges) (bfFinal nodes edges startId).1 ≠ []), none⟩
    | _ => some ⟨[], .finite 0, [], false,
        decide (initialTaint (bidirEdges edges) (bfFinal nodes edges startId).1 ≠ []), none⟩

/-! ## Embedding of the graph-theory analysis utilities of `app/page.jsx` -/

/-- `calculateDegrees(nodes, edges)`: a plain JS object mapping each node
id to the count of unblocked incident edges.  Modelled as an
insertion-ordered association list (object key order).  Increments whose
key is not a node id create a `NaN`-valued key in JS; such keys are never
odd and never the minimum consulted later, so the embedding simply skips
them (they occur only on snapshots with dangling unblocked edges, where
the surrounding analyzers are reached only for node counts at most 1). -/
def calculateDegrees (nodes : List Node) (edges : List (Edge α)) : List (String × Nat) :=
  let init := nodes.foldl
    (fun acc n => if acc.any (fun p => p.1 = n.id) then acc else acc ++ [(n.id, 0)]) []
  edges.foldl
    (fun acc e =>
      if e.blocked then acc
      else
        (acc.map fun p => if p.1 = e.from' then (p.1, p.2 + 1) else p).map
          fun p => if p.1 = e.to' then (p.1, p.2 + 1) else p)
    init

/-- Degree lookup in the association list. -/
def degOf (degrees : List (String × Nat)) (v : String) : Nat :=
  ((degrees.find? fun p => p.1 = v).map Prod.snd).getD 0

/-- Result of `isGraphConnected`: `{ connected, components }`. -/
structure Connectivity where
  connected : Bool
  components : Nat
deriving DecidableEq, Repr

/-- The plain-id adjacency lists built by `isGraphConnected` (array
pushes, duplicates kept, unblocked edges only). -/
def adjIds (edges : List (Edge α)) (v : String) : List String :=
  match edges with
  | [] => []
  | e :: es =>
    (if e.blocked then []
     else
       (if e.from' = v then [e.to'] else []) ++
       (if e.to' = v then [e.from'] else []))
    ++ adjIds es v

/-- Worklist depth-first traversal computing the set of nodes reachable
from the stack, added in first-visit order.  The JS original is a
recursive `dfs`; the visited set it produces is the same.  The fuel
bounds the worklist processing and is large enough for every snapshot
(each visit pushes at most one adjacency list). -/
def dfsReach (adj : String → List String) :
    Nat → List String → List String → List String
  | 0, _, vis => vis
  | _+1, [], vis => vis
  | fuel+1, v :: stack, vis =>
    if v ∈ vis then dfsReach adj fuel stack vis
    else dfsReach adj fuel (adj v ++ stack) (vis ++ [v])

/-- The component-counting loop of `isGraphConnected`: one DFS per
not-yet-visited node, in node-list order. -/
def connComponents (adj : String → List String) (fuel : Nat) :
    List Node → List String → Nat → Nat
  | [], _, c => c
  | n :: rest, vis, c =>
    if n.id ∈ vis then connComponents adj fuel rest vis c
    else connComponents adj fuel rest (dfsReach adj fuel [n.id] vis) (c + 1)

/-- The component count computed by `isGraphConnected` (the fuel bounds
the worklist traversal and dominates every actual run). -/
def connCount (nodes : List Node) (edges : List (Edge α)) : Nat :=
  connComponents (adjIds edges) ((nodes.length + 1) * (2 * edges.length + 1) + 1) nodes [] 0

/-- Shallow embedding of `isGraphConnected(nodes, edges)` from
`app/page.jsx`.  `none` models the `TypeError` thrown while building the
adjacency lists when an unblocked edge references a missing node (only
reachable when there are at least two nodes, because the two trivial
cases return before the adjacency lists are built). -/
def isGraphConnected (nodes : List Node) (edges : List (Edge α)) : Option Connectivity :=
  if nodes.length = 0 then some ⟨true, 0⟩
  else if nodes.length = 1 then some ⟨true, 1⟩
  else if edgesOk (nodes.map Node.id) edges = false then none
  else some ⟨decide (connCount nodes edges = 1), connCount nodes edges⟩

/-- Result record of `analyzeEulerian` (the fields with algorithmic
content; the prose fields are omitted).  `connected`/`components` are
`none` for the zero-active-edge record, which does not carry them. -/
structure EulerResult where
  hasEulerianCircuit : Bool
  hasEulerianPath : Bool
  oddDegreeVertices : List String
  oddDegreeCount : Nat
  degrees : List (String × Nat)
  connected : Option Bool
  components : Option Nat
deriving DecidableEq, Repr

/-- `oddDegreeVertices`: the keys of the degree table, in key order,
whose degree is odd. -/
def oddVerts (nodes : List Node) (edges : List (Edge α)) : List String :=
  ((calculateDegrees nodes (activeEdges edges)).filter fun p => p.2 % 2 = 1).map Prod.fst

/-- Shallow embedding of `analyzeEulerian(nodes, edges)` from
`app/page.jsx`.  `none` models the `TypeError` from `isGraphConnected`
on a dangling unblocked edge. -/
def analyzeEulerian (nodes : List Node) (edges : List (Edge α)) : Option EulerResult :=
  if activeEdges edges = [] then
    some ⟨decide (nodes.length ≤ 1), decide (nodes.length ≤ 1), [], 0,
      calculateDegrees nodes (activeEdges edges), none, none⟩
  else
    match isGraphConnected nodes (activeEdges edges) with
    | none => none
    | some conn =>
      some ⟨conn.connected && decide ((oddVerts nodes edges).length = 0),
        conn.connected &&
          (decide ((oddVerts nodes edges).length = 0) ||
           decide ((oddVerts nodes edges).length = 2)),
        oddVerts nodes edges, (oddVerts nodes edges).length,
        calculateDegrees nodes (activeEdges edges),
        some conn.connected, some conn.components⟩

/-- The `samplePath` field of a Hamiltonian result: absent (`n > 8`
record), `null`, an array of ids, or the literal string returned by the
Dirac/Ore branches. -/
inductive Sample where
  | absent : Sample
  | nullv : Sample
  | ids : List String → Sample
  | txt : String → Sample
deriving DecidableEq, Repr

/-- A Hamiltonian answer: `true`, `false`, or the string `"unknown"`. -/
inductive HamAns where
  | yes : HamAns
  | no : HamAns
  | unknown : HamAns
deriving DecidableEq, Repr

/-- Result record of `analyzeHamiltonian` (the fields with algorithmic
content). -/
structure HamResult where
  hasHamiltonianCircuit : HamAns
  hasHamiltonianPath : HamAns
  certainty : String
  samplePath : Sample
deriving DecidableEq, Repr

/-- The `Set`-valued adjacency lists built by `analyzeHamiltonian`:
insertion-ordered and duplicate-free, over unblocked edges. -/
def adjSetOf (edges : List (Edge α)) (v : String) : List String :=
  edges.foldl
    (fun acc e =>
      if e.blocked then acc
      else if e.to' = v then
        addUniq (if e.from' = v then addUniq acc e.to' else acc) e.from'
      else if e.from' = v then addUniq acc e.to' else acc)
    []

/-- `hamiltonianPathDFS`: mark the current node visited, extend the path,
succeed when the path covers every vertex, else try the unvisited
neighbors in adjacency order (first success wins, visited neighbors
skipped — `List.findSome?` is exactly the JS `for`-loop with its early
`return true`).  The JS recursion depth is bounded by `target` because
the path grows by exactly one per level; the structural fuel of the
embedding is initialized above that bound, so the `none` of exhaustion
is unreachable. -/
def hamDFS (adj : String → List String) (target : Nat) :
    Nat → String → List String → List String → Option (List String)
  | 0, _, _, _ => none
  | fuel+1, cur, vis, path =>
    if (path ++ [cur]).length = target then some (path ++ [cur])
    else
      (adj cur).findSome? fun nb =>
        if nb ∈ vis ++ [cur] then none
        else hamDFS adj target fuel nb (vis ++ [cur]) (path ++ [cur])

/-- `findHamiltonianPath(nodes, graph)`: run the backtracking search from
every start vertex in node-list order. -/
def findHamiltonianPath (adj : String → List String) (nodeIds : List String)
    (target : Nat) : Option (List String) :=
  match nodeIds with
  | [] => none
  | s :: rest =>
    match hamDFS adj target (target + 1) s [] [] with
    | some p => some p
    | none => findHamiltonianPath adj rest target

/-- `hamiltonianCircuitDFS`: when the path covers every vertex, succeed
exactly if the start is adjacent to the current vertex; otherwise extend
through an unvisited neighbor.  As for `hamDFS`, the fuel dominates the
JS recursion depth. -/
def hamCircDFS (adj : String → List String) (target : Nat) (start : String) :
    Nat → String → List String → List String → Option (List String)
  | 0, _, _, _ => none
  | fuel+1, cur, vis, path =>
    if path.length = target then
      if start ∈ adj cur then some path else none
    else
      (adj cur).findSome? fun nb =>
        if nb ∈ vis then none
        else hamCircDFS adj target start fuel nb (vis ++ [nb]) (path ++ [nb])

/-- `findHamiltonianCircuit(nodes, graph)`: a single search rooted at the
first vertex. -/
def findHamiltonianCircuit (adj : String → List String) (nodeIds : List String)
    (target : Nat) : Option (List String) :=
  match nodeIds with
  | [] => none
  | s :: _ => hamCircDFS adj target s (target + 1) s [s] [s]

/-- The pair-enumeration order of the Ore check: all `(i, j)` with
`i < j` over the node-id array. -/
def listPairs : List String → List (String × String)
  | [] => []
  | x :: xs => (xs.map fun y => (x, y)) ++ listPairs xs

/-- `Math.min(...Object.values(degrees))` over a nonempty degree table
(the zero-table case yields `0`; it is unreachable where this is used,
because there are at least three nodes). -/
def minDegreeOf (degrees : List (String × Nat)) : Nat :=
  match degrees.map Prod.snd with
  | [] => 0
  | d :: ds => ds.foldl Nat.min d

/-- Dirac sufficient-condition test of `analyzeHamiltonian`:
`minDegree >= n / 2` (JS floating division is exact on halves). -/
def diracCond (nodes : List Node) (edges : List (Edge α)) : Prop :=
  ((minDegreeOf (calculateDegrees nodes (activeEdges edges)) : ℚ))
    ≥ (nodes.length : ℚ) / 2

instance (nodes : List Node) (edges : List (Edge α)) : Decidable (diracCond nodes edges) :=
  inferInstanceAs (Decidable (_ ≥ _))

/-- Ore sufficient-condition test of `analyzeHamiltonian`: every pair of
distinct index positions `(i, j)`, `i < j`, of the node-id array that is
non-adjacent must have degree sum at least `n`. -/
def oreCond (nodes : List Node) (edges : List (Edge α)) : Bool :=
  let active := activeEdges edges
  let ids := nodes.map Node.id
  let degrees := calculateDegrees nodes active
  let adj := adjSetOf active
  (listPairs ids).all fun p =>
    (p.2 ∈ adj p.1) || decide (nodes.length ≤ degOf degrees p.1 + degOf degrees p.2)

/-- The path search of the exhaustive branch of `analyzeHamiltonian`. -/
def hamSearchPath (nodes : List Node) (edges : List (Edge α)) : Option (List String) :=
  findHamiltonianPath (adjSetOf (activeEdges edges)) (nodes.map Node.id) nodes.length

/-- The circuit search of the exhaustive branch. -/
def hamSearchCircuit (nodes : List Node) (edges : List (Edge α)) : Option (List String) :=
  findHamiltonianCircuit (adjSetOf (activeEdges edges)) (nodes.map Node.id) nodes.length

/-- Shallow embedding of `analyzeHamiltonian(nodes, edges)` from
`app/page.jsx`.  `none` models the `TypeError` thrown while building the
`Set` adjacency lists (reachable only for three or more nodes, after the
trivial-size records have returned). -/
def analyzeHamiltonian (nodes : List Node) (edges : List (Edge α)) : Option HamResult :=
  match nodes with
  | [] => some ⟨.yes, .yes, "definite", .ids []⟩
  | [n0] => some ⟨.yes, .yes, "definite", .ids [n0.id]⟩
  | [n0, n1] =>
    if (activeEdges edges).any (fun e =>
        (e.from' == n0.id && e.to' == n1.id) || (e.from' == n1.id && e.to' == n0.id)) then
      some ⟨.no, .yes, "definite", .ids [n0.id, n1.id]⟩
    else some ⟨.no, .no, "definite", .nullv⟩
  | _ :: _ :: _ :: _ =>
    if edgesOk (nodes.map Node.id) (activeEdges edges) = false then none
    else
      match isGraphConnected nodes (activeEdges edges) with
      | none => none
      | some conn =>
        if conn.connected = false then some ⟨.no, .no, "definite", .nullv⟩
        else if diracCond nodes edges ∧ 3 ≤ nodes.length then
          some ⟨.yes, .yes, "definite",
            .txt ("Guaranteed to exist (construction not computed)")⟩
        else if oreCond nodes edges = true ∧ 3 ≤ nodes.length then
          some ⟨.yes, .yes, "definite",
            .txt ("Guaranteed to exist (construction not computed)")⟩
        else if nodes.length ≤ 8 then
          some ⟨if (hamSearchCircuit nodes edges).isSome then .yes else .no,
            if (hamSearchPath nodes edges).isSome then .yes else .no,
            "definite",
            match hamSearchCircuit nodes edges, hamSearchPath nodes edges with
            | some c, _ => .ids c
            | none, some p => .ids p
            | none, none => .nullv⟩
        else some ⟨.unknown, .unknown, "unknown", .absent⟩

/-! ## Specification-side relations used to state the claims -/

/-- One directed hop along `bidirectionalEdges` between two node ids. -/
def bstep (bedges : List (BiEdge α)) (ids : List String) (a b : String) : Prop :=
  a ∈ ids ∧ b ∈ ids ∧ ∃ be ∈ bedges, be.from' = a ∧ be.to' = b

instance (bedges : List (BiEdge α)) (ids : List String) (a b : String) :
    Decidable (bstep bedges ids a b) :=
  inferInstanceAs (Decidable (a ∈ ids ∧ b ∈ ids ∧ ∃ be ∈ bedges, be.from' = a ∧ be.to' = b))

/-- Reachability over `bidirectionalEdges` through node ids. -/
def breach (bedges : List (BiEdge α)) (ids : List String) : String → String → Prop :=
  Relation.ReflTransGen (bstep bedges ids)

/-- Reachability from `a` to `b` in at most `k` hops (used to relate the
fixed-iteration taint propagation to graph reachability). -/
def hopReach (bedges : List (BiEdge α)) (ids : List String) : Nat → String → String → Prop
  | 0, a, b => a = b
  | k+1, a, b => a = b ∨ ∃ c, bstep bedges ids a c ∧ hopReach bedges ids k c b

/-- A walk of the `dijkstra` adjacency structure from `s` to a vertex,
together with its accumulated cost. -/
inductive WalkTo (edges : List (Edge α)) (s : String) : String → α → Prop where
  | base : WalkTo edges s s 0
  | step {v w : String} {c : α} {en : AdjEntry α} :
      WalkTo edges s v c → en ∈ adjOf edges v → en.node = w →
      WalkTo edges s w (c + en.weight)

/-- Two node ids are joined by some unblocked edge of the snapshot. -/
def hamAdj (edges : List (Edge α)) (a b : String) : Prop :=
  ∃ e ∈ edges, e.blocked = false ∧
    ((e.from' = a ∧ e.to' = b) ∨ (e.from' = b ∧ e.to' = a))

/-- The link invariant of the `previous` pointers shared by both
engines: `b`'s predecessor pointer names `a`. -/
def prevLink (prev : String → Option String) (a b : String) : Prop :=
  prev b = some a

/-- The sum of the `cost` fields of a list of steps (`sum(step.cost for
step in steps)` of the claims). -/
def stepsCost (steps : List (Step α)) : α :=
  (steps.map Step.cost).sum

/-- The invariant maintained by the relaxation loop of `bellmanFord`,
tying the `distances` and `previous` dictionaries to the snapshot:
`distances` has exactly the node ids as keys, every finite entry is
reachable from the origin, every predecessor pointer is witnessed by a
directed edge copy whose relaxation recorded it (with the source entry
still at most `weight` below the target entry), and an entry without a
predecessor still holds its initial value. -/
structure BInv (bedges : List (BiEdge α)) (ids : List String) (startId : String)
    (dist : BFDist α) (prev : String → Option String) : Prop where
  keys : ∀ x, (dist x).isSome = true ↔ x ∈ ids
  reach : ∀ x q, dist x = some (some q) → breach bedges ids startId x
  link : ∀ x y, prev x = some y → ∃ be ∈ bedges, be.from' = y ∧ be.to' = x ∧
    ∃ dy dx, dist y = some (some dy) ∧ dist x = some (some dx) ∧ dy + be.weight ≤ dx
  prev_none : ∀ x, prev x = none →
    dist x = (if x = startId then some (some 0)
              else if x ∈ ids then some none else none)
  ranked : ∃ rank : String → Nat, ∀ x y, prev x = some y →
    ∃ be ∈ bedges, be.from' = y ∧ be.to' = x ∧
      ∃ dy dx, dist y = some (some dy) ∧ dist x = some (some dx) ∧ dy + be.weight ≤ dx ∧
        (dy + be.weight = dx → rank y < rank x)

/-- The invariant maintained by the priority-queue loop of `dijkstra`,
tying the queue, the `distances` and `previous` dictionaries and the
visit order to the snapshot: queue entries and visited vertices are node
ids, the visit order repeats no vertex, only the origin can hold a
distance without a predecessor, every predecessor pointer is witnessed
by an adjacency entry whose relaxation recorded it (with the exact
distance equality, since a visited vertex's distance is frozen), the
predecessor of a visited vertex was visited strictly earlier, and — past
the initial state — the origin is visited with distance `0`. -/
structure DInv (edges : List (Edge α)) (ids : List String) (startId : String)
    (pq : List (PQEntry α)) (dist : String → Option α) (prev : String → Option String)
    (vis : List String) : Prop where
  pq_ids : ∀ en ∈ pq, en.node ∈ ids
  vis_ids : ∀ x ∈ vis, x ∈ ids
  vis_nodup : vis.Nodup
  origin : ∀ x, dist x ≠ none → x = startId ∨ prev x ≠ none
  link : ∀ x y, prev x = some y → x ≠ y ∧ y ∈ vis ∧ ∃ a ∈ adjOf edges y, a.node = x ∧
    ∃ dy, dist y = some dy ∧ dist x = some (dy + a.weight)
  order : ∀ x y, prev x = some y → x ∈ vis → vis.indexOf y < vis.indexOf x
  start : (vis = [] ∧ pq = [⟨startId, 0⟩] ∧
      dist = (fun x => if x = startId then some 0 else none) ∧ prev = (fun _ => none)) ∨
    (startId ∈ vis ∧ dist startId = some 0)

/-- Two edges join the same unordered endpoint pair. -/
def samePair (e1 e2 : Edge α) : Prop :=
  (e1.from' = e2.from' ∧ e1.to' = e2.to') ∨ (e1.from' = e2.to' ∧ e1.to' = e2.from')

/-- The snapshot has at most one edge (blocked or not) joining any
endpoint pair. -/
def noParallel (edges : List (Edge α)) : Prop :=
  List.Pairwise (fun e1 e2 => ¬ samePair e1 e2) edges

/-- The string contains no dash, so the `` `${from}-${to}` `` keys of
the `edgeMap` cannot collide across distinct endpoint pairs. -/
def dashFree (s : String) : Prop := ('-' : Char) ∉ s.data

instance (s : String) : Decidable (dashFree s) :=
  inferInstanceAs (Decidable (('-' : Char) ∉ s.data))

/-! ## Shared helper lemmas -/

/-- Characterization of membership in `bidirectionalEdges`. -/
theorem mem_bidirEdges {edges : List (Edge α)} {be : BiEdge α} :
    be ∈ bidirEdges edges ↔ ∃ e ∈ edges, e.blocked = false ∧
      (be = ⟨e.from', e.to', e.weight, e.id⟩ ∨ be = ⟨e.to', e.from', e.weight, e.id⟩) := by
  induction edges with
  | nil => simp [bidirEdges]
  | cons e es ih =>
    by_cases hb : e.blocked
    · rw [bidirEdges, if_pos hb, ih]
      constructor
      · rintro ⟨e', he', hbe', hor⟩
        exact ⟨e', List.mem_cons_of_mem e he', hbe', hor⟩
      · rintro ⟨e', he', hbe', hor⟩
        rcases List.mem_cons.mp he' with rfl | he''
        · rw [hb] at hbe'; cases hbe'
        · exact ⟨e', he'', hbe', hor⟩
    · rw [bidirEdges, if_neg hb]
      have hbf : e.blocked = false := by revert hb; cases e.blocked <;> simp
      constructor
      · intro hmem
        rcases List.mem_cons.mp hmem with rfl | hmem'
        · exact ⟨e, List.mem_cons_self e es, hbf, Or.inl rfl⟩
        · rcases List.mem_cons.mp hmem' with rfl | hmem''
          · exact ⟨e, List.mem_cons_self e es, hbf, Or.inr rfl⟩
          · obtain ⟨e', he', h1, h2⟩ := ih.mp hmem''
            exact ⟨e', List.mem_cons_of_mem e he', h1, h2⟩
      · rintro ⟨e', he', hbe', hor⟩
        rcases List.mem_cons.mp he' with rfl | he''
        · rcases hor with rfl | rfl
          · exact List.mem_cons_self _ _
          · exact List.mem_cons_of_mem _ (List.mem_cons_self _ _)
        · exact List.mem_cons_of_mem _ (List.mem_cons_of_mem _ (ih.mpr ⟨e', he'', hbe', hor⟩))

/-- `bidirectionalEdges` contains the reverse of each of its members. -/
theorem bidirEdges_symm {edges : List (Edge α)} {be : BiEdge α}
    (h : be ∈ bidirEdges edges) :
    (⟨be.to', be.from', be.weight, be.id⟩ : BiEdge α) ∈ bidirEdges edges := by
  obtain ⟨e, he, hb, hor⟩ := mem_bidirEdges.mp h
  rcases hor with rfl | rfl
  · exact mem_bidirEdges.mpr ⟨e, he, hb, Or.inr rfl⟩
  · exact mem_bidirEdges.mpr ⟨e, he, hb, Or.inl rfl⟩

/-- `bstep` is symmetric, because every edge is registered in both
directions. -/
theorem bstep_symm {bedges : List (BiEdge α)} {ids : List String}
    (hsym : ∀ be ∈ bedges, (⟨be.to', be.from', be.weight, be.id⟩ : BiEdge α) ∈ bedges) :
    ∀ {a b}, bstep bedges ids a b → bstep bedges ids b a := by
  rintro a b ⟨ha, hb, be, hbe, hf, ht⟩
  exact ⟨hb, ha, ⟨be.to', be.from', be.weight, be.id⟩, hsym be hbe, by rw [ht], by rw [hf]⟩

/-- Reachability is symmetric over the bidirectional edge list. -/
theorem breach_symm {bedges : List (BiEdge α)} {ids : List String}
    (hsym : ∀ be ∈ bedges, (⟨be.to', be.from', be.weight, be.id⟩ : BiEdge α) ∈ bedges)
    {a b : String} (h : breach bedges ids a b) : breach bedges ids b a := by
  induction h with
  | refl => exact Relation.ReflTransGen.refl
  | tail hstep hab ih =>
    exact Relation.ReflTransGen.trans
      (Relation.ReflTransGen.single (bstep_symm hsym hab)) ih

/-- For at least two nodes, a successful `isGraphConnected` call implies
that every unblocked edge of its argument references existing nodes (the
adjacency build did not throw). -/
theorem isGraphConnected_some_edgesOk {nodes : List Node} {edges : List (Edge α)}
    {conn : Connectivity} (h2 : 2 ≤ nodes.length)
    (h : isGraphConnected nodes edges = some conn) :
    edgesOk (nodes.map Node.id) edges = true := by
  unfold isGraphConnected at h
  rw [if_neg (by omega), if_neg (by omega)] at h
  by_contra hok
  rw [eq_false_of_ne_true hok, if_pos rfl] at h
  simp at h

/-- The Dirac test in the integer form used to evaluate it on concrete
snapshots: `minDegree ≥ n / 2` over `ℚ` is `n ≤ 2 · minDegree`. -/
theorem diracCond_iff (nodes : List Node) (edges : List (Edge α)) :
    diracCond nodes edges ↔
      nodes.length ≤ 2 * minDegreeOf (calculateDegrees nodes (activeEdges edges)) := by
  unfold diracCond
  rw [ge_iff_le, div_le_iff₀ (by norm_num : (0:ℚ) < 2)]
  constructor
  · intro h
    exact_mod_cast (by linarith :
      ((nodes.length : ℚ)) ≤ 2 * (minDegreeOf (calculateDegrees nodes (activeEdges edges)) : ℚ))
  · intro h
    have h2 : ((nodes.length : ℚ)) ≤
        2 * (minDegreeOf (calculateDegrees nodes (activeEdges edges)) : ℚ) := by exact_mod_cast h
    linarith

/-! ### Taint propagation -/

theorem addUniq_sub {s : List String} {y : String} : s ⊆ addUniq s y := by
  unfold addUniq
  split
  · exact fun x hx => hx
  · exact fun x hx => List.mem_append.mpr (Or.inl hx)

theorem mem_addUniq_self {s : List String} {y : String} : y ∈ addUniq s y := by
  unfold addUniq
  split
  · assumption
  · exact List.mem_append.mpr (Or.inr (List.mem_singleton.mpr rfl))

/-- The taint fold only grows the set. -/
theorem taintFold_mono : ∀ (es : List (BiEdge α)) (acc : List String),
    acc ⊆ es.foldl (fun s be => if be.from' ∈ s then addUniq s be.to' else s) acc := by
  intro es
  induction es with
  | nil => exact fun acc x hx => hx
  | cons be es ih =>
    intro acc x hx
    rw [List.foldl_cons]
    apply ih
    split
    · exact addUniq_sub hx
    · exact hx

/-- An edge out of an already tainted node taints its target within the
pass that processes it. -/
theorem taintFold_step : ∀ (es : List (BiEdge α)) (acc : List String) (be : BiEdge α),
    be ∈ es → be.from' ∈ acc →
    be.to' ∈ es.foldl (fun s be => if be.from' ∈ s then addUniq s be.to' else s) acc := by
  intro es
  induction es with
  | nil => intro acc be h; simp at h
  | cons be' es ih =>
    intro acc be hmem hacc
    rw [List.foldl_cons]
    rcases List.mem_cons.mp hmem with rfl | hmem'
    · rw [if_pos hacc]
      exact taintFold_mono es _ mem_addUniq_self
    · apply ih _ be hmem'
      split
      · exact addUniq_sub hacc
      · exact hacc

theorem taintPass_mono {bedges : List (BiEdge α)} {s : List String} :
    s ⊆ taintPass bedges s :=
  taintFold_mono bedges s

theorem taintPass_step {bedges : List (BiEdge α)} {s : List String} {be : BiEdge α}
    (hbe : be ∈ bedges) (hfrom : be.from' ∈ s) : be.to' ∈ taintPass bedges s :=
  taintFold_step bedges s be hbe hfrom

theorem taintIter_mono {bedges : List (BiEdge α)} :
    ∀ (k : Nat) (s : List String), s ⊆ taintIter bedges k s := by
  intro k
  induction k with
  | zero => exact fun s x hx => hx
  | succ k ih =>
    intro s x hx
    rw [taintIter]
    exact ih (taintPass bedges s) (taintPass_mono hx)

/-- After `k` propagation passes, everything within `k` hops of the
initial taint set is tainted. -/
theorem taintIter_hop {bedges : List (BiEdge α)} {ids : List String} :
    ∀ (k : Nat) (s : List String) (a b : String), a ∈ s →
      hopReach bedges ids k a b → b ∈ taintIter bedges k s := by
  intro k
  induction k with
  | zero =>
    intro s a b ha hr
    rw [show b = a from (hr : a = b).symm]
    exact ha
  | succ k ih =>
    intro s a b ha hr
    rw [taintIter]
    rcases hr with rfl | ⟨c, ⟨_, _, be, hbe, hf, ht⟩, hr'⟩
    · exact taintIter_mono k _ (taintPass_mono ha)
    · refine ih (taintPass bedges s) c b ?_ hr'
      rw [← ht]
      exact taintPass_step hbe (hf ▸ ha)

/-- hop reachability is monotone in the hop bound. -/
theorem hopReach_mono {bedges : List (BiEdge α)} {ids : List String} :
    ∀ (k j : Nat) (a b : String), k ≤ j → hopReach bedges ids k a b →
      hopReach bedges ids j a b := by
  intro k
  induction k with
  | zero =>
    intro j a b _ hr
    cases j with
    | zero => exact hr
    | succ j => exact Or.inl hr
  | succ k ih =>
    intro j a b hkj hr
    match j, hkj with
    | j+1, hkj =>
      rcases hr with rfl | ⟨c, hs, hr'⟩
      · exact Or.inl rfl
      · exact Or.inr ⟨c, hs, ih j c b (by omega) hr'⟩

/-- A relaxable edge puts its target into `nodesInNegativeCycle`. -/
theorem initialTaint_mem {bedges : List (BiEdge α)} {dist : BFDist α} {be : BiEdge α}
    (hbe : be ∈ bedges) (hrel : bfRelaxable dist be = true) :
    be.to' ∈ initialTaint bedges dist := by
  unfold initialTaint
  suffices H : ∀ (es : List (BiEdge α)) (acc : List String), be ∈ es →
      be.to' ∈ es.foldl (fun s be => if bfRelaxable dist be then addUniq s be.to' else s) acc by
    exact H bedges [] hbe
  intro es
  induction es with
  | nil => intro acc h; simp at h
  | cons be' es ih =>
    intro acc hmem
    rw [List.foldl_cons]
    rcases List.mem_cons.mp hmem with rfl | hmem'
    · rw [if_pos hrel]
      have hmono : ∀ (es' : List (BiEdge α)) (acc' : List String), acc' ⊆ es'.foldl
          (fun s be => if bfRelaxable dist be then addUniq s be.to' else s) acc' := by
        intro es'
        induction es' with
        | nil => exact fun acc' x hx => hx
        | cons b' es' ih' =>
          intro acc' x hx
          rw [List.foldl_cons]
          apply ih'
          split
          · exact addUniq_sub hx
          · exact hx
      exact hmono es _ mem_addUniq_self
    · exact ih _ hmem'

/-- The initial taint fold only grows the set. -/
theorem initialTaintFold_mono {dist : BFDist α} :
    ∀ (es : List (BiEdge α)) (acc : List String), acc ⊆ es.foldl
      (fun s be => if bfRelaxable dist be then addUniq s be.to' else s) acc := by
  intro es
  induction es with
  | nil => exact fun acc x hx => hx
  | cons b' es ih =>
    intro acc x hx
    rw [List.foldl_cons]
    apply ih
    split
    · exact addUniq_sub hx
    · exact hx

/-! ### Bellman–Ford relaxation invariants -/

theorem setD_same {β : Type} (m : String → β) (k : String) (v : β) : setD m k v k = v := by
  simp [setD]

theorem setD_other {β : Type} (m : String → β) (k : String) (v : β) {x : String}
    (h : x ≠ k) : setD m k v x = m x := by
  simp [setD, h]

/-- Elimination form of a successful relaxation test. -/
theorem bfRelaxable_true {dist : BFDist α} {be : BiEdge α} (h : bfRelaxable dist be = true) :
    ∃ df, dist be.from' = some (some df) ∧
      (dist be.to' = some none ∨ ∃ dt, dist be.to' = some (some dt) ∧ df + be.weight < dt) := by
  unfold bfRelaxable at h
  cases hf : dist be.from' with
  | none => simp [hf] at h
  | some o =>
    cases o with
    | none => simp [hf] at h
    | some df =>
      refine ⟨df, rfl, ?_⟩
      cases ht : dist be.to' with
      | none => simp [hf, ht] at h
      | some o2 =>
        cases o2 with
        | none => exact Or.inl rfl
        | some dt =>
          simp only [hf, ht] at h
          exact Or.inr ⟨dt, rfl, of_decide_eq_true h⟩

/-- A finite source and an `Infinity` target always relax. -/
theorem bfRelaxable_of_inf {dist : BFDist α} {be : BiEdge α} {df : α}
    (hf : dist be.from' = some (some df)) (ht : dist be.to' = some none) :
    bfRelaxable dist be = true := by
  unfold bfRelaxable
  rw [hf, ht]

/-- A finite source strictly improving a finite target relaxes. -/
theorem bfRelaxable_of_lt {dist : BFDist α} {be : BiEdge α} {df dt : α}
    (hf : dist be.from' = some (some df)) (ht : dist be.to' = some (some dt))
    (hlt : df + be.weight < dt) : bfRelaxable dist be = true := by
  unfold bfRelaxable
  rw [hf, ht]
  exact decide_eq_true hlt

/-- A failed relaxation test between two finite entries means the target
is already at most source + weight. -/
theorem bfRelaxable_false_le {dist : BFDist α} {be : BiEdge α} {df dt : α}
    (hf : dist be.from' = some (some df)) (ht : dist be.to' = some (some dt))
    (h : bfRelaxable dist be = false) : dt ≤ df + be.weight := by
  by_contra hc
  push_neg at hc
  rw [bfRelaxable_of_lt hf ht hc] at h
  cases h

/-- Any property of the `(distances, previous)` pair preserved by a
single recorded relaxation is preserved by a whole pass. -/
theorem bfPass_pres {bedges : List (BiEdge α)}
    (P : BFDist α → (String → Option String) → Prop)
    (hstep : ∀ (dist : BFDist α) (prev : String → Option String) (be : BiEdge α) (df : α),
      be ∈ bedges → bfRelaxable dist be = true → dist be.from' = some (some df) →
      P dist prev →
      P (setD dist be.to' (some (some (df + be.weight)))) (setD prev be.to' (some be.from'))) :
    ∀ (es : List (BiEdge α)), (∀ be ∈ es, be ∈ bedges) →
      ∀ (dist : BFDist α) (prev : String → Option String) (u : Bool), P dist prev →
      P (bfPass prev u es dist).1 (bfPass prev u es dist).2.1 := by
  intro es
  induction es with
  | nil =>
    intro _ dist prev u hP
    exact hP
  | cons be rest ih =>
    intro hsub dist prev u hP
    have hbe : be ∈ bedges := hsub be (List.mem_cons_self be rest)
    have hrest : ∀ b ∈ rest, b ∈ bedges := fun b hb => hsub b (List.mem_cons_of_mem be hb)
    by_cases hrel : bfRelaxable dist be = true
    · rcases bfRelaxable_true hrel with ⟨df, hf, _⟩
      have heq : bfPass prev u (be :: rest) dist =
          bfPass (setD prev be.to' (some be.from')) true rest
            (setD dist be.to' (some (some (df + be.weight)))) := by
        simp only [bfPass, hrel, hf, if_true]
      rw [heq]
      exact ih hrest _ _ true (hstep dist prev be df hbe hrel hf hP)
    · have hrel' : bfRelaxable dist be = false := by
        simpa using hrel
      have heq : bfPass prev u (be :: rest) dist = bfPass prev u rest dist := by
        simp [bfPass, hrel']
      rw [heq]
      exact ih hrest dist prev u hP

/-- Any property preserved by a single recorded relaxation is preserved
by the whole relaxation loop. -/
theorem bfLoop_pres {bedges : List (BiEdge α)}
    (P : BFDist α → (String → Option String) → Prop)
    (hstep : ∀ (dist : BFDist α) (prev : String → Option String) (be : BiEdge α) (df : α),
      be ∈ bedges → bfRelaxable dist be = true → dist be.from' = some (some df) →
      P dist prev →
      P (setD dist be.to' (some (some (df + be.weight)))) (setD prev be.to' (some be.from'))) :
    ∀ (k : Nat) (dist : BFDist α) (prev : String → Option String), P dist prev →
      P (bfLoop bedges k dist prev).1 (bfLoop bedges k dist prev).2 := by
  intro k
  induction k with
  | zero => intro dist prev hP; exact hP
  | succ k ih =>
    intro dist prev hP
    have hpass := bfPass_pres P hstep bedges (fun b hb => hb) dist prev false hP
    rcases hsp : bfPass prev false bedges dist with ⟨d', p', u⟩
    rw [hsp] at hpass
    have heq : bfLoop bedges (k+1) dist prev = if u then bfLoop bedges k d' p' else (d', p') := by
      simp only [bfLoop, hsp]
    rw [heq]
    cases u with
    | false => exact hpass
    | true => exact ih d' p' hpass

/-- The invariant holds for the initial dictionaries. -/
theorem bfInv_init {nodes : List Node} {edges : List (Edge α)} {startId : String}
    (hs : startId ∈ nodes.map Node.id) :
    BInv (bidirEdges edges) (nodes.map Node.id) startId
      (bfDist0 nodes startId) (fun _ => none) := by
  refine ⟨?_, ?_, ?_, ?_, ⟨fun _ => 0, ?_⟩⟩
  · intro x
    unfold bfDist0
    by_cases hx : x = startId
    · subst hx; simp [hs]
    · by_cases hmem : x ∈ nodes.map Node.id
      · simp [hx, hmem]
      · simp [hx, hmem]
  · intro x q hx
    unfold bfDist0 at hx
    by_cases hxs : x = startId
    · subst hxs; exact Relation.ReflTransGen.refl
    · rw [if_neg hxs] at hx
      split at hx <;> simp at hx
  · intro x y hxy
    simp at hxy
  · intro x _
    rfl
  · intro x y hxy
    simp at hxy

/-- The invariant is preserved by a single recorded relaxation. -/
theorem bfInv_step {nodes : List Node} {edges : List (Edge α)} {startId : String}
    (dist : BFDist α) (prev : String → Option String) (be : BiEdge α) (df : α)
    (hbe : be ∈ bidirEdges edges) (hrel : bfRelaxable dist be = true)
    (hf : dist be.from' = some (some df))
    (hI : BInv (bidirEdges edges) (nodes.map Node.id) startId dist prev) :
    BInv (bidirEdges edges) (nodes.map Node.id) startId
      (setD dist be.to' (some (some (df + be.weight))))
      (setD prev be.to' (some be.from')) := by
  obtain ⟨keys, reach, link, prev_none, ranked⟩ := hI
  have hfrom_ids : be.from' ∈ nodes.map Node.id := (keys _).mp (by rw [hf]; rfl)
  have hto_some : (dist be.to').isSome = true := by
    rcases bfRelaxable_true hrel with ⟨df', hf', hdisj⟩
    rcases hdisj with ht | ⟨dt, ht, _⟩ <;> rw [ht] <;> rfl
  have hto_ids : be.to' ∈ nodes.map Node.id := (keys _).mp hto_some
  have hreach_to : breach (bidirEdges edges) (nodes.map Node.id) startId be.to' :=
    Relation.ReflTransGen.tail (reach _ df hf) ⟨hfrom_ids, hto_ids, be, hbe, rfl, rfl⟩
  refine ⟨?_, ?_, ?_, ?_, ?_⟩
  · intro x
    by_cases hx : x = be.to'
    · subst hx
      rw [setD_same]
      simpa using hto_ids
    · rw [setD_other _ _ _ hx]
      exact keys x
  · intro x q hx
    by_cases hxe : x = be.to'
    · subst hxe; exact hreach_to
    · rw [setD_other _ _ _ hxe] at hx
      exact reach x q hx
  · intro x y hxy
    by_cases hxe : x = be.to'
    · subst hxe
      rw [setD_same] at hxy
      obtain rfl : be.from' = y := by injection hxy
      refine ⟨be, hbe, rfl, rfl, ?_⟩
      by_cases hself : be.from' = be.to'
      · refine ⟨df + be.weight, df + be.weight, ?_, ?_, ?_⟩
        · rw [hself, setD_same]
        · rw [setD_same]
        · rcases bfRelaxable_true hrel with ⟨df', hf', hdisj⟩
          have hdd : df = df' := by
            have h1 : some (some df) = some (some df') := hf.symm.trans hf'
            have h2 : some df = some df' := Option.some.inj h1
            exact Option.some.inj h2
          subst hdd
          rcases hdisj with ht | ⟨dt, ht, hlt⟩
          · rw [← hself, hf] at ht
            simp at ht
          · rw [← hself, hf] at ht
            have hdt : df = dt := by
              have h1 : some df = some dt := Option.some.inj ht
              exact Option.some.inj h1
            subst hdt
            have hw : be.weight < 0 := by
              have h3 : df + be.weight < df + 0 := by simpa using hlt
              exact lt_of_add_lt_add_left h3
            exact (add_le_iff_nonpos_right (df + be.weight)).mpr hw.le
      · refine ⟨df, df + be.weight, ?_, ?_, le_refl _⟩
        · rw [setD_other _ _ _ hself]
          exact hf
        · rw [setD_same]
    · rw [setD_other _ _ _ hxe] at hxy
      obtain ⟨be', hbe', hfrom, hto, dy, dx, hdy, hdx, hle⟩ := link x y hxy
      refine ⟨be', hbe', hfrom, hto, ?_⟩
      by_cases hye : y = be.to'
      · subst hye
        rcases bfRelaxable_true hrel with ⟨df', hf', hdisj⟩
        have hdd : df = df' := by
          have h1 : some (some df) = some (some df') := hf.symm.trans hf'
          have h2 : some df = some df' := Option.some.inj h1
          exact Option.some.inj h2
        subst hdd
        rcases hdisj with ht | ⟨dt, ht, hlt⟩
        · rw [hdy] at ht
          simp at ht
        · have hdt : dy = dt := by
            rw [hdy] at ht
            have h1 : some dy = some dt := Option.some.inj ht
            exact Option.some.inj h1
          subst hdt
          refine ⟨df + be.weight, dx, ?_, ?_, ?_⟩
          · rw [setD_same]
          · rw [setD_other _ _ _ hxe]
            exact hdx
          · calc df + be.weight + be'.weight ≤ dy + be'.weight :=
                add_le_add_right hlt.le _
              _ ≤ dx := hle
      · refine ⟨dy, dx, ?_, ?_, hle⟩
        · rw [setD_other _ _ _ hye]
          exact hdy
        · rw [setD_other _ _ _ hxe]
          exact hdx
  · intro x hx
    by_cases hxe : x = be.to'
    · subst hxe
      rw [setD_same] at hx
      simp at hx
    · rw [setD_other _ _ _ hxe] at hx
      rw [setD_other _ _ _ hxe]
      exact prev_none x hx
  · obtain ⟨rank, hrank⟩ := ranked
    refine ⟨fun v => if v = be.to' then rank be.from' + 1 else rank v, ?_⟩
    intro x y hxy
    by_cases hxe : x = be.to'
    · subst hxe
      rw [setD_same] at hxy
      obtain rfl : be.from' = y := by injection hxy
      refine ⟨be, hbe, rfl, rfl, ?_⟩
      by_cases hself : be.from' = be.to'
      · rcases bfRelaxable_true hrel with ⟨df', hf', hdisj⟩
        have hdd : df = df' := by
          have h1 : some (some df) = some (some df') := hf.symm.trans hf'
          exact Option.some.inj (Option.some.inj h1)
        subst hdd
        rcases hdisj with ht | ⟨dt, ht, hlt⟩
        · rw [← hself, hf] at ht
          simp at ht
        · rw [← hself, hf] at ht
          have hdt : df = dt := Option.some.inj (Option.some.inj ht)
          subst hdt
          have hw : be.weight < 0 := by
            have h3 : df + be.weight < df + 0 := by simpa using hlt
            exact lt_of_add_lt_add_left h3
          refine ⟨df + be.weight, df + be.weight, ?_, ?_, ?_, ?_⟩
          · rw [hself, setD_same]
          · rw [setD_same]
          · exact (add_le_iff_nonpos_right (df + be.weight)).mpr hw.le
          · intro heqt
            have hzero : be.weight = 0 := by
              have h4 : df + be.weight + be.weight = df + be.weight + 0 := by
                simpa using heqt
              exact add_left_cancel h4
            exact absurd hzero (ne_of_lt hw)
      · refine ⟨df, df + be.weight, ?_, ?_, le_refl _, ?_⟩
        · rw [setD_other _ _ _ hself]
          exact hf
        · rw [setD_same]
        · intro _
          simp [hself]
    · rw [setD_other _ _ _ hxe] at hxy
      obtain ⟨be', hbe', hfrom, hto, dy, dx, hdy, hdx, hle, htight⟩ := hrank x y hxy
      refine ⟨be', hbe', hfrom, hto, ?_⟩
      by_cases hye : y = be.to'
      · subst hye
        rcases bfRelaxable_true hrel with ⟨df', hf', hdisj⟩
        have hdd : df = df' := by
          have h1 : some (some df) = some (some df') := hf.symm.trans hf'
          exact Option.some.inj (Option.some.inj h1)
        subst hdd
        rcases hdisj with ht | ⟨dt, ht, hlt⟩
        · rw [hdy] at ht
          simp at ht
        · have hdt : dy = dt := by
            rw [hdy] at ht
            exact Option.some.inj (Option.some.inj ht)
          subst hdt
          refine ⟨df + be.weight, dx, ?_, ?_, ?_, ?_⟩
          · rw [setD_same]
          · rw [setD_other _ _ _ hxe]
            exact hdx
          · exact le_of_lt (lt_of_lt_of_le (add_lt_add_right hlt _) hle)
          · intro heqt
            exact absurd heqt (ne_of_lt (lt_of_lt_of_le (add_lt_add_right hlt _) hle))
      · refine ⟨dy, dx, ?_, ?_, hle, ?_⟩
        · rw [setD_other _ _ _ hye]
          exact hdy
        · rw [setD_other _ _ _ hxe]
          exact hdx
        · intro heqt
          have h5 := htight heqt
          simpa [hye, hxe] using h5

/-- The invariant holds at the state the relaxation loop returns. -/
theorem bfFinal_inv {nodes : List Node} {edges : List (Edge α)} {startId : String}
    (hs : startId ∈ nodes.map Node.id) :
    BInv (bidirEdges edges) (nodes.map Node.id) startId
      (bfFinal nodes edges startId).1 (bfFinal nodes edges startId).2 := by
  unfold bfFinal
  exact bfLoop_pres _
    (fun dist prev be df hbe hrel hf hI => bfInv_step dist prev be df hbe hrel hf hI)
    (nodes.length - 1) _ _ (bfInv_init hs)

/-- The origin entry of `distances` stays a finite number throughout the
relaxation loop. -/
theorem bfFinal_start_finite (nodes : List Node) (edges : List (Edge α)) (startId : String) :
    ∃ q, (bfFinal nodes edges startId).1 startId = some (some q) := by
  unfold bfFinal
  refine bfLoop_pres (fun dist _ => ∃ q, dist startId = some (some q))
    ?_ (nodes.length - 1) _ _ ⟨0, by simp [bfDist0]⟩
  intro dist prev be df _ _ _ ⟨q, hq⟩
  by_cases hx : startId = be.to'
  · exact ⟨df + be.weight, by rw [hx, setD_same]⟩
  · exact ⟨q, by rw [setD_other _ _ _ hx]; exact hq⟩

/-! ### Walk and list utilities -/

/-- A duplicate-free list of members of another list is no longer than
it. -/
theorem nodup_length_le {l ids : List String} (hnd : l.Nodup) (hsub : ∀ x ∈ l, x ∈ ids) :
    l.length ≤ ids.length := by
  have h2 : l.toFinset ⊆ ids.toFinset := by
    intro x hx
    rw [List.mem_toFinset] at hx ⊢
    exact hsub x hx
  calc l.length = l.toFinset.card := (List.toFinset_card_of_nodup hnd).symm
    _ ≤ ids.toFinset.card := Finset.card_le_card h2
    _ ≤ ids.length := List.toFinset_card_le ids

/-- Appending a fresh element keeps a list duplicate-free. -/
theorem nodup_append_singleton {l : List String} {a : String}
    (hl : l.Nodup) (ha : a ∉ l) : (l ++ [a]).Nodup := by
  rw [List.nodup_append]
  refine ⟨hl, List.nodup_singleton a, ?_⟩
  intro x hx hxa
  rw [List.mem_singleton] at hxa
  exact ha (hxa ▸ hx)

/-- The last element of a nonempty list survives prepending. -/
theorem getLast_cons_append_cons (x y : String) (l₁ l₂ : List String) :
    (x :: (l₁ ++ y :: l₂)).getLast (List.cons_ne_nil _ _) =
      (y :: l₂).getLast (List.cons_ne_nil _ _) := by
  have h1 : (x :: (l₁ ++ y :: l₂)).getLast? = (y :: l₂).getLast? := by
    rw [show x :: (l₁ ++ y :: l₂) = (x :: l₁) ++ (y :: l₂) by simp]
    exact List.getLast?_append_of_ne_nil _ (List.cons_ne_nil _ _)
  rw [List.getLast?_eq_getLast _ (List.cons_ne_nil _ _),
    List.getLast?_eq_getLast _ (List.cons_ne_nil _ _)] at h1
  exact Option.some.inj h1

/-- Extending a chain by one relation step at its end. -/
theorem chain_snoc {r : String → String → Prop} :
    ∀ (l : List String) (a c : String), List.Chain r a l →
      r ((a :: l).getLast (List.cons_ne_nil a l)) c → List.Chain r a (l ++ [c]) := by
  intro l
  induction l with
  | nil =>
    intro a c _ hr
    exact List.Chain.cons (by simpa using hr) List.Chain.nil
  | cons b l ih =>
    intro a c hch hr
    rcases List.chain_cons.mp hch with ⟨hab, hch'⟩
    exact List.Chain.cons hab (ih b c hch' hr)

/-- The anchor of a chain reaches its last element. -/
theorem chain_last_reach {r : String → String → Prop} :
    ∀ (l : List String) (a : String), List.Chain r a l →
      Relation.ReflTransGen r a ((a :: l).getLast (List.cons_ne_nil a l)) := by
  intro l
  induction l with
  | nil => intro a _; exact Relation.ReflTransGen.refl
  | cons b l ih =>
    intro a hch
    rcases List.chain_cons.mp hch with ⟨hab, hch'⟩
    exact Relation.ReflTransGen.head hab (ih b hch')

/-- Every element of a chain reaches the last element of the chain. -/
theorem chain_mem_last_reach {r : String → String → Prop} :
    ∀ (l : List String) (a b : String), List.Chain r a l → b ∈ l →
      Relation.ReflTransGen r b ((a :: l).getLast (List.cons_ne_nil a l)) := by
  intro l
  induction l with
  | nil => intro a b _ hb; simp at hb
  | cons c l ih =>
    intro a b hch hb
    rcases List.chain_cons.mp hch with ⟨hac, hch'⟩
    rcases List.mem_cons.mp hb with rfl | hb'
    · exact chain_last_reach l b hch'
    · exact ih c b hch' hb'

/-- Every element of a hop chain through node ids is a node id. -/
theorem chain_targets_mem {bedges : List (BiEdge α)} {ids : List String} :
    ∀ (l : List String) (a : String), List.Chain (bstep bedges ids) a l →
      ∀ x ∈ l, x ∈ ids := by
  intro l
  induction l with
  | nil => intro a _ x hx; simp at hx
  | cons c l ih =>
    intro a hch x hx
    rcases List.chain_cons.mp hch with ⟨hac, hch'⟩
    rcases List.mem_cons.mp hx with rfl | hx'
    · exact hac.2.1
    · exact ih c hch' x hx'

/-- A hop chain of length `k` witnesses `k`-bounded reachability. -/
theorem chain_hopReach {bedges : List (BiEdge α)} {ids : List String} :
    ∀ (l : List String) (a : String), List.Chain (bstep bedges ids) a l →
      hopReach bedges ids l.length a ((a :: l).getLast (List.cons_ne_nil a l)) := by
  intro l
  induction l with
  | nil =>
    intro a _
    exact rfl
  | cons b l ih =>
    intro a hch
    rcases List.chain_cons.mp hch with ⟨hab, hch'⟩
    exact Or.inr ⟨b, hab, ih b hch'⟩

/-- Any chain between two vertices can be shortened to a duplicate-free
chain between them through a subset of its elements. -/
theorem chain_shorten {r : String → String → Prop} :
    ∀ (n : Nat) (l : List String) (a b : String), l.length ≤ n →
      List.Chain r a l → (a :: l).getLast (List.cons_ne_nil a l) = b →
      ∃ l', List.Chain r a l' ∧ (a :: l').getLast (List.cons_ne_nil a l') = b ∧
        (a :: l').Nodup ∧ ∀ x ∈ l', x ∈ l := by
  intro n
  induction n with
  | zero =>
    intro l a b hlen hch hlast
    have hnil : l = [] := List.length_eq_zero.mp (Nat.le_zero.mp hlen)
    subst hnil
    exact ⟨[], List.Chain.nil, hlast, List.nodup_singleton a,
      fun x hx => absurd hx (List.not_mem_nil x)⟩
  | succ n ih =>
    intro l a b hlen hch hlast
    by_cases hnd : (a :: l).Nodup
    · exact ⟨l, hch, hlast, hnd, fun x hx => hx⟩
    · by_cases ha : a ∈ l
      · obtain ⟨l₁, l₂, rfl⟩ := List.append_of_mem ha
        have hch₂ : List.Chain r a l₂ := (List.chain_split.mp hch).2
        have hlast₂ : (a :: l₂).getLast (List.cons_ne_nil _ _) = b := by
          rw [← getLast_cons_append_cons a a l₁ l₂]
          exact hlast
        have hlen₂ : l₂.length ≤ n := by
          have h1 := hlen
          simp only [List.length_append, List.length_cons] at h1
          omega
        obtain ⟨l', h1, h2, h3, h4⟩ := ih l₂ a b hlen₂ hch₂ hlast₂
        exact ⟨l', h1, h2, h3, fun x hx =>
          List.mem_append.mpr (Or.inr (List.mem_cons_of_mem a (h4 x hx)))⟩
      · have hlnd : ¬ l.Nodup := fun h => hnd (List.nodup_cons.mpr ⟨ha, h⟩)
        cases l with
        | nil => exact absurd List.nodup_nil hlnd
        | cons c l₀ =>
          rcases List.chain_cons.mp hch with ⟨hac, hch'⟩
          have hlast' : (c :: l₀).getLast (List.cons_ne_nil _ _) = b := hlast
          have hlen' : l₀.length ≤ n := by
            simp only [List.length_cons] at hlen
            omega
          obtain ⟨l'', h1, h2, h3, h4⟩ := ih l₀ c b hlen' hch' hlast'
          refine ⟨c :: l'', List.Chain.cons hac h1, h2, ?_, ?_⟩
          · refine List.nodup_cons.mpr ⟨?_, h3⟩
            intro hmem
            rcases List.mem_cons.mp hmem with rfl | hmem'
            · exact ha (List.mem_cons_self a l₀)
            · exact ha (List.mem_cons_of_mem c (h4 a hmem'))
          · intro x hx
            rcases List.mem_cons.mp hx with rfl | hx'
            · exact List.mem_cons_self x l₀
            · exact List.mem_cons_of_mem c (h4 x hx')

/-- Reachability through the node ids is witnessed within `|ids|` hops. -/
theorem breach_hopReach {bedges : List (BiEdge α)} {ids : List String} {a b : String}
    (h : breach bedges ids a b) : hopReach bedges ids ids.length a b := by
  obtain ⟨l, hch, hlast⟩ := List.exists_chain_of_relationReflTransGen h
  obtain ⟨l', h1, h2, h3, _⟩ := chain_shorten l.length l a b (le_refl _) hch hlast
  have hsub : ∀ x ∈ l', x ∈ ids := chain_targets_mem l' a h1
  have hlen : l'.length ≤ ids.length := nodup_length_le (List.nodup_cons.mp h3).2 hsub
  have h5 := chain_hopReach l' a h1
  rw [h2] at h5
  exact hopReach_mono _ _ _ _ hlen h5

/-! ### Path reconstruction -/

/-- Structure of a completed `bellmanFord` reconstruction: the result is
a predecessor chain ending at the queried vertex, its head has no
predecessor, and the cycle guard makes it duplicate-free and disjoint
from the initial visited set. -/
theorem bfRecon_sound {prev : String → Option String} :
    ∀ (fuel : Nat) (cur : String) (seen acc path : List String),
      bfRecon prev fuel cur seen acc = some (some path) →
      ∃ z l, path = (z :: l) ++ acc ∧ prev z = none ∧
        List.Chain (fun a b => prev b = some a) z l ∧
        (z :: l).getLast (List.cons_ne_nil z l) = cur ∧
        (z :: l).Nodup ∧ ∀ x ∈ z :: l, x ∉ seen := by
  intro fuel
  induction fuel with
  | zero => intro cur seen acc path h; cases h
  | succ fuel ih =>
    intro cur seen acc path h
    rw [bfRecon] at h
    by_cases hseen : cur ∈ seen
    · rw [if_pos hseen] at h
      cases Option.some.inj h
    · rw [if_neg hseen] at h
      cases hprev : prev cur with
      | none =>
        rw [hprev] at h
        obtain rfl : cur :: acc = path := Option.some.inj (Option.some.inj h)
        exact ⟨cur, [], rfl, hprev, List.Chain.nil, rfl, List.nodup_singleton cur,
          by intro x hx; rw [List.mem_singleton.mp hx]; exact hseen⟩
      | some p =>
        rw [hprev] at h
        obtain ⟨z, l, hpath, hz, hch, hlast, hnd, hdisj⟩ := ih p (cur :: seen) (cur :: acc) path h
        have hcur_fresh : cur ∉ z :: l := by
          intro hmem
          exact hdisj cur hmem (List.mem_cons_self cur seen)
        refine ⟨z, l ++ [cur], ?_, hz, ?_, ?_, ?_, ?_⟩
        · rw [hpath]
          simp
        · exact chain_snoc l z cur hch (by rw [hlast]; exact hprev)
        · have hgl : ((z :: l) ++ [cur]).getLast (by simp) = cur := List.getLast_concat _
          exact hgl
        · exact nodup_append_singleton hnd hcur_fresh
        · intro x hx hxseen
          rcases List.mem_cons.mp hx with rfl | hx₂
          · exact hdisj x (List.mem_cons_self x l) (List.mem_cons_of_mem cur hxseen)
          · rcases List.mem_append.mp hx₂ with hx' | hx'
            · exact hdisj x (List.mem_cons_of_mem z hx') (List.mem_cons_of_mem cur hxseen)
            · rw [List.mem_singleton.mp hx'] at hxseen
              exact hseen hxseen

/-- The cycle guard makes `bellmanFord`'s reconstruction loop terminate
within `|ids| + 1` iterations whenever the predecessor pointers stay
inside the node ids. -/
theorem bfRecon_isSome {prev : String → Option String} {ids : List String}
    (hcl : ∀ x y, prev x = some y → y ∈ ids) :
    ∀ (fuel : Nat) (cur : String) (seen acc : List String), cur ∈ ids →
      seen.Nodup → (∀ x ∈ seen, x ∈ ids) → ids.length + 1 ≤ fuel + seen.length →
      (bfRecon prev fuel cur seen acc).isSome = true := by
  intro fuel
  induction fuel with
  | zero =>
    intro cur seen acc hcur hnd hsub hfuel
    have hlen : seen.length ≤ ids.length := nodup_length_le hnd hsub
    omega
  | succ fuel ih =>
    intro cur seen acc hcur hnd hsub hfuel
    rw [bfRecon]
    by_cases hseen : cur ∈ seen
    · rw [if_pos hseen]; rfl
    · rw [if_neg hseen]
      cases hprev : prev cur with
      | none => rfl
      | some p =>
        refine ih p (cur :: seen) (cur :: acc) (hcl cur p hprev)
          (List.nodup_cons.mpr ⟨hseen, hnd⟩) ?_ ?_
        · intro x hx
          rcases List.mem_cons.mp hx with rfl | hx'
          · exact hcur
          · exact hsub x hx'
        · simp only [List.length_cons]
          omega

/-- Structure of a completed `dijkstra` reconstruction (no cycle guard,
so no duplicate-freeness is guaranteed). -/
theorem reconPath_sound {prev : String → Option String} :
    ∀ (fuel : Nat) (cur : String) (acc path : List String),
      reconPath prev fuel cur acc = some path →
      ∃ z l, path = (z :: l) ++ acc ∧ prev z = none ∧
        List.Chain (fun a b => prev b = some a) z l ∧
        (z :: l).getLast (List.cons_ne_nil z l) = cur := by
  intro fuel
  induction fuel with
  | zero => intro cur acc path h; cases h
  | succ fuel ih =>
    intro cur acc path h
    rw [reconPath] at h
    cases hprev : prev cur with
    | none =>
      rw [hprev] at h
      obtain rfl : cur :: acc = path := Option.some.inj h
      exact ⟨cur, [], rfl, hprev, List.Chain.nil, rfl⟩
    | some p =>
      rw [hprev] at h
      obtain ⟨z, l, hpath, hz, hch, hlast⟩ := ih p (cur :: acc) path h
      refine ⟨z, l ++ [cur], ?_, hz, ?_, ?_⟩
      · rw [hpath]
        simp
      · exact chain_snoc l z cur hch (by rw [hlast]; exact hprev)
      · have hgl : ((z :: l) ++ [cur]).getLast (by simp) = cur := List.getLast_concat _
        exact hgl

/-! ### Edge lookup -/

/-- Every adjacency entry of `dijkstra` comes from an unblocked incident
edge. -/
theorem mem_adjOf {edges : List (Edge α)} {v : String} {a : AdjEntry α}
    (h : a ∈ adjOf edges v) :
    ∃ e ∈ edges, e.blocked = false ∧ a.weight = e.weight ∧ a.edgeId = e.id ∧
      ((e.from' = v ∧ a.node = e.to') ∨ (e.to' = v ∧ a.node = e.from')) := by
  induction edges with
  | nil => simp [adjOf] at h
  | cons e es ih =>
    rw [adjOf] at h
    rcases List.mem_append.mp h with h1 | h1
    · by_cases hb : e.blocked = true
      · rw [if_pos hb] at h1
        simp at h1
      · have hb' : e.blocked = false := by simpa using hb
        rw [if_neg hb] at h1
        rcases List.mem_append.mp h1 with h2 | h2
        · by_cases hf : e.from' = v
          · rw [if_pos hf] at h2
            rw [List.mem_singleton] at h2
            subst h2
            exact ⟨e, List.mem_cons_self e es, hb', rfl, rfl, Or.inl ⟨hf, rfl⟩⟩
          · rw [if_neg hf] at h2
            simp at h2
        · by_cases ht : e.to' = v
          · rw [if_pos ht] at h2
            rw [List.mem_singleton] at h2
            subst h2
            exact ⟨e, List.mem_cons_self e es, hb', rfl, rfl, Or.inr ⟨ht, rfl⟩⟩
          · rw [if_neg ht] at h2
            simp at h2
    · obtain ⟨e', he', rest⟩ := ih h1
      exact ⟨e', List.mem_cons_of_mem e he', rest⟩

/-- Under a successful adjacency build, every unblocked edge has both
endpoints among the node ids. -/
theorem edgesOk_endpoints {ids : List String} {edges : List (Edge α)}
    (hok : edgesOk ids edges = true) {e : Edge α} (he : e ∈ edges)
    (hb : e.blocked = false) : e.from' ∈ ids ∧ e.to' ∈ ids := by
  unfold edgesOk at hok
  rw [List.all_eq_true] at hok
  have h1 := hok e he
  rw [hb] at h1
  simp only [Bool.false_or, Bool.and_eq_true] at h1
  exact ⟨List.mem_of_elem_eq_true h1.1, List.mem_of_elem_eq_true h1.2⟩

theorem samePair_symm {e1 e2 : Edge α} (h : samePair e1 e2) : samePair e2 e1 := by
  rcases h with ⟨h1, h2⟩ | ⟨h1, h2⟩
  · exact Or.inl ⟨h1.symm, h2.symm⟩
  · exact Or.inr ⟨h2.symm, h1.symm⟩

/-- Without parallel edges, two edges joining the same endpoint pair are
the same edge. -/
theorem noParallel_unique {edges : List (Edge α)} (hnp : noParallel edges)
    {e1 e2 : Edge α} (h1 : e1 ∈ edges) (h2 : e2 ∈ edges) (hsp : samePair e1 e2) :
    e1 = e2 := by
  by_contra hne
  have hsym : Symmetric (fun (e1 e2 : Edge α) => ¬ samePair e1 e2) := by
    intro a b hab hsp'
    exact hab (samePair_symm hsp')
  have hnp' : List.Pairwise (fun (e1 e2 : Edge α) => ¬ samePair e1 e2) edges := hnp
  exact List.Pairwise.forall hsym hnp' h1 h2 hne hsp

/-- Two edges joining the same queried endpoint pair join the same
unordered pair. -/
theorem joins_samePair {e1 e2 : Edge α} {f t : String}
    (h1 : (e1.from' = f ∧ e1.to' = t) ∨ (e1.to' = f ∧ e1.from' = t))
    (h2 : (e2.from' = f ∧ e2.to' = t) ∨ (e2.to' = f ∧ e2.from' = t)) : samePair e1 e2 := by
  rcases h1 with ⟨ha, hb⟩ | ⟨ha, hb⟩ <;> rcases h2 with ⟨hc, hd⟩ | ⟨hc, hd⟩
  · exact Or.inl ⟨ha.trans hc.symm, hb.trans hd.symm⟩
  · exact Or.inr ⟨ha.trans hc.symm, hb.trans hd.symm⟩
  · exact Or.inr ⟨hb.trans hd.symm, ha.trans hc.symm⟩
  · exact Or.inl ⟨hb.trans hd.symm, ha.trans hc.symm⟩

theorem findEdge_pred_iff {e : Edge α} {f t : String} :
    ((e.from' == f && e.to' == t) || (e.to' == f && e.from' == t)) = true ↔
      ((e.from' = f ∧ e.to' = t) ∨ (e.to' = f ∧ e.from' = t)) := by
  simp [Bool.or_eq_true, Bool.and_eq_true, beq_iff_eq]

/-- Without parallel edges, the step lookup of `dijkstra` finds exactly
the edge joining the queried pair. -/
theorem findEdge_eq {edges : List (Edge α)} (hnp : noParallel edges)
    {e : Edge α} (he : e ∈ edges) {f t : String}
    (hjoin : (e.from' = f ∧ e.to' = t) ∨ (e.to' = f ∧ e.from' = t)) :
    findEdge edges f t = some e := by
  have hsome : (findEdge edges f t).isSome = true := by
    unfold findEdge
    rw [List.find?_isSome]
    exact ⟨e, he, findEdge_pred_iff.mpr hjoin⟩
  obtain ⟨e', he'⟩ := Option.isSome_iff_exists.mp hsome
  have he2 : List.find?
      (fun e => (e.from' == f && e.to' == t) || (e.to' == f && e.from' == t)) edges =
      some e' := he'
  have hmem : e' ∈ edges := List.mem_of_find?_eq_some he2
  have hpred := List.find?_some he2
  rw [findEdge_pred_iff] at hpred
  rw [he']
  exact congrArg some (noParallel_unique hnp hmem he (joins_samePair hpred hjoin))

/-- Splitting a dash-marked concatenation of dash-free lists is
unambiguous. -/
theorem dash_split : ∀ (l1 l2 l3 l4 : List Char), ('-' : Char) ∉ l1 → ('-' : Char) ∉ l3 →
    l1 ++ '-' :: l2 = l3 ++ '-' :: l4 → l1 = l3 ∧ l2 = l4 := by
  intro l1
  induction l1 with
  | nil =>
    intro l2 l3 l4 _ h3 heq
    cases l3 with
    | nil =>
      refine ⟨rfl, ?_⟩
      simpa using heq
    | cons c l3' =>
      injection heq with hc _
      subst hc
      exact absurd (List.mem_cons_self _ _) h3
  | cons a l1' ih =>
    intro l2 l3 l4 h1 h3 heq
    cases l3 with
    | nil =>
      injection heq with ha _
      subst ha
      exact absurd (List.mem_cons_self _ _) h1
    | cons c l3' =>
      injection heq with hac hrest
      subst hac
      have h1' : ('-' : Char) ∉ l1' := fun h => h1 (List.mem_cons_of_mem a h)
      have h3' : ('-' : Char) ∉ l3' := fun h => h3 (List.mem_cons_of_mem a h)
      obtain ⟨hA, hB⟩ := ih l2 l3' l4 h1' h3' hrest
      exact ⟨by rw [hA], hB⟩

/-- Over dash-free from-components, the `edgeMap` keys are injective. -/
theorem edgeKey_inj {f t f' t' : String} (hf : dashFree f) (hf' : dashFree f')
    (h : edgeKey f t = edgeKey f' t') : f = f' ∧ t = t' := by
  unfold edgeKey at h
  have hminus : ("-" : String).data = ['-'] := rfl
  have hdata : f.data ++ '-' :: t.data = f'.data ++ '-' :: t'.data := by
    have h1 := congrArg String.data h
    simpa [String.data_append, hminus] using h1
  obtain ⟨hA, hB⟩ := dash_split f.data t.data f'.data t'.data hf hf' hdata
  constructor
  · cases f; cases f'; exact congrArg String.mk hA
  · cases t; cases t'; exact congrArg String.mk hB

/-- Without parallel edges, over dash-free ids, the `edgeMap` lookup of
`bellmanFord` finds exactly the unblocked edge joining the queried
pair. -/
theorem edgeMapFind_eq {edges : List (Edge α)} (hnp : noParallel edges)
    (hdf : ∀ e ∈ edges, e.blocked = false → dashFree e.from' ∧ dashFree e.to')
    {e : Edge α} (he : e ∈ edges) (heb : e.blocked = false)
    {f t : String} (hf : dashFree f)
    (hjoin : (e.from' = f ∧ e.to' = t) ∨ (e.to' = f ∧ e.from' = t)) :
    edgeMapFind edges f t = some e := by
  have hea : e ∈ (activeEdges edges).reverse := by
    rw [List.mem_reverse]
    exact List.mem_filter.mpr ⟨he, by simp [heb]⟩
  have hpe : (edgeKey e.from' e.to' == edgeKey f t ||
      edgeKey e.to' e.from' == edgeKey f t) = true := by
    rcases hjoin with ⟨h1, h2⟩ | ⟨h1, h2⟩
    · rw [h1, h2]
      simp
    · rw [h1, h2]
      simp
  have hsome : (edgeMapFind edges f t).isSome = true := by
    unfold edgeMapFind
    rw [List.find?_isSome]
    exact ⟨e, hea, hpe⟩
  obtain ⟨e', he'⟩ := Option.isSome_iff_exists.mp hsome
  have he2 : List.find?
      (fun e => edgeKey e.from' e.to' == edgeKey f t || edgeKey e.to' e.from' == edgeKey f t)
      (activeEdges edges).reverse = some e' := he'
  have hmem0 : e' ∈ (activeEdges edges).reverse := List.mem_of_find?_eq_some he2
  rw [List.mem_reverse] at hmem0
  have hmem : e' ∈ edges := (List.mem_filter.mp hmem0).1
  have heb' : e'.blocked = false := by
    have h2 := (List.mem_filter.mp hmem0).2
    simpa using h2
  have hpred := List.find?_some he2
  obtain ⟨hdf1, hdf2⟩ := hdf e' hmem heb'
  have hjoin' : (e'.from' = f ∧ e'.to' = t) ∨ (e'.to' = f ∧ e'.from' = t) := by
    have hpred2 : (edgeKey e'.from' e'.to' == edgeKey f t) = true ∨
        (edgeKey e'.to' e'.from' == edgeKey f t) = true := by
      simpa using hpred
    rcases hpred2 with hq | hq
    · exact Or.inl (edgeKey_inj hdf1 hf (eq_of_beq hq))
    · exact Or.inr (edgeKey_inj hdf2 hf (eq_of_beq hq))
  rw [he']
  exact congrArg some (noParallel_unique hnp hmem he (joins_samePair hjoin' hjoin))

/-- A reported `bellmanFord` step always cites an unblocked edge of the
snapshot. -/
theorem bfSteps_mem {edges : List (Edge α)} :
    ∀ (path : List String) (st : Step α), st ∈ bfSteps edges path →
      ∃ e ∈ edges, e.blocked = false ∧ st.cost = e.weight ∧ st.edgeId = e.id := by
  intro path
  induction path with
  | nil => intro st h; simp [bfSteps] at h
  | cons f rest ih =>
    intro st h
    cases rest with
    | nil => simp [bfSteps] at h
    | cons t rest' =>
      rw [bfSteps] at h
      rcases List.mem_append.mp h with h1 | h1
      · cases hfind : edgeMapFind edges f t with
        | none =>
          rw [hfind] at h1
          simp at h1
        | some e =>
          rw [hfind] at h1
          rw [List.mem_singleton] at h1
          subst h1
          have he2 : List.find?
              (fun e => edgeKey e.from' e.to' == edgeKey f t ||
                edgeKey e.to' e.from' == edgeKey f t)
              (activeEdges edges).reverse = some e := hfind
          have hmem0 := List.mem_of_find?_eq_some he2
          rw [List.mem_reverse] at hmem0
          have h2 := List.mem_filter.mp hmem0
          exact ⟨e, h2.1, by simpa using h2.2, rfl, rfl⟩
      · exact ih st h1

/-! ### Blocked-edge invariance -/

theorem activeEdges_idem (edges : List (Edge α)) :
    activeEdges (activeEdges edges) = activeEdges edges := by
  unfold activeEdges
  induction edges with
  | nil => rfl
  | cons e es ih =>
    by_cases hb : e.blocked = false
    · simp [hb, ih]
    · simp [hb, ih]

theorem adjOf_activeEdges (edges : List (Edge α)) (v : String) :
    adjOf (activeEdges edges) v = adjOf edges v := by
  induction edges with
  | nil => rfl
  | cons e es ih =>
    by_cases hb : e.blocked = true
    · have h1 : activeEdges (e :: es) = activeEdges es := by
        simp [activeEdges, hb]
      rw [h1, ih]
      have h2 : adjOf (e :: es) v = adjOf es v := by
        rw [adjOf, if_pos hb]
        simp
      rw [h2]
    · have h1 : activeEdges (e :: es) = e :: activeEdges es := by
        simp [activeEdges, hb]
      rw [h1]
      rw [adjOf, adjOf, if_neg hb, ih]

theorem bidirEdges_activeEdges (edges : List (Edge α)) :
    bidirEdges (activeEdges edges) = bidirEdges edges := by
  induction edges with
  | nil => rfl
  | cons e es ih =>
    by_cases hb : e.blocked = true
    · have h1 : activeEdges (e :: es) = activeEdges es := by
        simp [activeEdges, hb]
      rw [h1, ih, bidirEdges, if_pos hb]
    · have h1 : activeEdges (e :: es) = e :: activeEdges es := by
        simp [activeEdges, hb]
      rw [h1, bidirEdges, bidirEdges, ih]

theorem edgesOk_activeEdges (ids : List String) (edges : List (Edge α)) :
    edgesOk ids (activeEdges edges) = edgesOk ids edges := by
  unfold edgesOk
  induction edges with
  | nil => rfl
  | cons e es ih =>
    by_cases hb : e.blocked = true
    · have h1 : activeEdges (e :: es) = activeEdges es := by
        simp [activeEdges, hb]
      rw [h1, ih, List.all_cons, hb]
      simp
    · have h1 : activeEdges (e :: es) = e :: activeEdges es := by
        simp [activeEdges, hb]
      rw [h1, List.all_cons, List.all_cons, ih]

theorem edgeMapFind_activeEdges (edges : List (Edge α)) (f t : String) :
    edgeMapFind (activeEdges edges) f t = edgeMapFind edges f t := by
  unfold edgeMapFind
  rw [activeEdges_idem]

theorem bfSteps_activeEdges (edges : List (Edge α)) :
    ∀ path, bfSteps (activeEdges edges) path = bfSteps edges path
  | [] => rfl
  | [_] => rfl
  | f :: t :: rest => by
    rw [bfSteps, bfSteps, edgeMapFind_activeEdges, bfSteps_activeEdges edges (t :: rest)]

/-! ### Bellman–Ford outcome lemmas -/

/-- After the relaxation loop, every vertex reachable from the origin
either holds a finite distance or sits behind a still-relaxable edge
copy. -/
theorem bf_reach_finite_or_taint {nodes : List Node} {edges : List (Edge α)} {startId : String}
    (hs : startId ∈ nodes.map Node.id) :
    ∀ x, breach (bidirEdges edges) (nodes.map Node.id) startId x →
      (∃ q, (bfFinal nodes edges startId).1 x = some (some q)) ∨
      ∃ be' ∈ bidirEdges edges, bfRelaxable (bfFinal nodes edges startId).1 be' = true ∧
        breach (bidirEdges edges) (nodes.map Node.id) be'.to' x := by
  intro x hx
  induction hx with
  | refl =>
    exact Or.inl (bfFinal_start_finite nodes edges startId)
  | @tail b c hab hbc ih =>
    rcases ih with ⟨q, hq⟩ | ⟨be', hbe', hrel, hre'⟩
    · obtain ⟨hbid, hcid, be, hbe, hbf, hbt⟩ := hbc
      have hI := @bfFinal_inv α _ nodes edges startId hs
      have hcsome : ((bfFinal nodes edges startId).1 c).isSome = true := (hI.keys c).mpr hcid
      cases hc : (bfFinal nodes edges startId).1 c with
      | none => rw [hc] at hcsome; cases hcsome
      | some o =>
        cases o with
        | none =>
          have hrel : bfRelaxable (bfFinal nodes edges startId).1 be = true :=
            bfRelaxable_of_inf (by rw [hbf]; exact hq) (by rw [hbt]; exact hc)
          refine Or.inr ⟨be, hbe, hrel, ?_⟩
          rw [hbt]
          exact Relation.ReflTransGen.refl
        | some qc => exact Or.inl ⟨qc, rfl⟩
    · exact Or.inr ⟨be', hbe', hrel, Relation.ReflTransGen.tail hre' hbc⟩

/-- When the taint check fires and the destination is tainted,
`bellmanFord` returns exactly the negative-cycle record. -/
theorem bellman_taint_result {nodes : List Node} {edges : List (Edge α)} {startId endId : String}
    (h0 : ¬ nodes = []) (h1 : ¬ (startId = "" ∨ endId = "")) (h2 : ¬ startId = endId)
    (h3 : ¬ (startId ∉ nodes.map Node.id ∨ endId ∉ nodes.map Node.id))
    (h4 : ¬ bidirEdges edges = [])
    (ht : initialTaint (bidirEdges edges) (bfFinal nodes edges startId).1 ≠ [] ∧
      endId ∈ bfTaint nodes edges startId) :
    bellmanFord nodes edges startId endId =
      some ⟨[], .negInfinity, [], false, true,
        some ("Destination is affected by a negative weight cycle")⟩ := by
  unfold bellmanFord
  rw [if_neg h0, if_neg h1, if_neg h2, if_neg h3, if_neg h4, if_pos ht]

/-- A still-relaxable edge copy whose target reaches the destination
makes the taint check fire on the destination. -/
theorem bf_taint_cond {nodes : List Node} {edges : List (Edge α)} {startId endId : String}
    {be' : BiEdge α} (hbe' : be' ∈ bidirEdges edges)
    (hrel : bfRelaxable (bfFinal nodes edges startId).1 be' = true)
    (hre : breach (bidirEdges edges) (nodes.map Node.id) be'.to' endId) :
    initialTaint (bidirEdges edges) (bfFinal nodes edges startId).1 ≠ [] ∧
      endId ∈ bfTaint nodes edges startId := by
  have hmem := initialTaint_mem hbe' hrel
  constructor
  · intro h
    rw [h] at hmem
    exact absurd hmem (List.not_mem_nil _)
  · unfold bfTaint
    have hhop := breach_hopReach hre
    have hhop' : hopReach (bidirEdges edges) (nodes.map Node.id) nodes.length be'.to' endId := by
      rw [← List.length_map nodes Node.id]
      exact hhop
    exact taintIter_hop nodes.length _ _ _ hmem hhop'

/-- The predecessor pointers of `bellmanFord` only name node ids. -/
theorem bfFinal_prev_ids {nodes : List Node} {edges : List (Edge α)} {startId : String}
    (hs : startId ∈ nodes.map Node.id) :
    ∀ x y, (bfFinal nodes edges startId).2 x = some y → y ∈ nodes.map Node.id := by
  intro x y hxy
  have hI := @bfFinal_inv α _ nodes edges startId hs
  obtain ⟨be, _, hbf, _, dy, _, hdy, _, _⟩ := hI.link x y hxy
  have hsome : ((bfFinal nodes edges startId).1 y).isSome = true := by
    rw [hdy]
    rfl
  exact (hI.keys y).mp hsome

/-- `bellmanFord` always returns a complete result record. -/
theorem bellman_isSome (nodes : List Node) (edges : List (Edge α)) (startId endId : String) :
    (bellmanFord nodes edges startId endId).isSome = true := by
  unfold bellmanFord
  by_cases h0 : nodes = []
  · rw [if_pos h0]; rfl
  rw [if_neg h0]
  by_cases h1 : startId = "" ∨ endId = ""
  · rw [if_pos h1]; rfl
  rw [if_neg h1]
  by_cases h2 : startId = endId
  · rw [if_pos h2]; rfl
  rw [if_neg h2]
  by_cases h3 : startId ∉ nodes.map Node.id ∨ endId ∉ nodes.map Node.id
  · rw [if_pos h3]; rfl
  rw [if_neg h3]
  by_cases h4 : bidirEdges edges = []
  · rw [if_pos h4]; rfl
  rw [if_neg h4]
  by_cases h5 : initialTaint (bidirEdges edges) (bfFinal nodes edges startId).1 ≠ [] ∧
      endId ∈ bfTaint nodes edges startId
  · rw [if_pos h5]; rfl
  rw [if_neg h5]
  push_neg at h3
  have hrec := bfRecon_isSome (@bfFinal_prev_ids α _ nodes edges startId h3.1)
    (nodes.length + 2) endId [] [] h3.2 List.nodup_nil
    (by intro x hx; cases hx) (by simp)
  obtain ⟨r0, hr0⟩ := Option.isSome_iff_exists.mp hrec
  split
  · rw [hr0]
    cases r0 with
    | none => rfl
    | some path =>
      split
      next heq => exact Option.noConfusion heq
      next heq => rfl
      next p heq => split <;> rfl
  · rfl

/-- Telescoping the exact per-edge relaxation equalities along a
predecessor chain computes the reported total cost as the sum of the
reported step costs. -/
theorem bf_chain_cost {edges : List (Edge α)} {dist : BFDist α} {prev : String → Option String} :
    ∀ (l : List String) (z : String) (dz : α),
      List.Chain (fun a b => prev b = some a) z l →
      (∀ a b, prev b = some a → b ∈ l → ∃ e : Edge α, edgeMapFind edges a b = some e ∧
        ∃ da db, dist a = some (some da) ∧ dist b = some (some db) ∧ db = da + e.weight) →
      dist z = some (some dz) →
      ∃ dl, dist ((z :: l).getLast (List.cons_ne_nil z l)) = some (some dl) ∧
        stepsCost (bfSteps edges (z :: l)) = dl - dz := by
  intro l
  induction l with
  | nil =>
    intro z dz _ _ hz
    refine ⟨dz, hz, ?_⟩
    simp [bfSteps, stepsCost]
  | cons b l ih =>
    intro z dz hch hpt hz
    rcases List.chain_cons.mp hch with ⟨hzb, hch'⟩
    obtain ⟨e, hfind, da, db, hda, hdb, heq⟩ := hpt z b hzb (List.mem_cons_self b l)
    have hdaz : da = dz := by
      rw [hz] at hda
      exact (Option.some.inj (Option.some.inj hda)).symm
    rw [hdaz] at heq
    obtain ⟨dl, hdl, hcost⟩ := ih b (dz + e.weight) hch'
      (fun a' b' hp hm => hpt a' b' hp (List.mem_cons_of_mem b hm))
      (by rw [hdb, heq])
    refine ⟨dl, hdl, ?_⟩
    have hstep : bfSteps edges (z :: b :: l) =
        (⟨z, b, e.weight, e.id⟩ : Step α) :: bfSteps edges (b :: l) := by
      rw [bfSteps, hfind]
      rfl
    rw [hstep]
    unfold stepsCost at hcost ⊢
    rw [List.map_cons, List.sum_cons, hcost]
    show e.weight + (dl - (dz + e.weight)) = dl - dz
    abel

/-! ### No reconstruction cycles -/

/-- When the cycle guard of the reconstruction loop fires, the
predecessor pointers contain a closed chain reachable backward from the
queried vertex. -/
theorem bfRecon_none_walk {prev : String → Option String} :
    ∀ (fuel : Nat) (cur : String) (seen acc : List String) (e : String),
      bfRecon prev fuel cur seen acc = some none →
      List.Chain (fun a b => prev b = some a) cur seen →
      (cur :: seen).getLast (List.cons_ne_nil cur seen) = e →
      ∃ c s1 s2, List.Chain (fun a b => prev b = some a) c (s1 ++ [c]) ∧
        List.Chain (fun a b => prev b = some a) c s2 ∧
        (c :: s2).getLast (List.cons_ne_nil c s2) = e := by
  intro fuel
  induction fuel with
  | zero => intro cur seen acc e h _ _; cases h
  | succ fuel ih =>
    intro cur seen acc e h hch hlast
    rw [bfRecon] at h
    by_cases hseen : cur ∈ seen
    · obtain ⟨s1, s2, rfl⟩ := List.append_of_mem hseen
      refine ⟨cur, s1, s2, (List.chain_split.mp hch).1, (List.chain_split.mp hch).2, ?_⟩
      rw [← getLast_cons_append_cons cur cur s1 s2]
      exact hlast
    · rw [if_neg hseen] at h
      cases hprev : prev cur with
      | none =>
        rw [hprev] at h
        exact Option.noConfusion (Option.some.inj h)
      | some p =>
        rw [hprev] at h
        exact ih p (cur :: seen) (cur :: acc) e h (List.Chain.cons hprev hch) hlast

/-- Classically, a chain either satisfies an extra per-link property
throughout, or contains a link violating it. -/
theorem chain_all_or_exists {r T : String → String → Prop} :
    ∀ (l : List String) (a : String), List.Chain r a l →
      List.Chain (fun x y => r x y ∧ T x y) a l ∨
        ∃ x y, r x y ∧ ¬ T x y ∧ y ∈ l := by
  intro l
  induction l with
  | nil => intro a _; exact Or.inl List.Chain.nil
  | cons b l ih =>
    intro a hch
    rcases List.chain_cons.mp hch with ⟨hab, hch'⟩
    by_cases hT : T a b
    · rcases ih b hch' with hall | ⟨x, y, hr, hT', hy⟩
      · exact Or.inl (List.Chain.cons ⟨hab, hT⟩ hall)
      · exact Or.inr ⟨x, y, hr, hT', List.mem_cons_of_mem b hy⟩
    · exact Or.inr ⟨a, b, hab, hT, List.mem_cons_self b l⟩

/-- A rank function strictly increasing across single links is monotone
across reachability. -/
theorem reflTransGen_rank_le {r : String → String → Prop} {rank : String → Nat}
    (h : ∀ x y, r x y → rank x < rank y) {a b : String}
    (hr : Relation.ReflTransGen r a b) : rank a ≤ rank b := by
  induction hr with
  | refl => exact le_refl _
  | tail hab hbc ih => exact le_trans ih (le_of_lt (h _ _ hbc))

/-- No relation admitting a strictly increasing rank has a closed
chain. -/
theorem chain_cycle_absurd {r : String → String → Prop} {rank : String → Nat}
    (h : ∀ x y, r x y → rank x < rank y) {c : String} {s1 : List String}
    (hch : List.Chain r c (s1 ++ [c])) : False := by
  cases s1 with
  | nil =>
    rcases List.chain_cons.mp hch with ⟨hcc, _⟩
    exact lt_irrefl _ (h _ _ hcc)
  | cons d s1' =>
    rcases List.chain_cons.mp hch with ⟨hcd, hch'⟩
    have h1 : rank c < rank d := h _ _ hcd
    have h2 := chain_last_reach _ d hch'
    have h3 : (d :: (s1' ++ [c])).getLast (List.cons_ne_nil _ _) = c := by
      have h3' : ((d :: s1') ++ [c]).getLast (by simp) = c := List.getLast_concat _
      exact h3'
    have h4 : rank d ≤ rank ((d :: (s1' ++ [c])).getLast (List.cons_ne_nil _ _)) :=
      reflTransGen_rank_le h h2
    have h5 := congrArg rank h3
    omega

/-- A single backward predecessor link of the final state is a bst-hop
of the graph (backwards). -/
theorem bfFinal_prevLink_bstep {nodes : List Node} {edges : List (Edge α)} {startId : String}
    (hs : startId ∈ nodes.map Node.id) {a b : String}
    (hab : (bfFinal nodes edges startId).2 b = some a) :
    bstep (bidirEdges edges) (nodes.map Node.id) a b := by
  have hI := @bfFinal_inv α _ nodes edges startId hs
  obtain ⟨be, hbe, hbf, hbt, dy, dx, hdy, hdx, _⟩ := hI.link b a hab
  have ha : a ∈ nodes.map Node.id := (hI.keys a).mp (by rw [hdy]; rfl)
  have hb : b ∈ nodes.map Node.id := (hI.keys b).mp (by rw [hdx]; rfl)
  exact ⟨ha, hb, be, hbe, hbf, hbt⟩

/-- Unless the destination is tainted, the cycle guard of
`bellmanFord`'s reconstruction can never fire: a closed predecessor
chain would contain either a still-relaxable edge that taints the
destination, or only exact relaxation equalities, which the rank
certificate of the invariant rules out. -/
theorem bellman_no_cycle {nodes : List Node} {edges : List (Edge α)} {startId endId : String}
    (hs : startId ∈ nodes.map Node.id)
    (h5 : ¬ (initialTaint (bidirEdges edges) (bfFinal nodes edges startId).1 ≠ [] ∧
      endId ∈ bfTaint nodes edges startId)) (fuel : Nat) :
    bfRecon (bfFinal nodes edges startId).2 fuel endId [] [] ≠ some none := by
  intro hnone
  obtain ⟨c, s1, s2, hcyc, hrest, hlaste⟩ :=
    bfRecon_none_walk fuel endId [] [] endId hnone List.Chain.nil rfl
  have hI := @bfFinal_inv α _ nodes edges startId hs
  obtain ⟨rank, hrank⟩ := hI.ranked
  -- the tail of the walk reaches the destination
  have hreach_c : breach (bidirEdges edges) (nodes.map Node.id) c endId := by
    have h2 := chain_last_reach s2 c hrest
    rw [hlaste] at h2
    exact Relation.ReflTransGen.mono
      (fun a b hab => @bfFinal_prevLink_bstep α _ nodes edges startId hs a b hab) h2
  rcases chain_all_or_exists (T := fun x y => rank x < rank y) (s1 ++ [c]) c hcyc with
    hall | ⟨x, y, hxy, hnr, hy⟩
  · exact chain_cycle_absurd (fun x y hxy => hxy.2) hall
  · -- a link with no rank increase must be strictly slack, hence relaxable
    obtain ⟨be, hbe, hbf, hbt, dy, dx, hdy, hdx, hle, htight⟩ := hrank y x hxy
    have hstrict : dy + be.weight < dx := by
      rcases lt_or_eq_of_le hle with hlt | heqt
      · exact hlt
      · exact absurd (htight heqt) hnr
    have hrel : bfRelaxable (bfFinal nodes edges startId).1 be = true :=
      bfRelaxable_of_lt (by rw [hbf]; exact hdy) (by rw [hbt]; exact hdx) hstrict
    -- the target of that edge lies on the cycle and reaches the destination
    have hreach_y : breach (bidirEdges edges) (nodes.map Node.id) y endId := by
      have h6 := chain_mem_last_reach (s1 ++ [c]) c y hcyc hy
      have h7 : (c :: (s1 ++ [c])).getLast (List.cons_ne_nil _ _) = c := by
        have h7' : ((c :: s1) ++ [c]).getLast (by simp) = c := List.getLast_concat _
        exact h7'
      have h6' : Relation.ReflTransGen
          (fun a b => (bfFinal nodes edges startId).2 b = some a) y c := by
        rw [← h7]
        exact h6
      exact Relation.ReflTransGen.trans
        (Relation.ReflTransGen.mono
          (fun a b hab => @bfFinal_prevLink_bstep α _ nodes edges startId hs a b hab) h6')
        hreach_c
    refine h5 (bf_taint_cond hbe hrel ?_)
    rw [hbt]
    exact hreach_y

/-- Once the guards pass and some edge copy is still relaxable, every
record `bellmanFord` returns reports `hasNegativeCycle = true`. -/
theorem bellman_result_hNC {nodes : List Node} {edges : List (Edge α)} {startId endId : String}
    (h0 : ¬ nodes = []) (h1 : ¬ (startId = "" ∨ endId = "")) (h2 : ¬ startId = endId)
    (h3 : ¬ (startId ∉ nodes.map Node.id ∨ endId ∉ nodes.map Node.id))
    (h4 : ¬ bidirEdges edges = [])
    (ht0 : initialTaint (bidirEdges edges) (bfFinal nodes edges startId).1 ≠ [])
    {r : BellmanResult α} (h : bellmanFord nodes edges startId endId = some r) :
    r.hasNegativeCycle = true := by
  unfold bellmanFord at h
  rw [if_neg h0, if_neg h1, if_neg h2, if_neg h3, if_neg h4] at h
  by_cases h5 : initialTaint (bidirEdges edges) (bfFinal nodes edges startId).1 ≠ [] ∧
      endId ∈ bfTaint nodes edges startId
  · rw [if_pos h5] at h
    obtain rfl := Option.some.inj h
    rfl
  · rw [if_neg h5] at h
    have hs : startId ∈ nodes.map Node.id := by
      push_neg at h3
      exact h3.1
    split at h
    · split at h
      next heqrec => exact Option.noConfusion h
      next heqrec => exact absurd heqrec (bellman_no_cycle hs h5 _)
      next path heqrec =>
        split at h
        · obtain rfl := Option.some.inj h
          exact decide_eq_true ht0
        · obtain rfl := Option.some.inj h
          exact decide_eq_true ht0
    · obtain rfl := Option.some.inj h
      exact decide_eq_true ht0

/-- Shape and cost of a successful `bellmanFord` route: the path runs
from the origin to the destination, and, without parallel edges and with
dash-free ids, the reported total cost is the sum of the reported step
costs. -/
theorem bellman_found_shape {nodes : List Node} {edges : List (Edge α)} {startId endId : String}
    {r : BellmanResult α} (h : bellmanFord nodes edges startId endId = some r)
    (hfound : r.found = true) :
    r.path ≠ [] ∧ r.path.head? = some startId ∧ r.path.getLast? = some endId ∧
      (noParallel edges →
        (∀ i ∈ nodes.map Node.id, dashFree i) →
        (∀ e ∈ edges, e.blocked = false → dashFree e.from' ∧ dashFree e.to') →
        r.totalCost = JsNumber.finite (stepsCost r.steps)) := by
  unfold bellmanFord at h
  by_cases h0 : nodes = []
  · rw [if_pos h0] at h
    obtain rfl := Option.some.inj h
    cases hfound
  rw [if_neg h0] at h
  by_cases h1 : startId = "" ∨ endId = ""
  · rw [if_pos h1] at h
    obtain rfl := Option.some.inj h
    cases hfound
  rw [if_neg h1] at h
  by_cases h2 : startId = endId
  · rw [if_pos h2] at h
    obtain rfl := Option.some.inj h
    refine ⟨by simp, by simp, by simp [h2], fun _ _ _ => ?_⟩
    simp [stepsCost]
  rw [if_neg h2] at h
  by_cases h3 : startId ∉ nodes.map Node.id ∨ endId ∉ nodes.map Node.id
  · rw [if_pos h3] at h
    obtain rfl := Option.some.inj h
    cases hfound
  rw [if_neg h3] at h
  by_cases h4 : bidirEdges edges = []
  · rw [if_pos h4] at h
    obtain rfl := Option.some.inj h
    cases hfound
  rw [if_neg h4] at h
  by_cases h5 : initialTaint (bidirEdges edges) (bfFinal nodes edges startId).1 ≠ [] ∧
      endId ∈ bfTaint nodes edges startId
  · rw [if_pos h5] at h
    obtain rfl := Option.some.inj h
    cases hfound
  rw [if_neg h5] at h
  push_neg at h3
  split at h
  next d heq =>
    split at h
    next heqrec => exact Option.noConfusion h
    next heqrec =>
      obtain rfl := Option.some.inj h
      cases hfound
    next path heqrec =>
      split at h
      next hc =>
        obtain rfl := Option.some.inj h
        cases hfound
      next hc =>
        obtain rfl := Option.some.inj h
        push_neg at hc
        refine ⟨?_, hc.1, hc.2, ?_⟩
        · intro hpe
          have hpe' : path = [] := hpe
          rw [hpe'] at hc
          exact Option.noConfusion hc.1
        · intro hnp hids hdfe
          have hI := @bfFinal_inv α _ nodes edges startId h3.1
          obtain ⟨z, l, hpath, hz, hch, hlast, hnd, _⟩ :=
            bfRecon_sound (nodes.length + 2) endId [] [] path heqrec
          rw [List.append_nil] at hpath
          have hzs : z = startId := by
            have hh : path.head? = some z := by
              rw [hpath]
              rfl
            rw [hc.1] at hh
            exact (Option.some.inj hh).symm
          have hdz : (bfFinal nodes edges startId).1 z = some (some 0) := by
            have hpn := hI.prev_none z hz
            rw [hzs] at hpn ⊢
            rw [hpn, if_pos rfl]
          have hpt : ∀ a b, (bfFinal nodes edges startId).2 b = some a → b ∈ l →
              ∃ e : Edge α, edgeMapFind edges a b = some e ∧
                ∃ da db, (bfFinal nodes edges startId).1 a = some (some da) ∧
                  (bfFinal nodes edges startId).1 b = some (some db) ∧ db = da + e.weight := by
            intro a b hab hbl
            obtain ⟨be, hbe, hbf, hbt, da, db, hda, hdb, hle⟩ := hI.link b a hab
            have heqw : da + be.weight = db := by
              rcases lt_or_eq_of_le hle with hlt | heqx
              · exfalso
                have hrel : bfRelaxable (bfFinal nodes edges startId).1 be = true :=
                  bfRelaxable_of_lt (by rw [hbf]; exact hda) (by rw [hbt]; exact hdb) hlt
                have hreach : breach (bidirEdges edges) (nodes.map Node.id) b endId := by
                  have h6 := chain_mem_last_reach l z b hch hbl
                  have h6' : Relation.ReflTransGen
                      (fun a' b' => (bfFinal nodes edges startId).2 b' = some a') b endId := by
                    rw [← hlast]
                    exact h6
                  exact Relation.ReflTransGen.mono
                    (fun a' b' hab' => @bfFinal_prevLink_bstep α _ nodes edges startId h3.1 a' b' hab') h6'
                refine h5 (bf_taint_cond hbe hrel ?_)
                rw [hbt]
                exact hreach
              · exact heqx
            obtain ⟨e, he, heb, hcopy⟩ := mem_bidirEdges.mp hbe
            have hweq : be.weight = e.weight := by
              rcases hcopy with rfl | rfl <;> rfl
            have hjoin : (e.from' = a ∧ e.to' = b) ∨ (e.to' = a ∧ e.from' = b) := by
              rcases hcopy with rfl | rfl
              · exact Or.inl ⟨hbf, hbt⟩
              · exact Or.inr ⟨hbf, hbt⟩
            have haids : a ∈ nodes.map Node.id := (hI.keys a).mp (by rw [hda]; rfl)
            refine ⟨e, edgeMapFind_eq hnp hdfe he heb (hids a haids) hjoin, da, db, hda, hdb, ?_⟩
            rw [← hweq, heqw]
          obtain ⟨dl, hdl, hcost⟩ := bf_chain_cost l z 0 hch hpt hdz
          have hdld : dl = d := by
            have h7 := hdl
            rw [hlast] at h7
            rw [heq] at h7
            exact (Option.some.inj (Option.some.inj h7)).symm
          show JsNumber.finite d = JsNumber.finite (stepsCost (bfSteps edges path))
          rw [hpath, hcost, hdld, sub_zero]
  next heq =>
    obtain rfl := Option.some.inj h
    cases hfound

/-! ### Dijkstra loop invariants -/

/-- Any property of the `(distances, previous, queue)` triple preserved
by a single recorded neighbor relaxation is preserved by the whole
neighbor loop. -/
theorem relaxAll_pres {edges : List (Edge α)} (vis : List String) (u : String)
    (P : (String → Option α) → (String → Option String) → List (PQEntry α) → Prop)
    (hstep : ∀ (dist : String → Option α) (prev : String → Option String)
      (pq : List (PQEntry α)) (a : AdjEntry α) (du : α), a ∈ adjOf edges u → a.node ∉ vis →
      dist u = some du → ltInf (du + a.weight) (dist a.node) = true → P dist prev pq →
      P (setD dist a.node (some (du + a.weight))) (setD prev a.node (some u))
        (pq ++ [⟨a.node, du + a.weight⟩])) :
    ∀ (entries : List (AdjEntry α)), (∀ a ∈ entries, a ∈ adjOf edges u) →
    ∀ (dist : String → Option α) (prev : String → Option String) (pq : List (PQEntry α)),
      P dist prev pq →
      P (relaxAll vis u entries dist prev pq).1 (relaxAll vis u entries dist prev pq).2.1
        (relaxAll vis u entries dist prev pq).2.2 := by
  intro entries
  induction entries with
  | nil => intro _ dist prev pq hP; exact hP
  | cons a rest ih =>
    intro hsub dist prev pq hP
    have ha : a ∈ adjOf edges u := hsub a (List.mem_cons_self a rest)
    have hrest : ∀ b ∈ rest, b ∈ adjOf edges u := fun b hb => hsub b (List.mem_cons_of_mem a hb)
    by_cases hvis : a.node ∈ vis
    · have heq : relaxAll vis u (a :: rest) dist prev pq = relaxAll vis u rest dist prev pq := by
        simp [relaxAll, hvis]
      rw [heq]
      exact ih hrest dist prev pq hP
    · cases hdu : dist u with
      | none =>
        have heq : relaxAll vis u (a :: rest) dist prev pq =
            relaxAll vis u rest dist prev pq := by
          simp [relaxAll, hvis, hdu]
        rw [heq]
        exact ih hrest dist prev pq hP
      | some du =>
        by_cases hlt : ltInf (du + a.weight) (dist a.node) = true
        · have heq : relaxAll vis u (a :: rest) dist prev pq =
              relaxAll vis u rest (setD dist a.node (some (du + a.weight)))
                (setD prev a.node (some u)) (pq ++ [⟨a.node, du + a.weight⟩]) := by
            simp [relaxAll, hvis, hdu, hlt]
          rw [heq]
          exact ih hrest _ _ _ (hstep dist prev pq a du ha hvis hdu hlt hP)
        · have hlt' : ltInf (du + a.weight) (dist a.node) = false := by
            simpa using hlt
          have heq : relaxAll vis u (a :: rest) dist prev pq =
              relaxAll vis u rest dist prev pq := by
            simp [relaxAll, hvis, hdu, hlt']
          rw [heq]
          exact ih hrest dist prev pq hP

/-- The loop invariant survives the neighbor relaxation of a visited
vertex. -/
theorem relaxAll_DInv {edges : List (Edge α)} {ids : List String} {startId : String}
    (hok : edgesOk ids edges = true) {vis : List String} {u : String} (hu : u ∈ vis)
    {dist : String → Option α} {prev : String → Option String} {pq : List (PQEntry α)}
    (hI : DInv edges ids startId pq dist prev vis) (hne : vis ≠ []) :
    DInv edges ids startId (relaxAll vis u (adjOf edges u) dist prev pq).2.2
      (relaxAll vis u (adjOf edges u) dist prev pq).1
      (relaxAll vis u (adjOf edges u) dist prev pq).2.1 vis := by
  refine relaxAll_pres vis u
    (fun d p q => DInv edges ids startId q d p vis) ?_ (adjOf edges u)
    (fun a ha => ha) dist prev pq hI
  intro dist prev pq a du ha hanv hdu hlt hP
  obtain ⟨pq_ids, vis_ids, vis_nodup, origin, link, order, start⟩ := hP
  have hanid : a.node ∈ ids := by
    obtain ⟨e, he, heb, hw, hid, hdir⟩ := mem_adjOf ha
    obtain ⟨hf, ht⟩ := edgesOk_endpoints hok he heb
    rcases hdir with ⟨_, hn⟩ | ⟨_, hn⟩
    · rw [hn]
      exact ht
    · rw [hn]
      exact hf
  have hune : u ≠ a.node := fun hE => hanv (hE ▸ hu)
  refine ⟨?_, vis_ids, vis_nodup, ?_, ?_, ?_, ?_⟩
  · intro en hen
    rcases List.mem_append.mp hen with h1 | h1
    · exact pq_ids en h1
    · rw [List.mem_singleton.mp h1]
      exact hanid
  · intro x hx
    by_cases hxa : x = a.node
    · subst hxa
      right
      rw [setD_same]
      simp
    · rw [setD_other _ _ _ hxa] at hx
      rcases origin x hx with h1 | h1
      · exact Or.inl h1
      · right
        rw [setD_other _ _ _ hxa]
        exact h1
  · intro x y hxy
    by_cases hxa : x = a.node
    · subst hxa
      rw [setD_same] at hxy
      obtain rfl : u = y := by injection hxy
      refine ⟨fun heqa => hanv (heqa ▸ hu), hu, a, ha, rfl, du, ?_, ?_⟩
      · rw [setD_other _ _ _ hune]
        exact hdu
      · rw [setD_same]
    · rw [setD_other _ _ _ hxa] at hxy
      obtain ⟨hxyne, hyvis, a', ha', han, dy, hdy, hdx⟩ := link x y hxy
      have hyne : y ≠ a.node := fun hE => hanv (hE ▸ hyvis)
      refine ⟨hxyne, hyvis, a', ha', han, dy, ?_, ?_⟩
      · rw [setD_other _ _ _ hyne]
        exact hdy
      · rw [setD_other _ _ _ hxa]
        exact hdx
  · intro x y hxy hxvis
    by_cases hxa : x = a.node
    · subst hxa
      exact absurd hxvis hanv
    · rw [setD_other _ _ _ hxa] at hxy
      exact order x y hxy hxvis
  · rcases start with ⟨hv, _⟩ | ⟨hsv, hs0⟩
    · exact absurd hv hne
    · right
      have hsne : startId ≠ a.node := fun hE => hanv (hE ▸ hsv)
      refine ⟨hsv, ?_⟩
      rw [setD_other _ _ _ hsne]
      exact hs0

/-- The loop invariant survives marking a fresh node id visited. -/
theorem DInv_vis_append {edges : List (Edge α)} {ids : List String} {startId : String}
    {pq : List (PQEntry α)} {dist : String → Option α} {prev : String → Option String}
    {vis : List String} (hI : DInv edges ids startId pq dist prev vis) {c : String}
    (hc : c ∈ ids) (hcnv : c ∉ vis) (pq' : List (PQEntry α))
    (hpq' : ∀ en ∈ pq', en.node ∈ ids)
    (hst : startId ∈ vis ++ [c] ∧ dist startId = some 0) :
    DInv edges ids startId pq' dist prev (vis ++ [c]) := by
  refine ⟨hpq', ?_, nodup_append_singleton hI.vis_nodup hcnv, hI.origin, ?_, ?_, Or.inr hst⟩
  · intro x hx
    rcases List.mem_append.mp hx with h1 | h1
    · exact hI.vis_ids x h1
    · rw [List.mem_singleton.mp h1]
      exact hc
  · intro x y hxy
    obtain ⟨hne, hyvis, rest⟩ := hI.link x y hxy
    exact ⟨hne, List.mem_append.mpr (Or.inl hyvis), rest⟩
  · intro x y hxy hxvis
    obtain ⟨_, hyvis, _⟩ := hI.link x y hxy
    rw [List.indexOf_append_of_mem hyvis]
    rcases List.mem_append.mp hxvis with h1 | h1
    · rw [List.indexOf_append_of_mem h1]
      exact hI.order x y hxy h1
    · rw [List.mem_singleton.mp h1]
      rw [List.indexOf_append_of_not_mem hcnv]
      have h2 : List.indexOf c [c] = 0 := by simp
      rw [h2]
      have h3 := List.indexOf_lt_length.mpr hyvis
      omega

/-- A `some` result of the queue loop satisfies the invariant, with the
origin visited at distance zero. -/
theorem dijkstraLoop_final {edges : List (Edge α)} {ids : List String} {startId endId : String}
    (hok : edgesOk ids edges = true) :
    ∀ (fuel : Nat) (pq : List (PQEntry α)) (dist : String → Option α)
      (prev : String → Option String) (vis : List String)
      (res : (String → Option α) × (String → Option String) × List String),
      DInv edges ids startId pq dist prev vis →
      dijkstraLoop (adjOf edges) endId fuel pq dist prev vis = some res →
      DInv edges ids startId [] res.1 res.2.1 res.2.2 := by
  intro fuel
  induction fuel with
  | zero =>
    intro pq dist prev vis res hI h
    rw [dijkstraLoop] at h
    by_cases hpq : pq = []
    · rw [if_pos hpq] at h
      obtain rfl := Option.some.inj h
      refine ⟨fun en hen => absurd hen (List.not_mem_nil en), hI.vis_ids, hI.vis_nodup,
        hI.origin, hI.link, hI.order, ?_⟩
      rcases hI.start with ⟨_, hpq1, _⟩ | h2
      · rw [hpq] at hpq1
        exact absurd hpq1 (by simp)
      · exact Or.inr h2
    · rw [if_neg hpq] at h
      exact Option.noConfusion h
  | succ fuel ih =>
    intro pq dist prev vis res hI h
    rw [dijkstraLoop] at h
    split at h
    next hsort =>
      obtain rfl := Option.some.inj h
      have hperm := List.perm_insertionSort pqLE pq
      rw [hsort] at hperm
      have hpqnil : pq = [] := by
        have hlen := hperm.length_eq
        simp at hlen
        exact List.length_eq_zero.mp hlen.symm
      refine ⟨fun en hen => absurd hen (List.not_mem_nil en), hI.vis_ids, hI.vis_nodup,
        hI.origin, hI.link, hI.order, ?_⟩
      rcases hI.start with ⟨_, hpq1, _⟩ | h2
      · rw [hpqnil] at hpq1
        exact absurd hpq1 (by simp)
      · exact Or.inr h2
    next cur pq' hsort =>
      have hperm := List.perm_insertionSort pqLE pq
      rw [hsort] at hperm
      have hcur_ids : cur.node ∈ ids := hI.pq_ids cur (hperm.subset (List.mem_cons_self cur pq'))
      have hpq'_ids : ∀ en ∈ pq', en.node ∈ ids := fun en hen =>
        hI.pq_ids en (hperm.subset (List.mem_cons_of_mem cur hen))
      by_cases hvis : cur.node ∈ vis
      · rw [if_pos hvis] at h
        refine ih pq' dist prev vis res
          ⟨hpq'_ids, hI.vis_ids, hI.vis_nodup, hI.origin, hI.link, hI.order, ?_⟩ h
        rcases hI.start with ⟨hv, _⟩ | h2
        · rw [hv] at hvis
          exact absurd hvis (List.not_mem_nil _)
        · exact Or.inr h2
      · rw [if_neg hvis] at h
        have hst : startId ∈ vis ++ [cur.node] ∧ dist startId = some 0 := by
          rcases hI.start with ⟨hv, hpq1, hd, _⟩ | ⟨h2a, h2b⟩
          · have hlen := hperm.length_eq
            rw [hpq1] at hlen
            simp at hlen
            have hpq'nil : pq' = [] := hlen
            have hcur : cur = ⟨startId, 0⟩ := by
              rw [hpq1] at hperm
              have h4 := hperm.subset (List.mem_cons_self cur pq')
              rw [List.mem_singleton] at h4
              exact h4
            constructor
            · rw [hcur]
              exact List.mem_append.mpr (Or.inr (List.mem_singleton.mpr rfl))
            · rw [hd]
              simp
          · exact ⟨List.mem_append.mpr (Or.inl h2a), h2b⟩
        by_cases hend : cur.node = endId
        · rw [if_pos hend] at h
          obtain rfl := Option.some.inj h
          exact DInv_vis_append hI hcur_ids hvis []
            (fun en hen => absurd hen (List.not_mem_nil en)) hst
        · rw [if_neg hend] at h
          by_cases hstale : (match dist cur.node with
              | some dd => decide (dd < cur.distance)
              | none => false) = true
          · rw [if_pos hstale] at h
            exact ih pq' dist prev (vis ++ [cur.node]) res
              (DInv_vis_append hI hcur_ids hvis pq' hpq'_ids hst) h
          · rw [if_neg hstale] at h
            rcases hrel : relaxAll (vis ++ [cur.node]) cur.node (adjOf edges cur.node)
                dist prev pq' with ⟨dist', prev', pq''⟩
            rw [hrel] at h
            have hIapp := DInv_vis_append hI hcur_ids hvis pq' hpq'_ids hst
            have hIrel := relaxAll_DInv hok
              (List.mem_append.mpr (Or.inr (List.mem_singleton.mpr rfl))) hIapp (by simp)
            rw [hrel] at hIrel
            exact ih pq'' dist' prev' (vis ++ [cur.node]) res hIrel h

/-- Each edge contributes at most two adjacency entries. -/
theorem adjOf_len (edges : List (Edge α)) (v : String) :
    (adjOf edges v).length ≤ 2 * edges.length := by
  induction edges with
  | nil => simp [adjOf]
  | cons e es ih =>
    rw [adjOf, List.length_append]
    have h1 : (if e.blocked = true then ([] : List (AdjEntry α))
        else (if e.from' = v then [⟨e.to', e.weight, e.id⟩] else []) ++
          (if e.to' = v then [⟨e.from', e.weight, e.id⟩] else [])).length ≤ 2 := by
      split
      · simp
      · rw [List.length_append]
        split <;> split <;> simp
    simp only [List.length_cons]
    omega

/-- The neighbor loop pushes at most one queue entry per adjacency
entry. -/
theorem relaxAll_pq_len (vis : List String) (u : String) :
    ∀ (entries : List (AdjEntry α)) (dist : String → Option α)
      (prev : String → Option String) (pq : List (PQEntry α)),
      (relaxAll vis u entries dist prev pq).2.2.length ≤ pq.length + entries.length := by
  intro entries
  induction entries with
  | nil => intro dist prev pq; simp [relaxAll]
  | cons a rest ih =>
    intro dist prev pq
    by_cases hvis : a.node ∈ vis
    · have heq : relaxAll vis u (a :: rest) dist prev pq = relaxAll vis u rest dist prev pq := by
        simp [relaxAll, hvis]
      rw [heq]
      have := ih dist prev pq
      simp only [List.length_cons]
      omega
    · cases hdu : dist u with
      | none =>
        have heq : relaxAll vis u (a :: rest) dist prev pq =
            relaxAll vis u rest dist prev pq := by
          simp [relaxAll, hvis, hdu]
        rw [heq]
        have := ih dist prev pq
        simp only [List.length_cons]
        omega
      | some du =>
        by_cases hlt : ltInf (du + a.weight) (dist a.node) = true
        · have heq : relaxAll vis u (a :: rest) dist prev pq =
              relaxAll vis u rest (setD dist a.node (some (du + a.weight)))
                (setD prev a.node (some u)) (pq ++ [⟨a.node, du + a.weight⟩]) := by
            simp [relaxAll, hvis, hdu, hlt]
          rw [heq]
          have := ih (setD dist a.node (some (du + a.weight))) (setD prev a.node (some u))
            (pq ++ [⟨a.node, du + a.weight⟩])
          simp only [List.length_append, List.length_cons, List.length_nil] at this ⊢
          omega
        · have hlt' : ltInf (du + a.weight) (dist a.node) = false := by
            simpa using hlt
          have heq : relaxAll vis u (a :: rest) dist prev pq =
              relaxAll vis u rest dist prev pq := by
            simp [relaxAll, hvis, hdu, hlt']
          rw [heq]
          have := ih dist prev pq
          simp only [List.length_cons]
          omega

/-- The queue loop terminates: the fuel bounds a measure that strictly
decreases every iteration. -/
theorem dijkstraLoop_isSome {edges : List (Edge α)} {ids : List String} {startId endId : String}
    (hok : edgesOk ids edges = true) :
    ∀ (fuel : Nat) (pq : List (PQEntry α)) (dist : String → Option α)
      (prev : String → Option String) (vis : List String),
      DInv edges ids startId pq dist prev vis →
      pq.length + (ids.length - vis.length) * (2 * edges.length + 1) < fuel →
      (dijkstraLoop (adjOf edges) endId fuel pq dist prev vis).isSome = true := by
  intro fuel
  induction fuel with
  | zero => intro pq dist prev vis _ hμ; omega
  | succ fuel ih =>
    intro pq dist prev vis hI hμ
    rw [dijkstraLoop]
    split
    · rfl
    next cur pq' hsort =>
      have hperm := List.perm_insertionSort pqLE pq
      rw [hsort] at hperm
      have hlen : pq'.length + 1 = pq.length := by
        have h1 := hperm.length_eq
        simpa using h1
      have hcur_ids : cur.node ∈ ids := hI.pq_ids cur (hperm.subset (List.mem_cons_self cur pq'))
      have hpq'_ids : ∀ en ∈ pq', en.node ∈ ids := fun en hen =>
        hI.pq_ids en (hperm.subset (List.mem_cons_of_mem cur hen))
      by_cases hvis : cur.node ∈ vis
      · rw [if_pos hvis]
        refine ih pq' dist prev vis
          ⟨hpq'_ids, hI.vis_ids, hI.vis_nodup, hI.origin, hI.link, hI.order, ?_⟩ (by omega)
        rcases hI.start with ⟨hv, _⟩ | h2
        · rw [hv] at hvis
          exact absurd hvis (List.not_mem_nil _)
        · exact Or.inr h2
      · rw [if_neg hvis]
        by_cases hend : cur.node = endId
        · rw [if_pos hend]
          rfl
        · rw [if_neg hend]
          have hst : startId ∈ vis ++ [cur.node] ∧ dist startId = some 0 := by
            rcases hI.start with ⟨hv, hpq1, hd, _⟩ | ⟨h2a, h2b⟩
            · have hcur : cur = ⟨startId, 0⟩ := by
                rw [hpq1] at hperm
                have h4 := hperm.subset (List.mem_cons_self cur pq')
                rw [List.mem_singleton] at h4
                exact h4
              constructor
              · rw [hcur]
                exact List.mem_append.mpr (Or.inr (List.mem_singleton.mpr rfl))
              · rw [hd]
                simp
            · exact ⟨List.mem_append.mpr (Or.inl h2a), h2b⟩
          have hIapp := DInv_vis_append hI hcur_ids hvis pq' hpq'_ids hst
          have hvlen : (vis ++ [cur.node]).length ≤ ids.length :=
            nodup_length_le hIapp.vis_nodup hIapp.vis_ids
          simp only [List.length_append, List.length_singleton] at hvlen
          have hWeq : (ids.length - (vis.length + 1)) * (2 * edges.length + 1) +
              (2 * edges.length + 1) = (ids.length - vis.length) * (2 * edges.length + 1) := by
            have h6 : ids.length - (vis.length + 1) + 1 = ids.length - vis.length := by omega
            calc (ids.length - (vis.length + 1)) * (2 * edges.length + 1) +
                (2 * edges.length + 1)
                = (ids.length - (vis.length + 1) + 1) * (2 * edges.length + 1) := by ring
              _ = (ids.length - vis.length) * (2 * edges.length + 1) := by rw [h6]
          by_cases hstale : (match dist cur.node with
              | some dd => decide (dd < cur.distance)
              | none => false) = true
          · rw [if_pos hstale]
            refine ih pq' dist prev (vis ++ [cur.node]) hIapp ?_
            simp only [List.length_append, List.length_singleton]
            omega
          · rw [if_neg hstale]
            rcases hrel : relaxAll (vis ++ [cur.node]) cur.node (adjOf edges cur.node)
                dist prev pq' with ⟨dist', prev', pq''⟩
            have hIrel := relaxAll_DInv hok
              (List.mem_append.mpr (Or.inr (List.mem_singleton.mpr rfl))) hIapp (by simp)
            rw [hrel] at hIrel
            have hq'' : pq''.length ≤ pq'.length + (adjOf edges cur.node).length := by
              have h7 := relaxAll_pq_len (vis ++ [cur.node]) cur.node (adjOf edges cur.node)
                dist prev pq'
              rw [hrel] at h7
              simpa using h7
            have hadj : (adjOf edges cur.node).length ≤ 2 * edges.length :=
              adjOf_len edges cur.node
            refine ih pq'' dist' prev' (vis ++ [cur.node]) hIrel ?_
            simp only [List.length_append, List.length_singleton]
            omega

/-- The reconstruction loop terminates once inside the visit order,
whose index strictly decreases along predecessor pointers. -/
theorem reconPath_isSome {prev : String → Option String} {vis : List String}
    (hord : ∀ x y, prev x = some y → y ∈ vis ∧ (x ∈ vis → vis.indexOf y < vis.indexOf x)) :
    ∀ (fuel : Nat) (cur : String) (acc : List String), cur ∈ vis → vis.indexOf cur < fuel →
      (reconPath prev fuel cur acc).isSome = true := by
  intro fuel
  induction fuel with
  | zero => intro cur acc _ hidx; omega
  | succ fuel ih =>
    intro cur acc hcur hidx
    rw [reconPath]
    cases hprev : prev cur with
    | none => rfl
    | some p =>
      obtain ⟨hp, hlt⟩ := hord cur p hprev
      exact ih p (cur :: acc) hp (by have := hlt hcur; omega)

/-- The initial state of `dijkstra`'s queue loop satisfies the
invariant. -/
theorem dijkstra_DInv0 {nodes : List Node} {edges : List (Edge α)} {startId : String}
    (hs : startId ∈ nodes.map Node.id) :
    DInv edges (nodes.map Node.id) startId [⟨startId, 0⟩]
      (fun x => if x = startId then some 0 else none) (fun _ => none) [] := by
  refine ⟨?_, ?_, List.nodup_nil, ?_, ?_, ?_, Or.inl ⟨rfl, rfl, rfl, rfl⟩⟩
  · intro en hen
    rw [List.mem_singleton.mp hen]
    exact hs
  · intro x hx
    cases hx
  · intro x hx
    by_cases hxs : x = startId
    · exact Or.inl hxs
    · exfalso
      apply hx
      simp [hxs]
  · intro x y hxy
    exact Option.noConfusion hxy
  · intro x y hxy _
    exact Option.noConfusion hxy

/-- `dijkstra` returns a complete result record whenever every unblocked
edge references existing nodes. -/
theorem dijkstra_isSome {nodes : List Node} {edges : List (Edge α)} {startId endId : String}
    (hok : edgesOk (nodes.map Node.id) edges = true) :
    (dijkstra nodes edges startId endId).isSome = true := by
  unfold dijkstra
  by_cases h1 : startId = "" ∨ endId = "" ∨ startId = endId
  · rw [if_pos h1]
    rfl
  rw [if_neg h1]
  rw [if_neg (show ¬ (edgesOk (nodes.map Node.id) edges = false) by rw [hok]; simp)]
  by_cases h3 : startId ∉ nodes.map Node.id ∨ endId ∉ nodes.map Node.id
  · rw [if_pos h3]
    rfl
  rw [if_neg h3]
  push_neg at h3
  have hI0 := @dijkstra_DInv0 α _ nodes edges startId h3.1
  have hloop := @dijkstraLoop_isSome α _ edges (nodes.map Node.id) startId endId hok (dijkstraFuel nodes edges)
    [⟨startId, 0⟩] (fun x => if x = startId then some 0 else none) (fun _ => none) [] hI0 (by
      unfold dijkstraFuel
      simp only [List.length_cons, List.length_nil, Nat.sub_zero, List.length_map]
      have hW : (nodes.length + 1) * (2 * edges.length + 1) =
          nodes.length * (2 * edges.length + 1) + (2 * edges.length + 1) := by ring
      omega)
  split
  next heq =>
    rw [heq] at hloop
    cases hloop
  next dist prev vis heq =>
    have hfin := dijkstraLoop_final hok (dijkstraFuel nodes edges) [⟨startId, 0⟩]
      (fun x => if x = startId then some 0 else none) (fun _ => none) [] (dist, prev, vis)
      hI0 heq
    cases hd : dist endId with
    | none => rfl
    | some d =>
      have hord : ∀ x y, prev x = some y →
          y ∈ vis ∧ (x ∈ vis → vis.indexOf y < vis.indexOf x) := by
        intro x y hxy
        obtain ⟨_, hyvis, _⟩ := hfin.link x y hxy
        exact ⟨hyvis, hfin.order x y hxy⟩
      have hrecon : (reconPath prev (nodes.length + 1) endId []).isSome = true := by
        rw [reconPath]
        cases hprev : prev endId with
        | none => rfl
        | some p =>
          obtain ⟨hp, _⟩ := hord endId p hprev
          refine reconPath_isSome hord nodes.length p (endId :: []) hp ?_
          have h8 : vis.indexOf p < vis.length := List.indexOf_lt_length.mpr hp
          have h9 : vis.length ≤ (nodes.map Node.id).length :=
            nodup_length_le hfin.vis_nodup hfin.vis_ids
          rw [List.length_map] at h9
          omega
      obtain ⟨path, hpath⟩ := Option.isSome_iff_exists.mp hrecon
      rw [hpath]
      rfl

/-- Telescoping the exact per-edge relaxation equalities along a
predecessor chain computes `dijkstra`'s reported total cost as the sum
of the reported step costs. -/
theorem dij_chain_cost {edges : List (Edge α)} {dist : String → Option α}
    {prev : String → Option String} (hnp : noParallel edges)
    (hlink : ∀ x y, prev x = some y → ∃ a ∈ adjOf edges y, a.node = x ∧
      ∃ dy, dist y = some dy ∧ dist x = some (dy + a.weight)) :
    ∀ (l : List String) (z : String) (dz : α),
      List.Chain (fun a b => prev b = some a) z l → dist z = some dz →
      ∃ dl, dist ((z :: l).getLast (List.cons_ne_nil z l)) = some dl ∧
        stepsCost (buildSteps edges (z :: l)) = dl - dz := by
  intro l
  induction l with
  | nil =>
    intro z dz _ hz
    refine ⟨dz, hz, ?_⟩
    simp [buildSteps, stepsCost]
  | cons b l ih =>
    intro z dz hch hz
    rcases List.chain_cons.mp hch with ⟨hzb, hch'⟩
    obtain ⟨a, ha, han, dy, hdy, hdb⟩ := hlink b z hzb
    have hdyz : dy = dz := by
      rw [hz] at hdy
      exact (Option.some.inj hdy).symm
    rw [hdyz] at hdb
    obtain ⟨dl, hdl, hcost⟩ := ih b (dz + a.weight) hch' hdb
    refine ⟨dl, hdl, ?_⟩
    obtain ⟨e, he, heb, hw, hid, hdir⟩ := mem_adjOf ha
    have hjoin : (e.from' = z ∧ e.to' = b) ∨ (e.to' = z ∧ e.from' = b) := by
      rcases hdir with ⟨h1, h2⟩ | ⟨h1, h2⟩
      · exact Or.inl ⟨h1, h2.symm.trans han⟩
      · exact Or.inr ⟨h1, h2.symm.trans han⟩
    have hfind := findEdge_eq hnp he hjoin
    have hstep : buildSteps edges (z :: b :: l) =
        (⟨z, b, e.weight, e.id⟩ : Step α) :: buildSteps edges (b :: l) := by
      rw [buildSteps, hfind]
      rfl
    rw [hstep]
    unfold stepsCost at hcost ⊢
    rw [List.map_cons, List.sum_cons, hcost, ← hw]
    show a.weight + (dl - (dz + a.weight)) = dl - dz
    abel

/-- Shape and cost of a successful `dijkstra` route: the path runs from
the origin to the destination, and without parallel edges the reported
total cost is the sum of the reported step costs. -/
theorem dijkstra_found_shape {nodes : List Node} {edges : List (Edge α)} {startId endId : String}
    {r : DijkstraResult α} (h : dijkstra nodes edges startId endId = some r)
    (hfound : r.found = true) :
    r.path ≠ [] ∧ r.path.head? = some startId ∧ r.path.getLast? = some endId ∧
      (noParallel edges → r.totalCost = stepsCost r.steps) := by
  unfold dijkstra at h
  by_cases h1 : startId = "" ∨ endId = "" ∨ startId = endId
  · rw [if_pos h1] at h
    obtain rfl := Option.some.inj h
    cases hfound
  rw [if_neg h1] at h
  by_cases h2 : edgesOk (nodes.map Node.id) edges = false
  · rw [if_pos h2] at h
    exact Option.noConfusion h
  rw [if_neg h2] at h
  by_cases h3 : startId ∉ nodes.map Node.id ∨ endId ∉ nodes.map Node.id
  · rw [if_pos h3] at h
    obtain rfl := Option.some.inj h
    cases hfound
  rw [if_neg h3] at h
  push_neg at h3
  have hok : edgesOk (nodes.map Node.id) edges = true := by
    cases hE : edgesOk (nodes.map Node.id) edges
    · exact absurd hE h2
    · rfl
  split at h
  next heq => exact Option.noConfusion h
  next dist prev vis heq =>
    have hfin := dijkstraLoop_final hok (dijkstraFuel nodes edges) [⟨startId, 0⟩]
      (fun x => if x = startId then some 0 else none) (fun _ => none) [] (dist, prev, vis)
      (@dijkstra_DInv0 α _ nodes edges startId h3.1) heq
    split at h
    next hd =>
      obtain rfl := Option.some.inj h
      cases hfound
    next d hd =>
      split at h
      next hrec => exact Option.noConfusion h
      next path hrec =>
        obtain rfl := Option.some.inj h
        obtain ⟨z, l, hpath, hz, hch, hlast⟩ :=
          reconPath_sound (nodes.length + 1) endId [] path hrec
        rw [List.append_nil] at hpath
        have hlink : ∀ x y, prev x = some y → ∃ a ∈ adjOf edges y, a.node = x ∧
            ∃ dy, dist y = some dy ∧ dist x = some (dy + a.weight) := by
          intro x y hxy
          obtain ⟨_, _, a, ha, han, dy, hdy, hdx⟩ := hfin.link x y hxy
          exact ⟨a, ha, han, dy, hdy, hdx⟩
        have hzsome : ∃ q, dist z = some q := by
          cases l with
          | nil =>
            have hze : z = endId := hlast
            rw [hze, hd]
            exact ⟨d, rfl⟩
          | cons c l' =>
            rcases List.chain_cons.mp hch with ⟨hzc, _⟩
            obtain ⟨a, _, _, dy, hdy, _⟩ := hlink c z hzc
            exact ⟨dy, hdy⟩
        obtain ⟨q, hq⟩ := hzsome
        have hzs : z = startId := by
          rcases hfin.origin z
              (show dist z ≠ none by rw [hq]; exact fun hc => Option.noConfusion hc) with h5 | h5
          · exact h5
          · exact absurd hz h5
        have hs0 : dist startId = some 0 := by
          rcases hfin.start with ⟨_, hpq1, _⟩ | ⟨_, h6⟩
          · exact absurd hpq1 (by simp)
          · exact h6
        refine ⟨?_, ?_, ?_, ?_⟩
        · show path ≠ []
          rw [hpath]
          exact List.cons_ne_nil z l
        · show path.head? = some startId
          rw [hpath, show (z :: l).head? = some z from rfl, hzs]
        · show path.getLast? = some endId
          rw [hpath, List.getLast?_eq_getLast _ (List.cons_ne_nil z l), hlast]
        · intro hnp
          show (d : α) = stepsCost (buildSteps edges path)
          obtain ⟨dl, hdl, hcost⟩ := dij_chain_cost hnp hlink l z q hch hq
          have hq0 : q = 0 := by
            rw [hzs, hs0] at hq
            exact (Option.some.inj hq).symm
          have hdld : dl = d := by
            have h7 := hdl
            rw [hlast] at h7
            rw [hd] at h7
            exact (Option.some.inj h7).symm
          rw [hpath, hcost, hdld, hq0, sub_zero]

/-- A result of the queue loop is insensitive to extra fuel. -/
theorem dijkstraLoop_mono {adj : String → List (AdjEntry α)} {endId : String} :
    ∀ (fuel fuel' : Nat), fuel ≤ fuel' →
      ∀ (pq : List (PQEntry α)) (dist : String → Option α) (prev : String → Option String)
        (vis : List String) (res : (String → Option α) × (String → Option String) × List String),
      dijkstraLoop adj endId fuel pq dist prev vis = some res →
      dijkstraLoop adj endId fuel' pq dist prev vis = some res := by
  intro fuel
  induction fuel with
  | zero =>
    intro fuel' _ pq dist prev vis res h
    rw [dijkstraLoop] at h
    by_cases hpq : pq = []
    · rw [if_pos hpq] at h
      subst hpq
      cases fuel' with
      | zero =>
        rw [dijkstraLoop, if_pos rfl]
        exact h
      | succ f =>
        rw [dijkstraLoop]
        exact h
    · rw [if_neg hpq] at h
      exact Option.noConfusion h
  | succ fuel ih =>
    intro fuel' hle pq dist prev vis res h
    cases fuel' with
    | zero => omega
    | succ f' =>
      have hle' : fuel ≤ f' := by omega
      rw [dijkstraLoop] at h ⊢
      split at h
      next hsort =>
        exact h
      next cur pq' hsort =>
        by_cases hvis : cur.node ∈ vis
        · rw [if_pos hvis] at h ⊢
          exact ih f' hle' pq' dist prev vis res h
        · rw [if_neg hvis] at h ⊢
          by_cases hend : cur.node = endId
          · rw [if_pos hend] at h ⊢
            exact h
          · rw [if_neg hend] at h ⊢
            by_cases hstale : (match dist cur.node with
                | some dd => decide (dd < cur.distance)
                | none => false) = true
            · rw [if_pos hstale] at h ⊢
              exact ih f' hle' pq' dist prev (vis ++ [cur.node]) res h
            · rw [if_neg hstale] at h ⊢
              rcases hrel : relaxAll (vis ++ [cur.node]) cur.node (adj cur.node) dist prev pq'
                with ⟨dist', prev', pq''⟩
              rw [hrel] at h
              exact ih f' hle' pq'' dist' prev' (vis ++ [cur.node]) res h

/-- The relaxation of `bellmanFord` is blind to blocked edges: deleting
them from the snapshot leaves the whole result unchanged. -/
theorem bellmanFord_activeEdges (nodes : List Node) (edges : List (Edge α))
    (startId endId : String) :
    bellmanFord nodes (activeEdges edges) startId endId =
      bellmanFord nodes edges startId endId := by
  obtain ⟨r1, h1⟩ := Option.isSome_iff_exists.mp
    (bellman_isSome nodes (activeEdges edges) startId endId)
  obtain ⟨r2, h2⟩ := Option.isSome_iff_exists.mp (bellman_isSome nodes edges startId endId)
  have hbfinal : bfFinal nodes (activeEdges edges) startId = bfFinal nodes edges startId := by
    unfold bfFinal
    rw [bidirEdges_activeEdges]
  have hbtaint : bfTaint nodes (activeEdges edges) startId = bfTaint nodes edges startId := by
    unfold bfTaint
    rw [bidirEdges_activeEdges, hbfinal]
  have hbs : bfSteps (activeEdges edges) = (bfSteps edges : List String → List (Step α)) :=
    funext (bfSteps_activeEdges edges)
  have h1' := h1
  unfold bellmanFord at h1'
  rw [bidirEdges_activeEdges, hbfinal, hbtaint, hbs] at h1'
  have h2' := h2
  unfold bellmanFord at h2'
  rw [h1, h2]
  exact congrArg some (Option.some.inj (h1'.symm.trans h2'))

/-- The distance computation of `dijkstra` is blind to blocked edges:
deleting them changes neither the found flag, the path, nor the total
cost (only the reported step details can differ, through the
blocked-edge-inclusive lookup of claim C10). -/
theorem dijkstra_blocked_invisible (nodes : List Node) (edges : List (Edge α))
    (startId endId : String) {r1 r2 : DijkstraResult α}
    (hA : dijkstra nodes (activeEdges edges) startId endId = some r1)
    (hB : dijkstra nodes edges startId endId = some r2) :
    r1.path = r2.path ∧ r1.totalCost = r2.totalCost ∧ r1.found = r2.found := by
  unfold dijkstra at hA hB
  by_cases h1 : startId = "" ∨ endId = "" ∨ startId = endId
  · rw [if_pos h1] at hA hB
    obtain rfl := Option.some.inj hA
    obtain rfl := Option.some.inj hB
    exact ⟨rfl, rfl, rfl⟩
  rw [if_neg h1] at hA hB
  rw [edgesOk_activeEdges] at hA
  by_cases h2 : edgesOk (nodes.map Node.id) edges = false
  · rw [if_pos h2] at hA
    exact Option.noConfusion hA
  rw [if_neg h2] at hA hB
  by_cases h3 : startId ∉ nodes.map Node.id ∨ endId ∉ nodes.map Node.id
  · rw [if_pos h3] at hA hB
    obtain rfl := Option.some.inj hA
    obtain rfl := Option.some.inj hB
    exact ⟨rfl, rfl, rfl⟩
  rw [if_neg h3] at hA hB
  have hadj : adjOf (activeEdges edges) = adjOf edges := funext (adjOf_activeEdges edges)
  rw [hadj] at hA
  split at hA
  next heqA => exact Option.noConfusion hA
  next dA pA vA heqA =>
    split at hB
    next heqB => exact Option.noConfusion hB
    next dB pB vB heqB =>
      have hres : ((dA, pA, vA) : (String → Option α) × (String → Option String) × List String)
          = (dB, pB, vB) := by
        rcases le_total (dijkstraFuel nodes (activeEdges edges)) (dijkstraFuel nodes edges)
          with hc | hc
        · have h4 := dijkstraLoop_mono _ _ hc _ _ _ _ _ heqA
          rw [heqB] at h4
          exact (Option.some.inj h4).symm
        · have h4 := dijkstraLoop_mono _ _ hc _ _ _ _ _ heqB
          rw [heqA] at h4
          exact Option.some.inj h4
      have hd1 : dA = dB := congrArg (fun t => t.1) hres
      have hp1 : pA = pB := congrArg (fun t => t.2.1) hres
      subst hd1
      subst hp1
      split at hA
      next hdnA =>
        rw [hdnA] at hB
        obtain rfl := Option.some.inj hA
        obtain rfl := Option.some.inj hB
        exact ⟨rfl, rfl, rfl⟩
      next d hdA =>
        rw [hdA] at hB
        split at hA
        next hrecA => exact Option.noConfusion hA
        next path hrecA =>
          rw [hrecA] at hB
          obtain rfl := Option.some.inj hA
          obtain rfl := Option.some.inj hB
          exact ⟨rfl, rfl, rfl⟩

/-- `isGraphConnected` returns a record whenever every unblocked edge
endpoint is a listed node id. -/
theorem isGraphConnected_isSome {nodes : List Node} {edges : List (Edge α)}
    (hok : edgesOk (nodes.map Node.id) edges = true) :
    (isGraphConnected nodes edges).isSome = true := by
  unfold isGraphConnected
  by_cases h0 : nodes.length = 0
  · rw [if_pos h0]; rfl
  rw [if_neg h0]
  by_cases h1 : nodes.length = 1
  · rw [if_pos h1]; rfl
  rw [if_neg h1]
  rw [if_neg (show ¬ (edgesOk (nodes.map Node.id) edges = false) by rw [hok]; simp)]
  rfl

/-- `analyzeEulerian` returns a record whenever every unblocked edge
endpoint is a listed node id. -/
theorem analyzeEulerian_isSome {nodes : List Node} {edges : List (Edge α)}
    (hok : edgesOk (nodes.map Node.id) edges = true) :
    (analyzeEulerian nodes edges).isSome = true := by
  unfold analyzeEulerian
  by_cases h0 : activeEdges edges = []
  · rw [if_pos h0]; rfl
  rw [if_neg h0]
  have hok' : edgesOk (nodes.map Node.id) (activeEdges edges) = true := by
    rw [edgesOk_activeEdges]; exact hok
  have hconn := @isGraphConnected_isSome α _ nodes (activeEdges edges) hok'
  split
  next heq => rw [heq] at hconn; cases hconn
  next conn heq => rfl

/-- `analyzeHamiltonian` returns a record whenever every unblocked edge
endpoint is a listed node id. -/
theorem analyzeHamiltonian_isSome {nodes : List Node} {edges : List (Edge α)}
    (hok : edgesOk (nodes.map Node.id) edges = true) :
    (analyzeHamiltonian nodes edges).isSome = true := by
  have hok' : edgesOk (nodes.map Node.id) (activeEdges edges) = true := by
    rw [edgesOk_activeEdges]; exact hok
  have hconn := @isGraphConnected_isSome α _ nodes (activeEdges edges) hok'
  unfold analyzeHamiltonian
  split
  · rfl
  · rfl
  next n0 n1 =>
    split <;> rfl
  next n0 n1 n2 rest =>
    rw [if_neg (show
        ¬ (edgesOk ((n0 :: n1 :: n2 :: rest).map Node.id) (activeEdges edges) = false) by
      rw [hok']; simp)]
    split
    next heq => rw [heq] at hconn; cases hconn
    next conn heq =>
      split
      · rfl
      · split
        · rfl
        · split
          · rfl
          · split <;> rfl

/-- Every step of any record `bellmanFord` returns is built from an
unblocked edge of the snapshot (the `edgeMap` only holds unblocked
edges; every record other than a found route carries no steps). -/
theorem bellman_steps_unblocked {nodes : List Node} {edges : List (Edge α)}
    {startId endId : String} {r : BellmanResult α}
    (h : bellmanFord nodes edges startId endId = some r) :
    ∀ st ∈ r.steps, ∃ e ∈ edges, e.blocked = false ∧ st.cost = e.weight ∧ st.edgeId = e.id := by
  unfold bellmanFord at h
  by_cases h0 : nodes = []
  · rw [if_pos h0] at h
    obtain rfl := Option.some.inj h
    intro st hst
    exact absurd hst (List.not_mem_nil st)
  rw [if_neg h0] at h
  by_cases h1 : startId = "" ∨ endId = ""
  · rw [if_pos h1] at h
    obtain rfl := Option.some.inj h
    intro st hst
    exact absurd hst (List.not_mem_nil st)
  rw [if_neg h1] at h
  by_cases h2 : startId = endId
  · rw [if_pos h2] at h
    obtain rfl := Option.some.inj h
    intro st hst
    exact absurd hst (List.not_mem_nil st)
  rw [if_neg h2] at h
  by_cases h3 : startId ∉ nodes.map Node.id ∨ endId ∉ nodes.map Node.id
  · rw [if_pos h3] at h
    obtain rfl := Option.some.inj h
    intro st hst
    exact absurd hst (List.not_mem_nil st)
  rw [if_neg h3] at h
  by_cases h4 : bidirEdges edges = []
  · rw [if_pos h4] at h
    obtain rfl := Option.some.inj h
    intro st hst
    exact absurd hst (List.not_mem_nil st)
  rw [if_neg h4] at h
  by_cases h5 : initialTaint (bidirEdges edges) (bfFinal nodes edges startId).1 ≠ [] ∧
      endId ∈ bfTaint nodes edges startId
  · rw [if_pos h5] at h
    obtain rfl := Option.some.inj h
    intro st hst
    exact absurd hst (List.not_mem_nil st)
  rw [if_neg h5] at h
  split at h
  · split at h
    next heqrec => exact Option.noConfusion h
    next heqrec =>
      obtain rfl := Option.some.inj h
      intro st hst
      exact absurd hst (List.not_mem_nil st)
    next path heqrec =>
      split at h
      · obtain rfl := Option.some.inj h
        intro st hst
        exact absurd hst (List.not_mem_nil st)
      · obtain rfl := Option.some.inj h
        intro st hst
        exact bfSteps_mem path st hst
  · obtain rfl := Option.some.inj h
    intro st hst
    exact absurd hst (List.not_mem_nil st)

/-- An unblocked negative-weight edge whose `from` endpoint is reachable
from the origin always leaves a still-relaxable directed copy after the
relaxation passes, with the copy's target connected back to that
endpoint (were both copies settled, chaining the two failed tests would
certify `0 ≤ weight + weight`). -/
theorem bf_negedge_relaxable {nodes : List Node} {edges : List (Edge α)} {startId : String}
    {e : Edge α} (hs : startId ∈ nodes.map Node.id)
    (he : e ∈ edges) (hb : e.blocked = false) (hw : e.weight < 0)
    (hef : e.from' ∈ nodes.map Node.id) (het : e.to' ∈ nodes.map Node.id)
    (hreach : breach (bidirEdges edges) (nodes.map Node.id) startId e.from') :
    ∃ be' ∈ bidirEdges edges, bfRelaxable (bfFinal nodes edges startId).1 be' = true ∧
      breach (bidirEdges edges) (nodes.map Node.id) be'.to' e.from' := by
  have hmF : (⟨e.from', e.to', e.weight, e.id⟩ : BiEdge α) ∈ bidirEdges edges :=
    mem_bidirEdges.mpr ⟨e, he, hb, Or.inl rfl⟩
  have hmR : (⟨e.to', e.from', e.weight, e.id⟩ : BiEdge α) ∈ bidirEdges edges :=
    mem_bidirEdges.mpr ⟨e, he, hb, Or.inr rfl⟩
  have hstepR : bstep (bidirEdges edges) (nodes.map Node.id) e.to' e.from' :=
    ⟨het, hef, ⟨e.to', e.from', e.weight, e.id⟩, hmR, rfl, rfl⟩
  rcases bf_reach_finite_or_taint hs e.from' hreach with ⟨du, hdu⟩ | ⟨be', hbe', hrel, hre'⟩
  · have hI := @bfFinal_inv α _ nodes edges startId hs
    have htsome : ((bfFinal nodes edges startId).1 e.to').isSome = true := (hI.keys _).mpr het
    cases hv : (bfFinal nodes edges startId).1 e.to' with
    | none => rw [hv] at htsome; cases htsome
    | some o =>
      cases o with
      | none =>
        exact ⟨⟨e.from', e.to', e.weight, e.id⟩, hmF, bfRelaxable_of_inf hdu hv,
          Relation.ReflTransGen.single hstepR⟩
      | some dv =>
        by_cases hrF : bfRelaxable (bfFinal nodes edges startId).1
            (⟨e.from', e.to', e.weight, e.id⟩ : BiEdge α) = true
        · exact ⟨⟨e.from', e.to', e.weight, e.id⟩, hmF, hrF,
            Relation.ReflTransGen.single hstepR⟩
        by_cases hrR : bfRelaxable (bfFinal nodes edges startId).1
            (⟨e.to', e.from', e.weight, e.id⟩ : BiEdge α) = true
        · exact ⟨⟨e.to', e.from', e.weight, e.id⟩, hmR, hrR, Relation.ReflTransGen.refl⟩
        exfalso
        have hrF' : bfRelaxable (bfFinal nodes edges startId).1
            (⟨e.from', e.to', e.weight, e.id⟩ : BiEdge α) = false := by
          simpa using hrF
        have hrR' : bfRelaxable (bfFinal nodes edges startId).1
            (⟨e.to', e.from', e.weight, e.id⟩ : BiEdge α) = false := by
          simpa using hrR
        have l1 : dv ≤ du + e.weight := bfRelaxable_false_le hdu hv hrF'
        have l2 : du ≤ dv + e.weight := bfRelaxable_false_le hv hdu hrR'
        have h3 : du + dv ≤ (dv + e.weight) + (du + e.weight) := add_le_add l2 l1
        have h4 : (dv + e.weight) + (du + e.weight) =
            (du + dv) + (e.weight + e.weight) := by abel
        rw [h4] at h3
        have h5 : (du + dv) + 0 ≤ (du + dv) + (e.weight + e.weight) := by
          simpa using h3
        have h6 : (0 : α) ≤ e.weight + e.weight := le_of_add_le_add_left h5
        have h7 : e.weight + e.weight < 0 := by
          have h8 := add_lt_add hw hw
          simpa using h8
        exact absurd h6 (not_le.mpr h7)
  · exact ⟨be', hbe', hrel, hre'⟩

/-- A directed three-copy cycle of negative total weight whose first
vertex is reachable from the origin always leaves a still-relaxable copy
after the relaxation passes, with the copy's target connected back to
the cycle (three settled copies would telescope to
`0 ≤ w1 + w2 + w3`). -/
theorem bf_cycle_relaxable {nodes : List Node} {edges : List (Edge α)} {startId : String}
    {be1 be2 be3 : BiEdge α} (hs : startId ∈ nodes.map Node.id)
    (hm1 : be1 ∈ bidirEdges edges) (hm2 : be2 ∈ bidirEdges edges)
    (hm3 : be3 ∈ bidirEdges edges)
    (hc1 : be1.to' = be2.from') (hc2 : be2.to' = be3.from') (hc3 : be3.to' = be1.from')
    (hi1 : be1.from' ∈ nodes.map Node.id) (hi2 : be2.from' ∈ nodes.map Node.id)
    (hi3 : be3.from' ∈ nodes.map Node.id)
    (hneg : be1.weight + be2.weight + be3.weight < 0)
    (hreach : breach (bidirEdges edges) (nodes.map Node.id) startId be1.from') :
    ∃ be' ∈ bidirEdges edges, bfRelaxable (bfFinal nodes edges startId).1 be' = true ∧
      breach (bidirEdges edges) (nodes.map Node.id) be'.to' be1.from' := by
  have hstep2 : bstep (bidirEdges edges) (nodes.map Node.id) be2.from' be3.from' :=
    ⟨hi2, hi3, be2, hm2, rfl, hc2⟩
  have hstep3 : bstep (bidirEdges edges) (nodes.map Node.id) be3.from' be1.from' :=
    ⟨hi3, hi1, be3, hm3, rfl, hc3⟩
  have hre2 : breach (bidirEdges edges) (nodes.map Node.id) be2.from' be1.from' :=
    Relation.ReflTransGen.tail (Relation.ReflTransGen.single hstep2) hstep3
  have hre3 : breach (bidirEdges edges) (nodes.map Node.id) be3.from' be1.from' :=
    Relation.ReflTransGen.single hstep3
  rcases bf_reach_finite_or_taint hs be1.from' hreach with ⟨d1, hd1⟩ | ⟨be', hbe', hrel, hre'⟩
  · have hI := @bfFinal_inv α _ nodes edges startId hs
    have h2some : ((bfFinal nodes edges startId).1 be2.from').isSome = true :=
      (hI.keys _).mpr hi2
    cases hv2 : (bfFinal nodes edges startId).1 be2.from' with
    | none => rw [hv2] at h2some; cases h2some
    | some o2 =>
      cases o2 with
      | none =>
        refine ⟨be1, hm1, bfRelaxable_of_inf hd1 (by rw [hc1]; exact hv2), ?_⟩
        rw [hc1]
        exact hre2
      | some d2 =>
        have h3some : ((bfFinal nodes edges startId).1 be3.from').isSome = true :=
          (hI.keys _).mpr hi3
        cases hv3 : (bfFinal nodes edges startId).1 be3.from' with
        | none => rw [hv3] at h3some; cases h3some
        | some o3 =>
          cases o3 with
          | none =>
            refine ⟨be2, hm2, bfRelaxable_of_inf hv2 (by rw [hc2]; exact hv3), ?_⟩
            rw [hc2]
            exact hre3
          | some d3 =>
            by_cases hr1 : bfRelaxable (bfFinal nodes edges startId).1 be1 = true
            · exact ⟨be1, hm1, hr1, by rw [hc1]; exact hre2⟩
            by_cases hr2 : bfRelaxable (bfFinal nodes edges startId).1 be2 = true
            · exact ⟨be2, hm2, hr2, by rw [hc2]; exact hre3⟩
            by_cases hr3 : bfRelaxable (bfFinal nodes edges startId).1 be3 = true
            · exact ⟨be3, hm3, hr3, by rw [hc3]; exact Relation.ReflTransGen.refl⟩
            exfalso
            have hr1' : bfRelaxable (bfFinal nodes edges startId).1 be1 = false := by
              simpa using hr1
            have hr2' : bfRelaxable (bfFinal nodes edges startId).1 be2 = false := by
              simpa using hr2
            have hr3' : bfRelaxable (bfFinal nodes edges startId).1 be3 = false := by
              simpa using hr3
            have l1 : d2 ≤ d1 + be1.weight :=
              bfRelaxable_false_le hd1 (by rw [hc1]; exact hv2) hr1'
            have l2 : d3 ≤ d2 + be2.weight :=
              bfRelaxable_false_le hv2 (by rw [hc2]; exact hv3) hr2'
            have l3 : d1 ≤ d3 + be3.weight :=
              bfRelaxable_false_le hv3 (by rw [hc3]; exact hd1) hr3'
            have h5 : d1 ≤ d1 + (be1.weight + be2.weight + be3.weight) := by
              calc d1 ≤ d3 + be3.weight := l3
                _ ≤ (d2 + be2.weight) + be3.weight := add_le_add_right l2 _
                _ ≤ ((d1 + be1.weight) + be2.weight) + be3.weight :=
                    add_le_add_right (add_le_add_right l1 _) _
                _ = d1 + (be1.weight + be2.weight + be3.weight) := by abel
            have h5' : d1 + 0 ≤ d1 + (be1.weight + be2.weight + be3.weight) := by
              simpa using h5
            exact absurd (le_of_add_le_add_left h5') (not_le.mpr hneg)
  · exact ⟨be', hbe', hrel, hre'⟩

/-! ## Claim C2 -/

/-- C2 counterexample: with origin and destination both equal to a node
id present in the snapshot, `dijkstra` returns `found = false` with an
empty path (its very first guard), not the zero-cost singleton path the
claim asserts for both engines. -/
theorem c2_counterexample :
    (dijkstra [⟨"n1"⟩] ([] : List (Edge ℤ)) "n1" "n1").map DijkstraResult.found = some false ∧
    (dijkstra [⟨"n1"⟩] ([] : List (Edge ℤ)) "n1" "n1").map DijkstraResult.path = some [] := by
  constructor <;> rfl

/-- C2 (amended): for a nonempty node id `s` present in the snapshot,
`bellmanFord` with origin = destination = `s` returns `found = true`
with the zero-cost singleton path `[s]`, while `dijkstra` returns
`found = false` with an empty zero-cost path. -/
theorem c2_self_route (nodes : List Node) (edges : List (Edge α)) (s : String)
    (hs : s ≠ "") (hmem : s ∈ nodes.map Node.id) :
    bellmanFord nodes edges s s = some ⟨[s], .finite 0, [], true, false, none⟩ ∧
    dijkstra nodes edges s s = some ⟨[], 0, [], false⟩ := by
  have hnodes : nodes ≠ [] := by
    intro h; rw [h] at hmem; simp at hmem
  constructor
  · unfold bellmanFord
    rw [if_neg hnodes, if_neg (by simp [hs]), if_pos rfl]
  · unfold dijkstra
    rw [if_pos (Or.inr (Or.inr rfl))]

/-- C2 witness: the amended statement at a concrete snapshot. -/
theorem c2_self_route_witness :
    bellmanFord [⟨"n2"⟩] ([] : List (Edge ℤ)) "n2" "n2" =
      some ⟨["n2"], .finite 0, [], true, false, none⟩ ∧
    dijkstra [⟨"n2"⟩] ([] : List (Edge ℤ)) "n2" "n2" = some ⟨[], 0, [], false⟩ :=
  c2_self_route [⟨"n2"⟩] ([] : List (Edge ℤ)) "n2" (by decide) (by decide)

/-! ## Claim C4 -/

/-- C4: `analyzeEulerian` applies Euler's theorem exactly: with zero
unblocked edges, circuit and path existence both hold iff the graph has
at most one node; otherwise (whenever the connectivity computation
returns, i.e. the adjacency build does not throw on a dangling edge), a
disconnected graph yields false for both, and a connected one is decided
by the number `k` of odd-degree vertices: `k = 0` gives circuit and
path, `k = 2` gives path only, anything else gives neither. -/
theorem c4_euler_cases (nodes : List Node) (edges : List (Edge α)) :
    (activeEdges edges = [] →
      ∃ r, analyzeEulerian nodes edges = some r ∧
        (r.hasEulerianCircuit = true ↔ nodes.length ≤ 1) ∧
        (r.hasEulerianPath = true ↔ nodes.length ≤ 1)) ∧
    (∀ conn, isGraphConnected nodes (activeEdges edges) = some conn →
      activeEdges edges ≠ [] →
      ∃ r, analyzeEulerian nodes edges = some r ∧
        r.oddDegreeCount =
          ((calculateDegrees nodes (activeEdges edges)).filter
            fun p => p.2 % 2 = 1).length ∧
        (conn.connected = false →
          r.hasEulerianCircuit = false ∧ r.hasEulerianPath = false) ∧
        (conn.connected = true →
          (r.oddDegreeCount = 0 →
            r.hasEulerianCircuit = true ∧ r.hasEulerianPath = true) ∧
          (r.oddDegreeCount = 2 →
            r.hasEulerianCircuit = false ∧ r.hasEulerianPath = true) ∧
          (r.oddDegreeCount ≠ 0 → r.oddDegreeCount ≠ 2 →
            r.hasEulerianCircuit = false ∧ r.hasEulerianPath = false))) := by
  constructor
  · intro h
    refine ⟨_, by unfold analyzeEulerian; rw [if_pos h], ?_, ?_⟩ <;> simp
  · intro conn hconn hne
    refine ⟨_, by unfold analyzeEulerian; rw [if_neg hne, hconn], ?_, ?_, ?_⟩
    · simp [oddVerts]
    · intro hc; simp [hc]
    · intro hc
      refine ⟨fun h0 => ?_, fun h2 => ?_, fun h0 h2 => ?_⟩
      · simp_all
      · simp_all
      · simp_all

/-- C4 witness: the connected branch at the 4-cycle A-B-C-D-A (all
degrees even), giving an Eulerian circuit and path. -/
theorem c4_euler_cases_witness :
    ∃ r, analyzeEulerian [⟨"A"⟩, ⟨"B"⟩, ⟨"C"⟩, ⟨"D"⟩]
        ([⟨"r1", "A", "B", 1, false⟩, ⟨"r2", "B", "C", 1, false⟩,
          ⟨"r3", "C", "D", 1, false⟩, ⟨"r4", "D", "A", 1, false⟩] : List (Edge ℤ)) = some r ∧
      r.hasEulerianCircuit = true ∧ r.hasEulerianPath = true := by
  obtain ⟨r, hr, hk, _, htrue⟩ :=
    (c4_euler_cases [⟨"A"⟩, ⟨"B"⟩, ⟨"C"⟩, ⟨"D"⟩]
      ([⟨"r1", "A", "B", 1, false⟩, ⟨"r2", "B", "C", 1, false⟩,
        ⟨"r3", "C", "D", 1, false⟩, ⟨"r4", "D", "A", 1, false⟩] : List (Edge ℤ))).2
      ⟨true, 1⟩ (by decide) (by decide)
  have hk0 : r.oddDegreeCount = 0 := by rw [hk]; decide
  exact ⟨r, hr, (htrue rfl).1 hk0⟩

/-! ## Claim C5 -/

theorem mem_addUniq {s : List String} {x y : String} (h : x ∈ addUniq s y) :
    x ∈ s ∨ x = y := by
  unfold addUniq at h
  split at h
  · exact Or.inl h
  · rcases List.mem_append.mp h with h' | h'
    · exact Or.inl h'
    · exact Or.inr (List.mem_singleton.mp h')

theorem mem_adjSetOf {edges : List (Edge α)} {v x : String} (h : x ∈ adjSetOf edges v) :
    ∃ e ∈ edges, e.blocked = false ∧
      ((e.from' = v ∧ e.to' = x) ∨ (e.to' = v ∧ e.from' = x)) := by
  suffices H : ∀ (es : List (Edge α)) (acc : List String), x ∈ es.foldl
      (fun acc e =>
        if e.blocked then acc
        else if e.to' = v then
          addUniq (if e.from' = v then addUniq acc e.to' else acc) e.from'
        else if e.from' = v then addUniq acc e.to' else acc) acc →
      x ∈ acc ∨ ∃ e ∈ es, e.blocked = false ∧
        ((e.from' = v ∧ e.to' = x) ∨ (e.to' = v ∧ e.from' = x)) by
    rcases H edges [] h with h' | h'
    · simp at h'
    · exact h'
  intro es
  induction es with
  | nil => intro acc h'; exact Or.inl h'
  | cons e es ih =>
    intro acc h'
    rw [List.foldl_cons] at h'
    rcases ih _ h' with h'' | ⟨e', he', hb, hor⟩
    · by_cases hbl : e.blocked = true
      · rw [if_pos hbl] at h''
        exact Or.inl h''
      · rw [if_neg hbl] at h''
        have hbf : e.blocked = false := by revert hbl; cases e.blocked <;> simp
        by_cases h2 : e.to' = v
        · rw [if_pos h2] at h''
          rcases mem_addUniq h'' with h3 | h3
          · by_cases h1 : e.from' = v
            · rw [if_pos h1] at h3
              rcases mem_addUniq h3 with h4 | h4
              · exact Or.inl h4
              · exact Or.inr ⟨e, List.mem_cons_self e es, hbf, Or.inl ⟨h1, h4.symm⟩⟩
            · rw [if_neg h1] at h3
              exact Or.inl h3
          · exact Or.inr ⟨e, List.mem_cons_self e es, hbf, Or.inr ⟨h2, h3.symm⟩⟩
        · rw [if_neg h2] at h''
          by_cases h1 : e.from' = v
          · rw [if_pos h1] at h''
            rcases mem_addUniq h'' with h3 | h3
            · exact Or.inl h3
            · exact Or.inr ⟨e, List.mem_cons_self e es, hbf, Or.inl ⟨h1, h3.symm⟩⟩
          · rw [if_neg h1] at h''
            exact Or.inl h''
    · exact Or.inr ⟨e', List.mem_cons_of_mem e he', hb, hor⟩

/-- Soundness of the path backtracking search: a returned list extends
the partial path by the current vertex and a chain of adjacent unvisited
vertices, has exactly `target` entries, and repeats no vertex.  The
`vis = path` instantiation mirrors the fact that the search visits
exactly the vertices it has placed on the path. -/
theorem hamDFS_sound (adj : String → List String) (target : Nat) :
    ∀ fuel cur path res,
      hamDFS adj target fuel cur path path = some res →
      cur ∉ path → path.Nodup →
      ∃ ext, res = path ++ cur :: ext ∧ res.length = target ∧ res.Nodup ∧
        List.Chain' (fun a b => b ∈ adj a) (cur :: ext) := by
  intro fuel
  induction fuel with
  | zero =>
    intro cur path res h hcur hnd
    exact absurd h (by rw [hamDFS]; simp)
  | succ k ih =>
    intro cur path res h hcur hnd
    rw [hamDFS] at h
    by_cases hlen : (path ++ [cur]).length = target
    · rw [if_pos hlen] at h
      refine ⟨[], by simpa using h.symm, ?_, ?_, List.chain'_singleton cur⟩
      · rw [← Option.some_inj.mp h, hlen]
      · rw [← Option.some_inj.mp h]
        exact nodup_append_singleton hnd hcur
    · rw [if_neg hlen] at h
      obtain ⟨nb, hnbmem, hnb⟩ := List.exists_of_findSome?_eq_some h
      by_cases hnbv : nb ∈ path ++ [cur]
      · rw [if_pos hnbv] at hnb
        exact absurd hnb (by simp)
      · rw [if_neg hnbv] at hnb
        obtain ⟨ext, hres, hrlen, hrnd, hchain⟩ :=
          ih nb (path ++ [cur]) res hnb hnbv (nodup_append_singleton hnd hcur)
        refine ⟨nb :: ext, by rw [hres]; simp, hrlen, hrnd, ?_⟩
        exact List.chain'_cons.mpr ⟨hnbmem, hchain⟩

/-- Soundness of `findHamiltonianPath`: any returned list is a
Hamiltonian path of the adjacency structure, starting at one of the
start vertices. -/
theorem findHamiltonianPath_sound {adj : String → List String}
    {nodeIds : List String} {target : Nat} {p : List String}
    (h : findHamiltonianPath adj nodeIds target = some p) :
    ∃ s ∈ nodeIds, p.head? = some s ∧ p.length = target ∧ p.Nodup ∧
      List.Chain' (fun a b => b ∈ adj a) p := by
  induction nodeIds with
  | nil => exact absurd h (by simp [findHamiltonianPath])
  | cons s rest ih =>
    rw [findHamiltonianPath] at h
    cases hds : hamDFS adj target (target + 1) s [] [] with
    | some q =>
      rw [hds] at h
      obtain ⟨ext, hres, hlen, hnd, hchain⟩ :=
        hamDFS_sound adj target (target + 1) s [] q hds (by simp) List.nodup_nil
      have hq : q = s :: ext := by simpa using hres
      have hpq : p = q := by simpa using h.symm
      exact ⟨s, List.mem_cons_self s rest, by rw [hpq, hq]; rfl, hpq ▸ hlen, hpq ▸ hnd,
        by rw [hpq, hq]; exact hchain⟩
    | none =>
      rw [hds] at h
      obtain ⟨s', hs', rest'⟩ := ih h
      exact ⟨s', List.mem_cons_of_mem s hs', rest'⟩

/-- Soundness of the circuit backtracking search: in addition to the
path facts, the start vertex is adjacent to the final vertex. -/
theorem hamCircDFS_sound (adj : String → List String) (target : Nat) (start : String) :
    ∀ fuel cur path res,
      hamCircDFS adj target start fuel cur path path = some res →
      path.Nodup → path.getLast? = some cur →
      ∃ ext, res = path ++ ext ∧ res.length = target ∧ res.Nodup ∧
        List.Chain' (fun a b => b ∈ adj a) (cur :: ext) ∧
        ∃ last, res.getLast? = some last ∧ start ∈ adj last := by
  intro fuel
  induction fuel with
  | zero =>
    intro cur path res h hnd hlast
    exact absurd h (by rw [hamCircDFS]; simp)
  | succ k ih =>
    intro cur path res h hnd hlast
    rw [hamCircDFS] at h
    by_cases hlen : path.length = target
    · rw [if_pos hlen] at h
      by_cases hst : start ∈ adj cur
      · rw [if_pos hst] at h
        exact ⟨[], by simpa using h.symm, by rw [← Option.some_inj.mp h]; exact hlen,
          by rw [← Option.some_inj.mp h]; exact hnd, List.chain'_singleton cur,
          cur, by rw [← Option.some_inj.mp h]; exact hlast, hst⟩
      · rw [if_neg hst] at h
        exact absurd h (by simp)
    · rw [if_neg hlen] at h
      obtain ⟨nb, hnbmem, hnb⟩ := List.exists_of_findSome?_eq_some h
      by_cases hnbv : nb ∈ path
      · rw [if_pos hnbv] at hnb
        exact absurd hnb (by simp)
      · rw [if_neg hnbv] at hnb
        obtain ⟨ext, hres, hrlen, hrnd, hchain, last, hlast', hstl⟩ :=
          ih nb (path ++ [nb]) res hnb (nodup_append_singleton hnd hnbv) (by simp)
        refine ⟨nb :: ext, by rw [hres]; simp, hrlen, hrnd, ?_, last, hlast', hstl⟩
        exact List.chain'_cons.mpr ⟨hnbmem, hchain⟩

/-- Soundness of `findHamiltonianCircuit`. -/
theorem findHamiltonianCircuit_sound {adj : String → List String}
    {nodeIds : List String} {target : Nat} {c : List String}
    (h : findHamiltonianCircuit adj nodeIds target = some c) :
    ∃ s ∈ nodeIds, c.head? = some s ∧ c.length = target ∧ c.Nodup ∧
      List.Chain' (fun a b => b ∈ adj a) c ∧
      ∃ last, c.getLast? = some last ∧ s ∈ adj last := by
  match nodeIds with
  | [] => exact absurd h (by simp [findHamiltonianCircuit])
  | s :: rest =>
    rw [findHamiltonianCircuit] at h
    obtain ⟨ext, hres, hlen, hnd, hchain, last, hlast, hstl⟩ :=
      hamCircDFS_sound adj target s (target + 1) s [s] c h
        (List.nodup_singleton s) rfl
    have hc : c = s :: ext := by simpa using hres
    exact ⟨s, List.mem_cons_self s rest, by rw [hc]; rfl, hlen, hnd,
      by rw [hc]; exact hchain, last, hlast, hstl⟩

/-- Every vertex of an adjacency chain starting at a node id is a node
id, provided the adjacency build succeeded. -/
theorem chain_mem_ids {edges : List (Edge α)} {ids : List String}
    (hok : edgesOk ids (activeEdges edges) = true) :
    ∀ (p : List String) (s : String), p.head? = some s → s ∈ ids →
      List.Chain' (fun a b => b ∈ adjSetOf (activeEdges edges) a) p →
      ∀ x ∈ p, x ∈ ids := by
  intro p
  induction p with
  | nil => intro s hs _ _ x hx; simp at hx
  | cons a q ih =>
    intro s hs hsid hchain x hx
    have has : a = s := by simpa using hs
    rcases List.mem_cons.mp hx with rfl | hxq
    · exact has ▸ hsid
    · match q, hchain, hxq with
      | b :: q', hchain, hxq =>
        have hab : b ∈ adjSetOf (activeEdges edges) a :=
          (List.chain'_cons.mp hchain).1
        obtain ⟨e, he, heb, hor⟩ := mem_adjSetOf hab
        have hb : b ∈ ids := by
          rcases edgesOk_endpoints hok he heb with ⟨h1, h2⟩
          rcases hor with ⟨_, h4⟩ | ⟨_, h4⟩
          · exact h4 ▸ h2
          · exact h4 ▸ h1
        exact ih b rfl hb (List.chain'_cons.mp hchain).2 x hxq

/-- Adjacency-list membership gives an unblocked joining edge. -/
theorem hamAdj_of_adjSet {edges : List (Edge α)} {a b : String}
    (h : b ∈ adjSetOf (activeEdges edges) a) : hamAdj edges a b := by
  obtain ⟨e, he, heb, hor⟩ := mem_adjSetOf h
  refine ⟨e, (List.mem_filter.mp he).1, heb, ?_⟩
  rcases hor with ⟨h1, h2⟩ | ⟨h1, h2⟩
  · exact Or.inl ⟨h1, h2⟩
  · exact Or.inr ⟨h2, h1⟩

/-- A duplicate-free adjacency chain of full length visits every node
id. -/
theorem search_covers {edges : List (Edge α)} {ids : List String}
    {p : List String} {s : String}
    (hok : edgesOk ids (activeEdges edges) = true)
    (hsmem : s ∈ ids) (hhead : p.head? = some s)
    (hchain : List.Chain' (fun a b => b ∈ adjSetOf (activeEdges edges) a) p)
    (hnd : p.Nodup) (hlen : p.length = ids.length) :
    ∀ x ∈ ids, x ∈ p := by
  have hsub : ∀ x ∈ p, x ∈ ids := chain_mem_ids hok p s hhead hsmem hchain
  have hsp := List.subperm_of_subset hnd fun x hx => hsub x hx
  have hperm := hsp.perm_of_length_le (by omega)
  exact fun x hx => hperm.mem_iff.mpr hx

/-- C5: on a connected snapshot with 3 to 8 nodes satisfying neither
Dirac's nor Ore's condition, `analyzeHamiltonian` runs the exhaustive
backtracking search and returns a definite answer: path (resp. circuit)
existence is reported `yes` exactly when the search returns a path
(resp. circuit), `no` when the search is exhausted, and any returned
search result is a genuine Hamiltonian path of the snapshot — it has one
entry per node, repeats none, visits every node id, and each consecutive
pair (for a circuit, also the last and first entries) is joined by an
unblocked edge. -/
theorem c5_small_exhaustive (nodes : List Node) (edges : List (Edge α))
    (conn : Connectivity) (h3 : 3 ≤ nodes.length) (h8 : nodes.length ≤ 8)
    (hconn : isGraphConnected nodes (activeEdges edges) = some conn)
    (hc : conn.connected = true)
    (hdirac : ¬ diracCond nodes edges)
    (hore : oreCond nodes edges = false) :
    ∃ r, analyzeHamiltonian nodes edges = some r ∧
      r.certainty = "definite" ∧
      (r.hasHamiltonianPath = HamAns.yes ↔ ∃ p, hamSearchPath nodes edges = some p) ∧
      (r.hasHamiltonianCircuit = HamAns.yes ↔ ∃ c, hamSearchCircuit nodes edges = some c) ∧
      (hamSearchPath nodes edges = none → r.hasHamiltonianPath = HamAns.no) ∧
      (hamSearchCircuit nodes edges = none → r.hasHamiltonianCircuit = HamAns.no) ∧
      (∀ p, hamSearchPath nodes edges = some p →
        p.length = nodes.length ∧ p.Nodup ∧
        (∀ x ∈ nodes.map Node.id, x ∈ p) ∧ List.Chain' (hamAdj edges) p) ∧
      (∀ c, hamSearchCircuit nodes edges = some c →
        c.length = nodes.length ∧ c.Nodup ∧
        (∀ x ∈ nodes.map Node.id, x ∈ c) ∧ List.Chain' (hamAdj edges) c ∧
        ∀ s ∈ c.head?, ∀ last ∈ c.getLast?, hamAdj edges last s) := by
  have hok : edgesOk (nodes.map Node.id) (activeEdges edges) = true :=
    isGraphConnected_some_edgesOk (by omega) hconn
  have hpath : ∀ p, hamSearchPath nodes edges = some p →
      p.length = nodes.length ∧ p.Nodup ∧
      (∀ x ∈ nodes.map Node.id, x ∈ p) ∧ List.Chain' (hamAdj edges) p := by
    intro p hp
    unfold hamSearchPath at hp
    obtain ⟨s, hsmem, hhead, hlen, hnd, hchain⟩ := findHamiltonianPath_sound hp
    refine ⟨hlen, hnd, ?_, hchain.imp fun {a b} hab => hamAdj_of_adjSet hab⟩
    exact search_covers hok hsmem hhead hchain hnd (by rw [hlen, List.length_map])
  have hcirc : ∀ c, hamSearchCircuit nodes edges = some c →
      c.length = nodes.length ∧ c.Nodup ∧
      (∀ x ∈ nodes.map Node.id, x ∈ c) ∧ List.Chain' (hamAdj edges) c ∧
      ∀ s ∈ c.head?, ∀ last ∈ c.getLast?, hamAdj edges last s := by
    intro c hcs
    unfold hamSearchCircuit at hcs
    obtain ⟨s, hsmem, hhead, hlen, hnd, hchain, last, hlast, hstl⟩ :=
      findHamiltonianCircuit_sound hcs
    refine ⟨hlen, hnd, ?_, hchain.imp fun {a b} hab => hamAdj_of_adjSet hab, ?_⟩
    · exact search_covers hok hsmem hhead hchain hnd (by rw [hlen, List.length_map])
    · intro s' hs' l hl
      have hss : s = s' := by rw [hhead] at hs'; simpa using hs'
      have hll : last = l := by rw [hlast] at hl; simpa using hl
      rw [← hss, ← hll]
      exact hamAdj_of_adjSet hstl
  match nodes, h3, h8, hconn, hdirac, hore, hok, hpath, hcirc with
  | a :: b :: c :: rest, h3, h8, hconn, hdirac, hore, hok, hpath, hcirc =>
    have hred : analyzeHamiltonian (a :: b :: c :: rest) edges =
        some ⟨if (hamSearchCircuit (a :: b :: c :: rest) edges).isSome then .yes else .no,
          if (hamSearchPath (a :: b :: c :: rest) edges).isSome then .yes else .no,
          "definite",
          match hamSearchCircuit (a :: b :: c :: rest) edges,
            hamSearchPath (a :: b :: c :: rest) edges with
          | some cc, _ => .ids cc
          | none, some p => .ids p
          | none, none => .nullv⟩ := by
      unfold analyzeHamiltonian
      rw [hok]
      simp only [Bool.true_eq_false, if_false]
      rw [hconn]
      simp only [hc, Bool.true_eq_false, if_false]
      rw [if_neg (fun h => hdirac h.1),
          if_neg (fun h => by rw [hore] at h; simp at h),
          if_pos (by simp only [List.length_cons] at h8 ⊢; omega)]
    refine ⟨_, hred, rfl, ?_, ?_, ?_, ?_, hpath, hcirc⟩
    · cases hp : hamSearchPath (a :: b :: c :: rest) edges <;> simp [hp]
    · cases hcs : hamSearchCircuit (a :: b :: c :: rest) edges <;> simp [hcs]
    · intro hp; simp [hp]
    · intro hcs; simp [hcs]

/-- C5 witness: the star graph on five nodes (center `S`, four leaves)
fails Dirac and Ore, triggers the exhaustive search, and is reported
definitely non-Hamiltonian for both circuit and path. -/
theorem c5_small_exhaustive_witness :
    ∃ r, analyzeHamiltonian [⟨"S"⟩, ⟨"L1"⟩, ⟨"L2"⟩, ⟨"L3"⟩, ⟨"L4"⟩]
        ([⟨"s1", "S", "L1", 1, false⟩, ⟨"s2", "S", "L2", 1, false⟩,
          ⟨"s3", "S", "L3", 1, false⟩, ⟨"s4", "S", "L4", 1, false⟩] : List (Edge ℤ)) =
        some r ∧
      r.certainty = "definite" ∧ r.hasHamiltonianPath = HamAns.no ∧
      r.hasHamiltonianCircuit = HamAns.no := by
  obtain ⟨r, hr, hcert, _, _, hpno, hcno, _, _⟩ :=
    c5_small_exhaustive [⟨"S"⟩, ⟨"L1"⟩, ⟨"L2"⟩, ⟨"L3"⟩, ⟨"L4"⟩]
      ([⟨"s1", "S", "L1", 1, false⟩, ⟨"s2", "S", "L2", 1, false⟩,
        ⟨"s3", "S", "L3", 1, false⟩, ⟨"s4", "S", "L4", 1, false⟩] : List (Edge ℤ))
      ⟨true, 1⟩ (by decide) (by decide) (by decide) rfl
      (by rw [diracCond_iff]; decide) (by decide)
  exact ⟨r, hr, hcert, hpno (by decide), hcno (by decide)⟩

/-- C6: on a connected snapshot with more than 8 nodes satisfying
neither Dirac's nor Ore's condition, `analyzeHamiltonian` reports
`"unknown"` for both circuit and path existence, with `"unknown"`
certainty and no witness path (the `samplePath` key is absent from the
returned record). -/
theorem c6_large_indeterminate (nodes : List Node) (edges : List (Edge α))
    (conn : Connectivity) (hn : 8 < nodes.length)
    (hconn : isGraphConnected nodes (activeEdges edges) = some conn)
    (hc : conn.connected = true)
    (hdirac : ¬ diracCond nodes edges)
    (hore : oreCond nodes edges = false) :
    analyzeHamiltonian nodes edges = some ⟨.unknown, .unknown, "unknown", .absent⟩ := by
  have hok : edgesOk (nodes.map Node.id) (activeEdges edges) = true :=
    isGraphConnected_some_edgesOk (by omega) hconn
  match nodes, hn, hconn, hdirac, hore, hok with
  | a :: b :: c :: rest, hn, hconn, hdirac, hore, hok =>
    unfold analyzeHamiltonian
    rw [hok]
    simp only [Bool.true_eq_false, if_false]
    rw [hconn]
    simp only [hc, Bool.true_eq_false, if_false]
    rw [if_neg (fun h => hdirac h.1),
        if_neg (fun h => by rw [hore] at h; simp at h),
        if_neg (by simp only [List.length_cons] at hn ⊢; omega)]

/-- C6 witness: the path graph on 9 nodes (sparse, connected, neither
Dirac nor Ore) is reported indeterminate. -/
theorem c6_large_indeterminate_witness :
    analyzeHamiltonian
      [⟨"a"⟩, ⟨"b"⟩, ⟨"c"⟩, ⟨"d"⟩, ⟨"e"⟩, ⟨"f"⟩, ⟨"g"⟩, ⟨"h"⟩, ⟨"i"⟩]
      ([⟨"p1", "a", "b", 1, false⟩, ⟨"p2", "b", "c", 1, false⟩,
        ⟨"p3", "c", "d", 1, false⟩, ⟨"p4", "d", "e", 1, false⟩,
        ⟨"p5", "e", "f", 1, false⟩, ⟨"p6", "f", "g", 1, false⟩,
        ⟨"p7", "g", "h", 1, false⟩, ⟨"p8", "h", "i", 1, false⟩] : List (Edge ℤ)) =
      some ⟨.unknown, .unknown, "unknown", .absent⟩ :=
  c6_large_indeterminate _ _ ⟨true, 1⟩ (by decide) (by decide) rfl
    (by rw [diracCond_iff]; decide) (by decide)

/-! ## Claim C10 -/

/-- C10: the steps of a found route are looked up from the edge list by
endpoint pair, not taken from the edge actually relaxed.  At a concrete
snapshot with a blocked parallel edge listed first, `dijkstra` computes
the distance through the unblocked weight-3 edge but reports the step of
the blocked weight-9 edge `b1`, so `totalCost = 3` differs from the step
sum `9`; `bellmanFord` (whose `edgeMap` is last-write-wins over the
unblocked edges) likewise reports the weight-7 parallel edge `q2` while
its distance used weight 2. -/
theorem c10_steps_first_match :
    dijkstra [⟨"x"⟩, ⟨"y"⟩]
        ([⟨"b1", "x", "y", 9, true⟩, ⟨"b2", "x", "y", 3, false⟩] : List (Edge ℤ)) "x" "y" =
      some ⟨["x", "y"], 3, [⟨"x", "y", 9, "b1"⟩], true⟩ ∧
    ((9 : ℤ) ≠ 3) ∧
    bellmanFord [⟨"u"⟩, ⟨"v"⟩]
        ([⟨"q1", "u", "v", 2, false⟩, ⟨"q2", "u", "v", 7, false⟩] : List (Edge ℤ)) "u" "v" =
      some ⟨["u", "v"], .finite 2, [⟨"u", "v", 7, "q2"⟩], true, false, none⟩ ∧
    ((7 : ℤ) ≠ 2) := by
  refine ⟨by decide, by decide, by decide, by decide⟩

/-! ## Counterexamples for claims C1, C7, C8, C9 -/

/-- C1 counterexample: a blocked parallel edge listed before the
unblocked one is picked up by the step lookup, so a found route has
`totalCost = 2` but step-cost sum `5`. -/
theorem c1_counterexample :
    dijkstra [⟨"a"⟩, ⟨"b"⟩]
        ([⟨"e1", "a", "b", 5, true⟩, ⟨"e2", "a", "b", 2, false⟩] : List (Edge ℤ)) "a" "b" =
      some ⟨["a", "b"], 2, [⟨"a", "b", 5, "e1"⟩], true⟩ ∧
    ((2 : ℤ) ≠ 5) := by
  refine ⟨by decide, by decide⟩

/-- C7 counterexample: with a negative weight present, blocking an edge
can shorten the route `dijkstra` returns.  Unblocked, the greedy loop
settles the destination through the weight-0 edge (cost 0); with that
edge blocked, the returned cost is `5 - 100 = -95 < 0`. -/
theorem c7_counterexample :
    dijkstra [⟨"s"⟩, ⟨"a"⟩, ⟨"t"⟩]
        ([⟨"e0", "s", "t", 0, false⟩, ⟨"e1", "s", "a", 5, false⟩,
          ⟨"e2", "a", "t", -100, false⟩] : List (Edge ℤ)) "s" "t" =
      some ⟨["s", "t"], 0, [⟨"s", "t", 0, "e0"⟩], true⟩ ∧
    dijkstra [⟨"s"⟩, ⟨"a"⟩, ⟨"t"⟩]
        ([⟨"e0", "s", "t", 0, true⟩, ⟨"e1", "s", "a", 5, false⟩,
          ⟨"e2", "a", "t", -100, false⟩] : List (Edge ℤ)) "s" "t" =
      some ⟨["s", "a", "t"], -95,
        [⟨"s", "a", 5, "e1"⟩, ⟨"a", "t", -100, "e2"⟩], true⟩ ∧
    ((-95 : ℤ) < 0) := by
  refine ⟨by decide, by decide, by decide⟩

/-- C8 counterexample: an unblocked edge whose endpoint `x` is absent
from the node list makes `dijkstra` abort while building the adjacency
lists (`graph["x"].push` throws), modelled as `none`, instead of
returning a complete no-path record. -/
theorem c8_counterexample :
    dijkstra [⟨"a"⟩, ⟨"b"⟩] ([⟨"e1", "a", "x", 1, false⟩] : List (Edge ℤ)) "a" "b" = none := by
  decide

/-- C9 counterexample: with origin = destination on an endpoint of an
unblocked negative edge, `bellmanFord` returns its early singleton with
`found = true` and `hasNegativeCycle = false`, although an unblocked
negative-weight edge is (trivially) reachable from the origin. -/
theorem c9_counterexample :
    bellmanFord [⟨"s"⟩, ⟨"a"⟩] ([⟨"e", "s", "a", -1, false⟩] : List (Edge ℤ)) "s" "s" =
      some ⟨["s"], .finite 0, [], true, false, none⟩ ∧
    (∃ e ∈ ([⟨"e", "s", "a", -1, false⟩] : List (Edge ℤ)),
      e.blocked = false ∧ e.weight < 0 ∧ e.from' = "s") := by
  exact ⟨by decide, by decide⟩


/-! ## Amended claim theorems -/

/-- C1 (amended): whenever either engine returns `found = true`, the
path is nonempty, starts at the origin and ends at the destination; the
reported total cost equals the sum of the reported step costs only under
the side conditions ruling out the step-lookup mismatch of claim C10
(no parallel edges, and for `bellmanFord` dash-free ids, since its
`edgeMap` keys are built with a dash separator). -/
theorem c1_route_shape (nodes : List Node) (edges : List (Edge α)) (startId endId : String) :
    (∀ r : DijkstraResult α, dijkstra nodes edges startId endId = some r → r.found = true →
      r.path ≠ [] ∧ r.path.head? = some startId ∧ r.path.getLast? = some endId ∧
        (noParallel edges → r.totalCost = stepsCost r.steps)) ∧
    (∀ r : BellmanResult α, bellmanFord nodes edges startId endId = some r → r.found = true →
      r.path ≠ [] ∧ r.path.head? = some startId ∧ r.path.getLast? = some endId ∧
        (noParallel edges →
          (∀ i ∈ nodes.map Node.id, dashFree i) →
          (∀ e ∈ edges, e.blocked = false → dashFree e.from' ∧ dashFree e.to') →
          r.totalCost = JsNumber.finite (stepsCost r.steps))) :=
  ⟨fun _ h hf => dijkstra_found_shape h hf, fun _ h hf => bellman_found_shape h hf⟩

/-- C1 witness: both engines at a two-node snapshot with a single
unblocked edge, where the found route runs `a → b` and the reported
cost 2 is the step-cost sum. -/
theorem c1_route_shape_witness :
    ((["a", "b"] : List String) ≠ [] ∧ (["a", "b"] : List String).head? = some "a" ∧
      (["a", "b"] : List String).getLast? = some "b" ∧
      (2 : ℤ) = stepsCost [(⟨"a", "b", 2, "e2"⟩ : Step ℤ)]) ∧
    JsNumber.finite (2 : ℤ) = JsNumber.finite (stepsCost [(⟨"a", "b", 2, "e2"⟩ : Step ℤ)]) := by
  have h := c1_route_shape [⟨"a"⟩, ⟨"b"⟩]
    ([⟨"e2", "a", "b", 2, false⟩] : List (Edge ℤ)) "a" "b"
  have hd := h.1 ⟨["a", "b"], 2, [⟨"a", "b", 2, "e2"⟩], true⟩ (by decide) rfl
  have hbf := h.2 ⟨["a", "b"], .finite 2, [⟨"a", "b", 2, "e2"⟩], true, false, none⟩
    (by decide) rfl
  refine ⟨⟨hd.1, hd.2.1, hd.2.2.1, hd.2.2.2 (by simp [noParallel])⟩, ?_⟩
  exact hbf.2.2.2 (by simp [noParallel]) (by decide) (by decide)

/-! ## Claim C3 -/

/-- C3 counterexample: a 3-node cycle `x → y → z → x` whose unblocked
weights sum to `-3 < 0`, with the destination `t` reachable from the
cycle, yet `bellmanFord` from the isolated origin `s` reports
`hasNegativeCycle = false` (the cycle is never relaxed because every
distance on it stays `Infinity`, so the claimed `hasNegativeCycle =
true` / `found = false` taint outcome does not occur). -/
theorem c3_counterexample :
    bellmanFord [⟨"s"⟩, ⟨"x"⟩, ⟨"y"⟩, ⟨"z"⟩, ⟨"t"⟩]
        ([⟨"c1", "x", "y", 1, false⟩, ⟨"c2", "y", "z", 1, false⟩,
          ⟨"c3", "z", "x", -5, false⟩, ⟨"c4", "x", "t", 1, false⟩] : List (Edge ℤ)) "s" "t" =
      some ⟨[], .finite 0, [], false, false, none⟩ ∧
    ((1 : ℤ) + 1 + -5 < 0) ∧
    breach
      (bidirEdges ([⟨"c1", "x", "y", 1, false⟩, ⟨"c2", "y", "z", 1, false⟩,
        ⟨"c3", "z", "x", -5, false⟩, ⟨"c4", "x", "t", 1, false⟩] : List (Edge ℤ)))
      (List.map Node.id [⟨"s"⟩, ⟨"x"⟩, ⟨"y"⟩, ⟨"z"⟩, ⟨"t"⟩]) "x" "t" := by
  refine ⟨by decide, by decide, Relation.ReflTransGen.single (by decide)⟩

/-- C3 (amended): a directed three-copy cycle of `bidirectionalEdges`
with negative total weight forces the negative-cycle record — `found =
false`, `hasNegativeCycle = true` — for every destination connected to
the cycle, provided the cycle is itself reachable from the origin (and
the non-degenerate guards of the function pass). -/
theorem c3_negcycle (nodes : List Node) (edges : List (Edge α)) (startId endId : String)
    (be1 be2 be3 : BiEdge α)
    (h0 : ¬ nodes = []) (h1 : ¬ (startId = "" ∨ endId = "")) (h2 : ¬ startId = endId)
    (h3 : ¬ (startId ∉ nodes.map Node.id ∨ endId ∉ nodes.map Node.id))
    (hm1 : be1 ∈ bidirEdges edges) (hm2 : be2 ∈ bidirEdges edges)
    (hm3 : be3 ∈ bidirEdges edges)
    (hc1 : be1.to' = be2.from') (hc2 : be2.to' = be3.from') (hc3 : be3.to' = be1.from')
    (hi1 : be1.from' ∈ nodes.map Node.id) (hi2 : be2.from' ∈ nodes.map Node.id)
    (hi3 : be3.from' ∈ nodes.map Node.id)
    (hneg : be1.weight + be2.weight + be3.weight < 0)
    (hreach : breach (bidirEdges edges) (nodes.map Node.id) startId be1.from')
    (hdest : breach (bidirEdges edges) (nodes.map Node.id) be1.from' endId) :
    bellmanFord nodes edges startId endId =
      some ⟨[], .negInfinity, [], false, true,
        some ("Destination is affected by a negative weight cycle")⟩ := by
  have hs : startId ∈ nodes.map Node.id := not_not.mp (not_or.mp h3).1
  obtain ⟨be', hbe', hrel, hre'⟩ :=
    bf_cycle_relaxable hs hm1 hm2 hm3 hc1 hc2 hc3 hi1 hi2 hi3 hneg hreach
  have h4 : ¬ bidirEdges edges = [] := by
    intro hnil
    rw [hnil] at hbe'
    exact List.not_mem_nil _ hbe'
  exact bellman_taint_result h0 h1 h2 h3 h4
    (bf_taint_cond hbe' hrel (Relation.ReflTransGen.trans hre' hdest))

/-- C3 witness: origin `s` reaches the negative cycle `u → v → w → u`
(weights `1 + 1 - 5 = -3`), destination `t` hangs off the cycle, and
`bellmanFord` returns exactly the negative-cycle record. -/
theorem c3_negcycle_witness :
    bellmanFord [⟨"s"⟩, ⟨"u"⟩, ⟨"v"⟩, ⟨"w"⟩, ⟨"t"⟩]
        ([⟨"r0", "s", "u", 1, false⟩, ⟨"k1", "u", "v", 1, false⟩,
          ⟨"k2", "v", "w", 1, false⟩, ⟨"k3", "w", "u", -5, false⟩,
          ⟨"k4", "u", "t", 1, false⟩] : List (Edge ℤ)) "s" "t" =
      some ⟨[], .negInfinity, [], false, true,
        some ("Destination is affected by a negative weight cycle")⟩ :=
  c3_negcycle [⟨"s"⟩, ⟨"u"⟩, ⟨"v"⟩, ⟨"w"⟩, ⟨"t"⟩]
    ([⟨"r0", "s", "u", 1, false⟩, ⟨"k1", "u", "v", 1, false⟩,
      ⟨"k2", "v", "w", 1, false⟩, ⟨"k3", "w", "u", -5, false⟩,
      ⟨"k4", "u", "t", 1, false⟩] : List (Edge ℤ)) "s" "t"
    ⟨"u", "v", 1, "k1"⟩ ⟨"v", "w", 1, "k2"⟩ ⟨"w", "u", -5, "k3"⟩
    (by decide) (by decide) (by decide) (by decide)
    (by decide) (by decide) (by decide)
    rfl rfl rfl
    (by decide) (by decide) (by decide)
    (by decide)
    (Relation.ReflTransGen.single (by decide))
    (Relation.ReflTransGen.single (by decide))

/-! ## Claim C7 -/

/-- C7 (amended): blocked edges are invisible to the relaxation — the
whole `bellmanFord` result and the path, total cost and found flag of
`dijkstra` are unchanged when the blocked edges are deleted from the
snapshot, and every step `bellmanFord` reports comes from an unblocked
edge.  (The cost-monotonicity half of the claim is refuted by
`c7_counterexample`, and `dijkstra`'s reported step details can still
name a blocked edge, claim C10.) -/
theorem c7_blocked (nodes : List Node) (edges : List (Edge α)) (startId endId : String) :
    bellmanFord nodes (activeEdges edges) startId endId =
      bellmanFord nodes edges startId endId ∧
    (∀ r1 r2 : DijkstraResult α,
      dijkstra nodes (activeEdges edges) startId endId = some r1 →
      dijkstra nodes edges startId endId = some r2 →
      r1.path = r2.path ∧ r1.totalCost = r2.totalCost ∧ r1.found = r2.found) ∧
    (∀ r : BellmanResult α, bellmanFord nodes edges startId endId = some r →
      ∀ st ∈ r.steps, ∃ e ∈ edges, e.blocked = false ∧ st.cost = e.weight ∧
        st.edgeId = e.id) :=
  ⟨bellmanFord_activeEdges nodes edges startId endId,
    fun _ _ hA hB => dijkstra_blocked_invisible nodes edges startId endId hA hB,
    fun _ hr st hst => bellman_steps_unblocked hr st hst⟩

/-- C7 witness: on a snapshot with a blocked parallel edge, deleting the
blocked edge leaves the `bellmanFord` result and the `dijkstra` path,
cost and found flag unchanged, and the reported `bellmanFord` step comes
from the unblocked edge `e2`. -/
theorem c7_blocked_witness :
    (bellmanFord [⟨"a"⟩, ⟨"b"⟩]
        (activeEdges ([⟨"e1", "a", "b", 5, true⟩, ⟨"e2", "a", "b", 2, false⟩] :
          List (Edge ℤ))) "a" "b" =
      bellmanFord [⟨"a"⟩, ⟨"b"⟩]
        ([⟨"e1", "a", "b", 5, true⟩, ⟨"e2", "a", "b", 2, false⟩] : List (Edge ℤ)) "a" "b") ∧
    (["a", "b"] : List String) = ["a", "b"] ∧ (2 : ℤ) = 2 ∧ true = true ∧
    (∃ e ∈ ([⟨"e1", "a", "b", 5, true⟩, ⟨"e2", "a", "b", 2, false⟩] : List (Edge ℤ)),
      e.blocked = false ∧ (2 : ℤ) = e.weight ∧ "e2" = e.id) := by
  have h := c7_blocked [⟨"a"⟩, ⟨"b"⟩]
    ([⟨"e1", "a", "b", 5, true⟩, ⟨"e2", "a", "b", 2, false⟩] : List (Edge ℤ)) "a" "b"
  have h2 := h.2.1 ⟨["a", "b"], 2, [⟨"a", "b", 2, "e2"⟩], true⟩
    ⟨["a", "b"], 2, [⟨"a", "b", 5, "e1"⟩], true⟩ (by decide) (by decide)
  have h3 := h.2.2 ⟨["a", "b"], .finite 2, [⟨"a", "b", 2, "e2"⟩], true, false, none⟩
    (by decide) ⟨"a", "b", 2, "e2"⟩ (by decide)
  exact ⟨h.1, h2.1, h2.2.1, h2.2.2, h3⟩

/-! ## Claim C8 -/

/-- C8 (amended): `bellmanFord` always returns a complete result record;
`dijkstra`, `analyzeEulerian` and `analyzeHamiltonian` return one
whenever every unblocked edge endpoint is a listed node id — a
dangling-endpoint edge instead makes their adjacency build throw
(`c8_counterexample`), so their totality needs that hypothesis. -/
theorem c8_total (nodes : List Node) (edges : List (Edge α)) (startId endId : String) :
    (bellmanFord nodes edges startId endId).isSome = true ∧
    (edgesOk (nodes.map Node.id) edges = true →
      (dijkstra nodes edges startId endId).isSome = true ∧
      (analyzeEulerian nodes edges).isSome = true ∧
      (analyzeHamiltonian nodes edges).isSome = true) :=
  ⟨bellman_isSome nodes edges startId endId,
    fun hok => ⟨dijkstra_isSome hok, analyzeEulerian_isSome hok,
      analyzeHamiltonian_isSome hok⟩⟩

/-- C8 witness: `bellmanFord` returns even on the dangling-endpoint
snapshot, and all four operations return on a well-formed two-node
snapshot. -/
theorem c8_total_witness :
    (bellmanFord [⟨"a"⟩, ⟨"b"⟩] ([⟨"e1", "a", "x", 1, false⟩] : List (Edge ℤ))
        "a" "b").isSome = true ∧
    ((dijkstra [⟨"a"⟩, ⟨"b"⟩] ([⟨"e2", "a", "b", 1, false⟩] : List (Edge ℤ))
        "a" "b").isSome = true ∧
      (analyzeEulerian [⟨"a"⟩, ⟨"b"⟩]
        ([⟨"e2", "a", "b", 1, false⟩] : List (Edge ℤ))).isSome = true ∧
      (analyzeHamiltonian [⟨"a"⟩, ⟨"b"⟩]
        ([⟨"e2", "a", "b", 1, false⟩] : List (Edge ℤ))).isSome = true) :=
  ⟨(c8_total [⟨"a"⟩, ⟨"b"⟩] ([⟨"e1", "a", "x", 1, false⟩] : List (Edge ℤ)) "a" "b").1,
    (c8_total [⟨"a"⟩, ⟨"b"⟩] ([⟨"e2", "a", "b", 1, false⟩] : List (Edge ℤ)) "a" "b").2
      (by decide)⟩

/-! ## Claim C9 -/

/-- C9 (amended): an unblocked negative-weight edge whose `from`
endpoint is reachable from the origin (with both endpoints listed and
the non-degenerate guards passing) makes every returned record carry
`hasNegativeCycle = true`; if additionally the destination is connected
to that edge, the result is exactly the negative-cycle record with
`found = false`.  (Reachability of the edge is needed —
`c9_counterexample` shows the degenerate origin-equals-destination guard
returning `found = true` with `hasNegativeCycle = false`.) -/
theorem c9_negative_edge (nodes : List Node) (edges : List (Edge α)) (startId endId : String)
    (e : Edge α)
    (h0 : ¬ nodes = []) (h1 : ¬ (startId = "" ∨ endId = "")) (h2 : ¬ startId = endId)
    (h3 : ¬ (startId ∉ nodes.map Node.id ∨ endId ∉ nodes.map Node.id))
    (he : e ∈ edges) (hb : e.blocked = false) (hw : e.weight < 0)
    (hef : e.from' ∈ nodes.map Node.id) (het : e.to' ∈ nodes.map Node.id)
    (hreach : breach (bidirEdges edges) (nodes.map Node.id) startId e.from') :
    (∀ r : BellmanResult α, bellmanFord nodes edges startId endId = some r →
      r.hasNegativeCycle = true) ∧
    (breach (bidirEdges edges) (nodes.map Node.id) e.from' endId →
      bellmanFord nodes edges startId endId =
        some ⟨[], .negInfinity, [], false, true,
          some ("Destination is affected by a negative weight cycle")⟩) := by
  have hs : startId ∈ nodes.map Node.id := not_not.mp (not_or.mp h3).1
  obtain ⟨be', hbe', hrel, hre'⟩ := bf_negedge_relaxable hs he hb hw hef het hreach
  have h4 : ¬ bidirEdges edges = [] := by
    intro hnil
    rw [hnil] at hbe'
    exact List.not_mem_nil _ hbe'
  have ht0 : initialTaint (bidirEdges edges) (bfFinal nodes edges startId).1 ≠ [] := by
    intro hnil
    have hmem := initialTaint_mem hbe' hrel
    rw [hnil] at hmem
    exact List.not_mem_nil _ hmem
  refine ⟨fun r hr => bellman_result_hNC h0 h1 h2 h3 h4 ht0 hr, fun hdest => ?_⟩
  exact bellman_taint_result h0 h1 h2 h3 h4
    (bf_taint_cond hbe' hrel (Relation.ReflTransGen.trans hre' hdest))

/-- C9 witness: the negative edge `a → b` (weight `-1`) is reachable
from the origin `s` and touches the destination `b`, so `bellmanFord`
returns the negative-cycle record. -/
theorem c9_negative_edge_witness :
    bellmanFord [⟨"s"⟩, ⟨"a"⟩, ⟨"b"⟩]
        ([⟨"f1", "s", "a", 1, false⟩, ⟨"f2", "a", "b", -1, false⟩] : List (Edge ℤ)) "s" "b" =
      some ⟨[], .negInfinity, [], false, true,
        some ("Destination is affected by a negative weight cycle")⟩ :=
  (c9_negative_edge [⟨"s"⟩, ⟨"a"⟩, ⟨"b"⟩]
      ([⟨"f1", "s", "a", 1, false⟩, ⟨"f2", "a", "b", -1, false⟩] : List (Edge ℤ)) "s" "b"
      ⟨"f2", "a", "b", -1, false⟩
      (by decide) (by decide) (by decide) (by decide)
      (by decide) rfl (by decide) (by decide) (by decide)
      (Relation.ReflTransGen.single (by decide))).2
    (Relation.ReflTransGen.single (by decide))
end AmbulanceRoute